import Mathlib

/-!
# search6 command-line client: model of `cli.go`

`cli.go` is one function, `main`, which chains four fallible library calls
(`strconv.Atoi`, `http.Get`, `io.ReadAll`, `json.Unmarshal`) and prints the
decoded `User` with `fmt.Printf`.

The embedding keeps `main` as one definition that follows the source line by
line.  The Go standard-library functions it calls are modelled next to it, each
after the library routine of the same name (64-bit platform, so `int` and
`int64` are both 64 bits wide).  Go strings and byte slices are lists of byte
values.  What the network returns, and the wording of library error messages
that the program only forwards, are fields of `World`.
-/

namespace Search6

/-! ## Bytes and strings -/

/-- Go strings and byte slices: sequences of byte values. -/
abbrev Bytes := List Nat

/-- UTF-8 encoding of a code point, after `utf8.EncodeRune`: surrogates and values
above U+10FFFF are written as U+FFFD. -/
def encodeRune (r : Nat) : Bytes :=
  if r < 0x80 then [r]
  else if r < 0x800 then [0xC0 + r / 64, 0x80 + r % 64]
  else if (0xD800 ≤ r ∧ r ≤ 0xDFFF) ∨ 0x10FFFF < r then [0xEF, 0xBF, 0xBD]
  else if r < 0x10000 then [0xE0 + r / 4096, 0x80 + r / 64 % 64, 0x80 + r % 64]
  else [0xF0 + r / 262144, 0x80 + r / 4096 % 64, 0x80 + r / 64 % 64, 0x80 + r % 64]

/-- Bytes of a string constant of the source (Go source text is UTF-8). -/
def bytesOf (s : String) : Bytes :=
  s.toList.flatMap (fun c => encodeRune c.toNat)

/-! ## strconv: Atoi -/

/-- The two sentinel errors of package strconv. -/
inductive NumErrKind where
  | ErrSyntax
  | ErrRange
  deriving DecidableEq, Repr

/-- Text of `ErrSyntax.Error()` and `ErrRange.Error()`. -/
def NumErrKind.text : NumErrKind → Bytes
  | .ErrSyntax => bytesOf "invalid syntax"
  | .ErrRange => bytesOf "value out of range"

/-- A `*strconv.NumError`: the failing function, the input and the cause. -/
structure NumError where
  Func : Bytes
  Num : Bytes
  Err : NumErrKind
  deriving DecidableEq, Repr

/-- `NumError.Error()`: `"strconv." + Func + ": parsing " + Quote(Num) + ": " + Err.Error()`.
`strconv.Quote` depends on Unicode tables and is passed in. -/
def NumError.Error (quote : Bytes → Bytes) (e : NumError) : Bytes :=
  bytesOf "strconv." ++ e.Func ++ bytesOf ": parsing " ++ quote e.Num ++ bytesOf ": " ++ e.Err.text

/-- Loop of `ParseUint` for base 10 and bit size 64.  `n` is a `uint64`; the sum
`n*10 + d` wraps modulo `2^64` and the wrap is detected by `n1 < n`. -/
def parseUintLoop : Bytes → Nat → Except NumErrKind Nat
  | [], n => .ok n
  | c :: cs, n =>
    if 48 ≤ c ∧ c ≤ 57 then
      -- cutoff = maxUint64/10 + 1
      if n ≥ (2 ^ 64 - 1) / 10 + 1 then .error .ErrRange
      else
        let n10 := (n * 10) % 2 ^ 64
        let n1 := (n10 + (c - 48)) % 2 ^ 64
        if n1 < n10 ∨ n1 > 2 ^ 64 - 1 then .error .ErrRange
        else parseUintLoop cs n1
    else .error .ErrSyntax

/-- `ParseUint(s, 10, 64)`: in base 10 there is no prefix and no underscore. -/
def ParseUint (s : Bytes) : Except NumErrKind Nat :=
  if s = [] then .error .ErrSyntax else parseUintLoop s 0

/-- `ParseInt(s, 10, bitSize)` for a 64-bit result: sign, then `ParseUint`, then the
comparison with `cutoff = 1 << 63`. -/
def ParseInt (s : Bytes) : Except NumErrKind Int :=
  match s with
  | [] => .error .ErrSyntax
  | c :: rest =>
    let neg := c = 45
    let digits := if c = 43 ∨ c = 45 then rest else s
    match ParseUint digits with
    | .error k => .error k
    | .ok un =>
      if ¬ neg ∧ un ≥ 2 ^ 63 then .error .ErrRange
      else if neg ∧ un > 2 ^ 63 then .error .ErrRange
      else .ok (if neg then -(un : Int) else (un : Int))

/-- Loop of the fast path of `Atoi`: `ch -= '0'; if ch > 9 { error }; n = n*10 + int(ch)`.
A byte below `'0'` wraps above 9 under the subtraction. -/
def atoiFastLoop : Bytes → Int → Option Int
  | [], n => some n
  | ch :: rest, n =>
    if 48 ≤ ch ∧ ch ≤ 57 then atoiFastLoop rest (n * 10 + ((ch - 48 : Nat) : Int)) else none

/-- `strconv.Atoi` where `intSize` is 64: strings of 1 to 18 bytes take the fast
path, all others `ParseInt(s, 10, 0)` with the function name of the error replaced by
`Atoi`. -/
def Atoi (s : Bytes) : Except NumError Int :=
  if 0 < s.length ∧ s.length < 19 then
    match s with
    | [] => .error ⟨bytesOf "Atoi", s, .ErrSyntax⟩
    | c :: rest =>
      let digits := if c = 45 ∨ c = 43 then rest else s
      if (c = 45 ∨ c = 43) ∧ rest.length < 1 then .error ⟨bytesOf "Atoi", s, .ErrSyntax⟩
      else
        match atoiFastLoop digits 0 with
        | none => .error ⟨bytesOf "Atoi", s, .ErrSyntax⟩
        | some n => .ok (if c = 45 then -n else n)
  else
    match ParseInt s with
    | .error k => .error ⟨bytesOf "Atoi", s, k⟩
    | .ok n => .ok n

/-! ## strconv: Itoa -/

/-- The table `smallsString` of strconv: the two-digit renderings of 0 to 99. -/
def smallsString : Bytes :=
  bytesOf ("00010203040506070809" ++ "10111213141516171819" ++ "20212223242526272829" ++
    "30313233343536373839" ++ "40414243444546474849" ++ "50515253545556575859" ++
    "60616263646566676869" ++ "70717273747576777879" ++ "80818283848586878889" ++
    "90919293949596979899")

/-- The table `digits` of strconv. -/
def digitsTable : Bytes := bytesOf "0123456789abcdefghijklmnopqrstuvwxyz"

/-- `small(i)`: `digits[i:i+1]` below 10, else `smallsString[i*2 : i*2+2]`. -/
def small (i : Nat) : Bytes :=
  if i < 10 then (digitsTable.drop i).take 1 else (smallsString.drop (i * 2)).take 2

/-- Main loop of `formatBits` in base 10: while `us >= 100`, two digits of
`us % 100` are written in front of the text produced so far.  The fuel is the
room left in the 65-byte buffer. -/
def formatBitsLoop : Nat → Nat → Bytes → Nat × Bytes
  | 0, us, acc => (us, acc)
  | fuel + 1, us, acc =>
    if us ≥ 100 then
      let is := us % 100 * 2
      formatBitsLoop fuel (us / 100) (smallsString.getD is 0 :: smallsString.getD (is + 1) 0 :: acc)
    else (us, acc)

/-- `formatBits(nil, u, 10, neg, false)` with `u` already the magnitude. -/
def formatBits (u : Nat) (neg : Bool) : Bytes :=
  let (us, acc) := formatBitsLoop 32 u []
  let is := us * 2
  let acc := smallsString.getD (is + 1) 0 :: acc
  let acc := if us ≥ 10 then smallsString.getD is 0 :: acc else acc
  if neg then 45 :: acc else acc

/-- `FormatInt(i, 10)`: small non-negative values come from the table. -/
def FormatInt (i : Int) : Bytes :=
  if 0 ≤ i ∧ i < 100 then small i.toNat else formatBits i.natAbs (decide (i < 0))

/-- `strconv.Itoa(i)` is `FormatInt(int64(i), 10)`. -/
def Itoa (i : Int) : Bytes := FormatInt i

/-! ## fmt: the verbs used by `main` -/

/-- Base-10 loop of `fmt.fmtInteger`: one digit at a time from the right.  The fuel
is the room left in the integer buffer. -/
def fmtIntegerLoop : Nat → Nat → Bytes → Nat × Bytes
  | 0, u, acc => (u, acc)
  | fuel + 1, u, acc =>
    if u ≥ 10 then
      let next := u / 10
      fmtIntegerLoop fuel next ((48 + u - next * 10) :: acc)
    else (u, acc)

/-- `fmtInteger(u, 10, true, 'd', ldigits)` without flags, width or precision. -/
def fmtInteger (v : Int) : Bytes :=
  let (u, acc) := fmtIntegerLoop 67 v.natAbs []
  let acc := digitsTable.getD u 0 :: acc
  if v < 0 then 45 :: acc else acc

/-- An operand of `Printf`: the source passes strings and integers. -/
inductive Arg where
  | str (s : Bytes)
  | int (v : Int)
  deriving DecidableEq, Repr

/-- `fmt.Sprintf` for the format strings of `main`: `%s` with a string operand copies
its bytes, `%d` with an integer operand prints it in base 10, `%%` is a percent sign
and every other byte is copied.  A verb without a fitting operand does not occur in
`main`; for it the marker `%!verb(BADARG)` stands in for the diagnostics of fmt. -/
def Sprintf : Bytes → List Arg → Bytes
  | [], _ => []
  | 37 :: 115 :: rest, Arg.str s :: args => s ++ Sprintf rest args
  | 37 :: 100 :: rest, Arg.int v :: args => fmtInteger v ++ Sprintf rest args
  | 37 :: 37 :: rest, args => 37 :: Sprintf rest args
  | 37 :: v :: rest, args => bytesOf "%!" ++ [v] ++ bytesOf "(BADARG)" ++ Sprintf rest (args.drop 1)
  | c :: rest, args => c :: Sprintf rest args

/-! ## unicode/utf8 and unicode/utf16 -/

/-- `utf8.DecodeRune`: the code point at the head of the bytes and its width.  An
invalid or truncated sequence gives U+FFFD and width 1, empty input width 0. -/
def decodeRune : Bytes → Nat × Nat
  | [] => (0xFFFD, 0)
  | p0 :: rest =>
    if p0 < 0x80 then (p0, 1)
    else if p0 < 0xC2 ∨ 0xF4 < p0 then (0xFFFD, 1)
    else
      -- acceptRanges: the bounds of the second byte depend on the first
      let lo := if p0 = 0xE0 then 0xA0 else if p0 = 0xF0 then 0x90 else 0x80
      let hi := if p0 = 0xED then 0x9F else if p0 = 0xF4 then 0x8F else 0xBF
      let sz := if p0 < 0xE0 then 2 else if p0 < 0xF0 then 3 else 4
      match rest with
      | [] => (0xFFFD, 1)
      | b1 :: rest1 =>
        if rest.length + 1 < sz then (0xFFFD, 1)
        else if b1 < lo ∨ hi < b1 then (0xFFFD, 1)
        else if sz ≤ 2 then (p0 % 32 * 64 + b1 % 64, 2)
        else
          match rest1 with
          | [] => (0xFFFD, 1)
          | b2 :: rest2 =>
            if b2 < 0x80 ∨ 0xBF < b2 then (0xFFFD, 1)
            else if sz ≤ 3 then (p0 % 16 * 4096 + b1 % 64 * 64 + b2 % 64, 3)
            else
              match rest2 with
              | [] => (0xFFFD, 1)
              | b3 :: _ =>
                if b3 < 0x80 ∨ 0xBF < b3 then (0xFFFD, 1)
                else (p0 % 8 * 262144 + b1 % 64 * 4096 + b2 % 64 * 64 + b3 % 64, 4)

/-- `utf16.DecodeRune`: the code point of a surrogate pair, U+FFFD when the two
values are not a high and a low surrogate. -/
def utf16DecodeRune (r1 r2 : Nat) : Nat :=
  if 0xD800 ≤ r1 ∧ r1 < 0xDC00 ∧ 0xDC00 ≤ r2 ∧ r2 < 0xE000 then
    (r1 - 0xD800) * 1024 + (r2 - 0xDC00) + 0x10000
  else 0xFFFD

/-! ## encoding/json: scanner -/

/-- Value of a hexadecimal digit, as in `getu4`. -/
def hexVal (c : Nat) : Option Nat :=
  if 48 ≤ c ∧ c ≤ 57 then some (c - 48)
  else if 97 ≤ c ∧ c ≤ 102 then some (c - 97 + 10)
  else if 65 ≤ c ∧ c ≤ 70 then some (c - 65 + 10)
  else none

/-- `getu4`: the value of a leading `\uXXXX`, nothing when the bytes do not start
with such an escape. -/
def getu4 : Bytes → Option Nat
  | 92 :: 117 :: a :: b :: c :: d :: _ =>
    match hexVal a, hexVal b, hexVal c, hexVal d with
    | some x, some y, some z, some w => some (x * 4096 + y * 256 + z * 16 + w)
    | _, _, _, _ => none
  | _ => none

/-- `isSpace` of the scanner. -/
def isSpace (c : Nat) : Bool := c = 32 || c = 9 || c = 13 || c = 10

/-- Bytes left after the white space the scanner skips between tokens. -/
def skipSpace : Bytes → Bytes
  | [] => []
  | c :: rest => if isSpace c then skipSpace rest else c :: rest

/-- A run of decimal digits and what follows it (scanner states `state1`,
`stateDot0`, `stateE0`). -/
def takeDigits : Bytes → Bytes × Bytes
  | [] => ([], [])
  | c :: rest =>
    if 48 ≤ c ∧ c ≤ 57 then
      let (ds, r) := takeDigits rest
      (c :: ds, r)
    else ([], c :: rest)

/-- Scanner states `stateE`, `stateESign`, `stateE0`: the exponent of a number, or
nothing when no exponent follows. -/
def scanExp (s : Bytes) : Option (Bytes × Bytes) :=
  match s with
  | e :: rest =>
    if e = 101 ∨ e = 69 then
      match rest with
      | sg :: rest1 =>
        if sg = 43 ∨ sg = 45 then
          match takeDigits rest1 with
          | ([], _) => none
          | (ds, r) => some (e :: sg :: ds, r)
        else
          match takeDigits rest with
          | ([], _) => none
          | (ds, r) => some (e :: ds, r)
      | [] => none
    else some ([], s)
  | [] => some ([], s)

/-- Scanner states `stateDot`, `stateDot0`: the fraction of a number, or nothing
when no point follows. -/
def scanFrac (s : Bytes) : Option (Bytes × Bytes) :=
  match s with
  | 46 :: rest =>
    match takeDigits rest with
    | ([], _) => none
    | (ds, r) => some (46 :: ds, r)
  | _ => some ([], s)

/-- Scanner states `state0` and `state1`: the integer part of a number. -/
def scanInt (s : Bytes) : Option (Bytes × Bytes) :=
  match s with
  | c :: rest =>
    if c = 48 then some ([48], rest)
    else if 49 ≤ c ∧ c ≤ 57 then
      let (ds, r) := takeDigits rest
      some (c :: ds, r)
    else none
  | [] => none

/-- A number literal at the head of the input (scanner states `stateNeg` to
`stateE0`): the literal and the rest of the input. -/
def scanNumber (s : Bytes) : Option (Bytes × Bytes) :=
  let (sign, s1) := match s with
    | 45 :: rest => ([45], rest)
    | _ => ([], s)
  match scanInt s1 with
  | none => none
  | some (ip, s2) =>
    match scanFrac s2 with
    | none => none
    | some (fp, s3) =>
      match scanExp s3 with
      | none => none
      | some (ep, s4) => some (sign ++ ip ++ fp ++ ep, s4)

/-- Scanner states `stateInString`, `stateInStringEsc`, `stateInStringEscU` and
following: the bytes of a string literal after its opening quote up to the closing
quote, undecoded, and the rest of the input. -/
def scanString : Bytes → Option (Bytes × Bytes)
  | [] => none
  | 34 :: rest => some ([], rest)
  | 92 :: [] => none
  | 92 :: 117 :: a :: b :: c :: d :: rest =>
    if (hexVal a).isSome ∧ (hexVal b).isSome ∧ (hexVal c).isSome ∧ (hexVal d).isSome then
      match scanString rest with
      | some (raw, r) => some (92 :: 117 :: a :: b :: c :: d :: raw, r)
      | none => none
    else none
  | 92 :: e :: rest =>
    if e = 98 ∨ e = 102 ∨ e = 110 ∨ e = 114 ∨ e = 116 ∨ e = 92 ∨ e = 47 ∨ e = 34 then
      match scanString rest with
      | some (raw, r) => some (92 :: e :: raw, r)
      | none => none
    else none
  | c :: rest =>
    if c < 32 then none
    else
      match scanString rest with
      | some (raw, r) => some (c :: raw, r)
      | none => none

/-! ## encoding/json: unquoting -/

/-- First loop of `unquoteBytes`: the number of leading bytes that need no
rewriting (no backslash, quote, control byte or malformed UTF-8).  `skip` counts the
bytes of the current code point still to step over. -/
def unquoteClean : Nat → Bytes → Nat
  | _, [] => 0
  | skip + 1, _ :: rest => 1 + unquoteClean skip rest
  | 0, c :: rest =>
    if c = 92 ∨ c = 34 ∨ c < 32 then 0
    else if c < 0x80 then 1 + unquoteClean 0 rest
    else
      let (rr, size) := decodeRune (c :: rest)
      if rr = 0xFFFD ∧ size = 1 then 0 else 1 + unquoteClean (size - 1) rest

/-- Second loop of `unquoteBytes`: escapes are replaced by the bytes they stand
for, a surrogate pair by its code point, a lone surrogate and malformed UTF-8 by
U+FFFD.  `skip` counts the bytes of the current escape or code point still to step
over. -/
def unquoteRewrite : Nat → Bytes → Option Bytes
  | _, [] => some []
  | skip + 1, _ :: rest => unquoteRewrite skip rest
  | 0, c :: rest =>
    if c = 92 then
      match rest with
      | [] => none
      | e :: _ =>
        if e = 34 ∨ e = 92 ∨ e = 47 ∨ e = 39 then (unquoteRewrite 1 rest).map (e :: ·)
        else if e = 98 then (unquoteRewrite 1 rest).map (8 :: ·)
        else if e = 102 then (unquoteRewrite 1 rest).map (12 :: ·)
        else if e = 110 then (unquoteRewrite 1 rest).map (10 :: ·)
        else if e = 114 then (unquoteRewrite 1 rest).map (13 :: ·)
        else if e = 116 then (unquoteRewrite 1 rest).map (9 :: ·)
        else if e = 117 then
          match getu4 (c :: rest) with
          | none => none
          | some rr =>
            if 0xD800 ≤ rr ∧ rr < 0xE000 then
              let rr1 := (getu4 (rest.drop 5)).getD 0
              let dec := utf16DecodeRune rr rr1
              if (getu4 (rest.drop 5)).isSome ∧ dec ≠ 0xFFFD then
                (unquoteRewrite 11 rest).map (encodeRune dec ++ ·)
              else (unquoteRewrite 5 rest).map (encodeRune 0xFFFD ++ ·)
            else (unquoteRewrite 5 rest).map (encodeRune rr ++ ·)
        else none
    else if c = 34 ∨ c < 32 then none
    else if c < 0x80 then (unquoteRewrite 0 rest).map (c :: ·)
    else
      let (rr, size) := decodeRune (c :: rest)
      (unquoteRewrite (size - 1) rest).map (encodeRune rr ++ ·)

/-- `unquoteBytes` on the bytes between the quotes of a string literal. -/
def unquoteBytes (s : Bytes) : Option Bytes :=
  let r := unquoteClean 0 s
  if r = s.length then some s
  else (unquoteRewrite 0 (s.drop r)).map (s.take r ++ ·)

/-! ## encoding/json: values -/

/-- A JSON value as the decoder sees it: a number keeps its literal, a string is
unquoted, an object keeps its members in input order with unquoted keys. -/
inductive JValue where
  | null
  | bool (b : Bool)
  | num (lit : Bytes)
  | str (s : Bytes)
  | arr (xs : List JValue)
  | obj (ms : List (Bytes × JValue))

/-- `maxNestingDepth` of the scanner. -/
def maxNestingDepth : Nat := 10000

mutual
/-- One JSON value at the head of the input, which starts at a non-space byte
(scanner state `stateBeginValue`).  `depth` is the number of arrays and objects
open around it; opening one more than `limit` is an error (the scanner's limit is
`maxNestingDepth`).  Every call consumes input, so fuel above twice the input length
is never used up. -/
def parseValue (limit : Nat) : Nat → Nat → Bytes → Option (JValue × Bytes)
  | 0, _, _ => none
  | _ + 1, _, [] => none
  | fuel + 1, depth, c :: rest =>
    if c = 123 then
      if depth ≥ limit then none
      else
        match skipSpace rest with
        | 125 :: rest1 => some (.obj [], rest1)
        | s1 => parseMembers limit fuel (depth + 1) [] s1
    else if c = 91 then
      if depth ≥ limit then none
      else
        match skipSpace rest with
        | 93 :: rest1 => some (.arr [], rest1)
        | s1 => parseElements limit fuel (depth + 1) [] s1
    else if c = 34 then
      match scanString rest with
      | none => none
      | some (raw, rest1) =>
        match unquoteBytes raw with
        | none => none
        | some s => some (.str s, rest1)
    else if c = 116 then
      match rest with
      | 114 :: 117 :: 101 :: rest1 => some (.bool true, rest1)
      | _ => none
    else if c = 102 then
      match rest with
      | 97 :: 108 :: 115 :: 101 :: rest1 => some (.bool false, rest1)
      | _ => none
    else if c = 110 then
      match rest with
      | 117 :: 108 :: 108 :: rest1 => some (.null, rest1)
      | _ => none
    else
      match scanNumber (c :: rest) with
      | none => none
      | some (lit, rest1) => some (.num lit, rest1)
/-- The elements of an array from the head of one element on (scanner states
`stateBeginValue` and `stateEndValue` inside an array): a value, then a comma and
the next element, or the closing bracket. -/
def parseElements (limit : Nat) : Nat → Nat → List JValue → Bytes → Option (JValue × Bytes)
  | 0, _, _, _ => none
  | fuel + 1, depth, acc, s =>
    match parseValue limit fuel depth s with
    | none => none
    | some (v, rest) =>
      match skipSpace rest with
      | 44 :: rest1 => parseElements limit fuel depth (v :: acc) (skipSpace rest1)
      | 93 :: rest1 => some (.arr (v :: acc).reverse, rest1)
      | _ => none
/-- The members of an object from the head of one key on (scanner states
`stateBeginString`, `stateEndValue` inside an object): a string, a colon, a value,
then a comma and the next member, or the closing brace. -/
def parseMembers (limit : Nat) : Nat → Nat → List (Bytes × JValue) → Bytes →
    Option (JValue × Bytes)
  | 0, _, _, _ => none
  | fuel + 1, depth, acc, s =>
    match s with
    | 34 :: rest =>
      match scanString rest with
      | none => none
      | some (raw, rest1) =>
        match unquoteBytes raw with
        | none => none
        | some key =>
          match skipSpace rest1 with
          | 58 :: rest2 =>
            match parseValue limit fuel depth (skipSpace rest2) with
            | none => none
            | some (v, rest3) =>
              match skipSpace rest3 with
              | 44 :: rest4 => parseMembers limit fuel depth ((key, v) :: acc) (skipSpace rest4)
              | 125 :: rest4 => some (.obj ((key, v) :: acc).reverse, rest4)
              | _ => none
          | _ => none
    | _ => none
end

/-- The value of a whole JSON text, as `checkValid` followed by the decoder's walk
reads it: white space, one value, white space, end of input. -/
def parseJSON (data : Bytes) : Option JValue :=
  match parseValue maxNestingDepth (2 * data.length + 2) 0 (skipSpace data) with
  | none => none
  | some (v, rest) => if skipSpace rest = [] then some v else none

/-! ## The `User` record of `cli.go` -/

/-- A `float64` field.  Only its presence is ever observed: `none` is the zero
value, `some lit` the value `ParseFloat` gives for the number literal `lit`. -/
abbrev Float64 := Option Bytes

/-- The struct `User` of `cli.go`.  Go strings are byte sequences, `int` and
`int64` integers in the 64-bit range.  The defaults are Go's zero values, which is
what `new(User)` holds. -/
structure User where
  AvatarURL : Bytes := []
  Level : Int := 0
  LevelProgress : Float64 := none
  Xp : Int := 0
  ID : Int := 0
  Username : Bytes := []
  Discriminator : Bytes := []
  Avatar : Bytes := []
  MessageCount : Int := 0
  Rank : Int := 0
  deriving DecidableEq, Repr

/-- The fields of `User`, in declaration order. -/
inductive Field where
  | AvatarURL
  | Level
  | LevelProgress
  | Xp
  | ID
  | Username
  | Discriminator
  | Avatar
  | MessageCount
  | Rank
  deriving DecidableEq, Repr

/-- The kinds of Go type the fields have. -/
inductive Kind where
  | String
  | Int
  | Float64
  deriving DecidableEq, Repr

/-- The `json:"..."` tag of each field. -/
def Field.tag : Field → Bytes
  | .AvatarURL => bytesOf "avatar_url"
  | .Level => bytesOf "level"
  | .LevelProgress => bytesOf "level_progress"
  | .Xp => bytesOf "xp"
  | .ID => bytesOf "id"
  | .Username => bytesOf "username"
  | .Discriminator => bytesOf "discriminator"
  | .Avatar => bytesOf "avatar"
  | .MessageCount => bytesOf "message_count"
  | .Rank => bytesOf "rank"

/-- The declared type of each field (`int` and `int64` are both 64-bit integers). -/
def Field.kind : Field → Kind
  | .AvatarURL => .String
  | .Level => .Int
  | .LevelProgress => .Float64
  | .Xp => .Int
  | .ID => .Int
  | .Username => .String
  | .Discriminator => .String
  | .Avatar => .String
  | .MessageCount => .Int
  | .Rank => .Int

/-- All fields, in declaration order. -/
def allFields : List Field :=
  [.AvatarURL, .Level, .LevelProgress, .Xp, .ID, .Username, .Discriminator, .Avatar,
   .MessageCount, .Rank]

/-- Assignment of a string to a field of string type. -/
def User.setString (u : User) (f : Field) (s : Bytes) : User :=
  match f with
  | .AvatarURL => { u with AvatarURL := s }
  | .Username => { u with Username := s }
  | .Discriminator => { u with Discriminator := s }
  | .Avatar => { u with Avatar := s }
  | _ => u

/-- Assignment of an integer to a field of integer type. -/
def User.setInt (u : User) (f : Field) (n : Int) : User :=
  match f with
  | .Level => { u with Level := n }
  | .Xp => { u with Xp := n }
  | .ID => { u with ID := n }
  | .MessageCount => { u with MessageCount := n }
  | .Rank => { u with Rank := n }
  | _ => u

/-- Assignment of a number to a field of type `float64`. -/
def User.setFloat (u : User) (f : Field) (lit : Bytes) : User :=
  match f with
  | .LevelProgress => { u with LevelProgress := some lit }
  | _ => u

/-! ## encoding/json: decoding into `User` -/

/-- The errors `json.Unmarshal` returns: a `*SyntaxError` for input that is not
JSON, an `*UnmarshalTypeError` naming the JSON value that did not fit and the field
it was meant for. -/
inductive JsonError where
  | SyntaxError (data : Bytes)
  | UnmarshalTypeError (Value : Bytes) (Field : Bytes)
  deriving DecidableEq, Repr

/-- `foldRune`: the smallest code point with the same simple case folding.  Of
the code points above ASCII only U+212A (Kelvin sign) and U+017F (long s) fold to
ASCII letters; any other stays above ASCII, which is all that a comparison with the
ASCII tags of `User` depends on, and is left as it is. -/
def foldRune (r : Nat) : Nat :=
  if r = 0x212A then 0x4B else if r = 0x17F then 0x53 else r

/-- `foldName`: ASCII letters in upper case, every other code point replaced by its
`foldRune`.  `skip` counts the bytes of the current code point still to step over. -/
def foldName : Nat → Bytes → Bytes
  | _, [] => []
  | skip + 1, _ :: rest => foldName skip rest
  | 0, c :: rest =>
    if c < 0x80 then (if 97 ≤ c ∧ c ≤ 122 then c - 32 else c) :: foldName 0 rest
    else
      let (r, n) := decodeRune (c :: rest)
      encodeRune (foldRune r) ++ foldName (n - 1) rest

/-- The field an object key selects: the one whose tag is the key, else the one
whose tag equals the key under `foldName`, else none. -/
def findField (key : Bytes) : Option Field :=
  match allFields.find? (fun f => f.tag = key) with
  | some f => some f
  | none => allFields.find? (fun f => foldName 0 f.tag = foldName 0 key)

/-- `ParseFloat(lit, 64)` succeeds unless the value rounds to infinity, that is
unless its magnitude reaches `2^1024 - 2^970`.  The literal is a JSON number; as in
`readFloat`, an exponent stops growing once it has passed 10000. -/
def floatInRange (lit : Bytes) : Bool :=
  let body := match lit with
    | 45 :: rest => rest
    | _ => lit
  let (ip, r1) := takeDigits body
  let (fp, r2) := match r1 with
    | 46 :: rest => takeDigits rest
    | _ => ([], r1)
  let (eneg, ed) := match r2 with
    | _ :: 45 :: rest => (true, rest)
    | _ :: 43 :: rest => (false, rest)
    | _ :: rest => (false, rest)
    | [] => (false, [])
  let e := ed.foldl (fun e c => if e < 10000 then e * 10 + (c - 48) else e) 0
  let mant := (ip ++ fp).foldl (fun m c => m * 10 + (c - 48)) 0
  let limit := 2 ^ 1024 - 2 ^ 970
  if eneg then mant < limit * 10 ^ (e + fp.length)
  else if fp.length ≤ e then mant * 10 ^ (e - fp.length) < limit
  else mant < limit * 10 ^ (fp.length - e)

/-- `literalStore`, `array` and `object` of the decoder on a field of `User`: the
value is stored when its JSON type fits the field, `null` leaves the field as it
is, anything else is an `UnmarshalTypeError` and leaves the field as it is. -/
def storeField (u : User) (f : Field) (v : JValue) : User × Option JsonError :=
  match v with
  | .null => (u, none)
  | .bool _ => (u, some (.UnmarshalTypeError (bytesOf "bool") f.tag))
  | .arr _ => (u, some (.UnmarshalTypeError (bytesOf "array") f.tag))
  | .obj _ => (u, some (.UnmarshalTypeError (bytesOf "object") f.tag))
  | .str s =>
    match f.kind with
    | .String => (u.setString f s, none)
    | _ => (u, some (.UnmarshalTypeError (bytesOf "string") f.tag))
  | .num lit =>
    match f.kind with
    | .String => (u, some (.UnmarshalTypeError (bytesOf "number") f.tag))
    | .Int =>
      match ParseInt lit with
      | .ok n => (u.setInt f n, none)
      | .error _ => (u, some (.UnmarshalTypeError (bytesOf "number " ++ lit) f.tag))
    | .Float64 =>
      if floatInRange lit then (u.setFloat f lit, none)
      else (u, some (.UnmarshalTypeError (bytesOf "number " ++ lit) f.tag))

/-- The member loop of the decoder's `object`: each member whose key selects a
field is stored into it, other members are skipped; `saveError` keeps the first
error and decoding goes on. -/
def decodeMembers : List (Bytes × JValue) → User → Option JsonError → User × Option JsonError
  | [], u, err => (u, err)
  | (key, v) :: ms, u, err =>
    match findField key with
    | none => decodeMembers ms u err
    | some f =>
      let (u1, e1) := storeField u f v
      decodeMembers ms u1 (if err.isSome then err else e1)

/-- `json.Unmarshal(data, user)` with `user := new(User)`: the record after the
call and the error returned.  Input that is not JSON is a `SyntaxError`; an object
is decoded member by member; `null` is accepted and changes nothing; any other
value is an `UnmarshalTypeError`. -/
def Unmarshal (data : Bytes) : User × Option JsonError :=
  match parseJSON data with
  | none => ({}, some (.SyntaxError data))
  | some (.obj ms) => decodeMembers ms {} none
  | some .null => ({}, none)
  | some (.arr _) => ({}, some (.UnmarshalTypeError (bytesOf "array") []))
  | some (.bool _) => ({}, some (.UnmarshalTypeError (bytesOf "bool") []))
  | some (.str _) => ({}, some (.UnmarshalTypeError (bytesOf "string") []))
  | some (.num _) => ({}, some (.UnmarshalTypeError (bytesOf "number") []))

/-! ## The process and its surroundings -/

/-- An `*http.Response` as far as `main` uses it: what `io.ReadAll(req.Body)`
returns, the bytes of the body or the message of a read error. -/
structure Response where
  Body : Except Bytes Bytes

/-- Everything outside the program that a run depends on. -/
structure World where
  /-- The argument list `os.Args`, program name first. -/
  Args : List Bytes
  /-- The result of `http.Get` on a URL: a response, or the message of the error. -/
  Get : Bytes → Except Bytes Response
  /-- The library function `strconv.Quote`, used in the message of an `Atoi` error. -/
  Quote : Bytes → Bytes
  /-- The text `Error()` gives for an error of `json.Unmarshal`. -/
  JsonErrorText : JsonError → Bytes

/-- The library calls a run can make, as recorded in its trace.  `BodyClose` stands
for `req.Body.Close()`. -/
inductive Call where
  | Atoi (s : Bytes)
  | Get (url : Bytes)
  | ReadAll
  | Unmarshal (data : Bytes)
  | BodyClose
  deriving DecidableEq, Repr

/-- The observable state of the running process: the bytes written to standard
output, the library calls made so far, and whether a response body is open. -/
structure Process where
  Stdout : Bytes := []
  Calls : List Call := []
  BodyOpen : Bool := false
  deriving DecidableEq, Repr

/-- Record a library call. -/
def Process.call (p : Process) (c : Call) : Process :=
  { p with Calls := p.Calls ++ [c] }

/-- `fmt.Println(s)`: the text and a newline on standard output. -/
def Process.Println (p : Process) (s : Bytes) : Process :=
  { p with Stdout := p.Stdout ++ s ++ [10] }

/-- `fmt.Printf(format, args...)` on standard output. -/
def Process.Printf (p : Process) (format : Bytes) (args : List Arg) : Process :=
  { p with Stdout := p.Stdout ++ Sprintf format args }

/-- A successful `http.Get` hands over an open response body. -/
def Process.opened (p : Process) : Process :=
  { p with BodyOpen := true }

/-- The effect `req.Body.Close()` has.  `main` contains no such call. -/
def Process.closed (p : Process) : Process :=
  { p.call .BodyClose with BodyOpen := false }

/-- How a run ends: `os.Exit(code)` or return from `main` (code 0), or the run-time
panic of an index expression out of range. -/
inductive Exit where
  | code (n : Nat)
  | indexOutOfRange (index length : Nat)
  deriving DecidableEq, Repr

/-- The result of a run: how it ended and the state of the process at that point. -/
structure Outcome where
  exit : Exit
  proc : Process
  deriving DecidableEq, Repr

/-- The exit status the operating system sees: an unrecovered panic makes the Go
run time exit with status 2. -/
def Outcome.exitCode (o : Outcome) : Nat :=
  match o.exit with
  | .code n => n
  | .indexOutOfRange _ _ => 2

/-- The bytes written to standard output during the run.  The report of a panic
goes to standard error and is no part of it. -/
def Outcome.stdout (o : Outcome) : Bytes := o.proc.Stdout

/-- The function `main` of `cli.go`. -/
def main (w : World) : Outcome :=
  let p : Process := {}
  -- id, err := strconv.Atoi(os.Args[1])
  match w.Args[1]? with
  | none => ⟨.indexOutOfRange 1 w.Args.length, p⟩
  | some arg =>
    let p := p.call (.Atoi arg)
    match Atoi arg with
    | .error err => ⟨.code 1, p.Println (err.Error w.Quote)⟩
    | .ok id =>
      -- req, err := http.Get("https://search6.valk.sh/api?id=" + strconv.Itoa(id))
      let url := bytesOf "https://search6.valk.sh/api?id=" ++ Itoa id
      let p := p.call (.Get url)
      match w.Get url with
      | .error err => ⟨.code 2, p.Println err⟩
      | .ok req =>
        -- data, err := io.ReadAll(req.Body)
        let p := p.opened.call .ReadAll
        match req.Body with
        | .error err => ⟨.code 3, p.Println err⟩
        | .ok data =>
          -- user := new(User); err = json.Unmarshal(data, user)
          let p := p.call (.Unmarshal data)
          match Unmarshal data with
          | (_, some err) => ⟨.code 4, p.Println (w.JsonErrorText err)⟩
          | (user, none) =>
            let p := p.Printf (bytesOf "%s#%s (%d) is level %d\n")
              [.str user.Username, .str user.Discriminator, .int user.ID, .int user.Level]
            let p := if user.Level ≥ 5 then
                p.Printf (bytesOf "https://search6.valk.sh/card?id=%d <@%d>")
                  [.int user.ID, .int user.ID]
              else p
            ⟨.code 0, p⟩

/-! ## Specification vocabulary

The notions the specification uses, stated independently of the code above: the
base-10 rendering of an integer, what a valid integer argument is, and the grammar
of JSON texts. -/

/-- Base-10 rendering of a natural number: its decimal digits, most significant
first, as ASCII characters. -/
def decimalNat (n : Nat) : Bytes :=
  if n = 0 then [48] else ((Nat.digits 10 n).reverse).map (fun d => 48 + d)

/-- Base-10 rendering of an integer: a minus sign for a negative value, then the
rendering of the magnitude. -/
def decimal (i : Int) : Bytes :=
  if i < 0 then 45 :: decimalNat i.natAbs else decimalNat i.natAbs

/-- A byte is an ASCII decimal digit. -/
def IsDigit (c : Nat) : Prop := 48 ≤ c ∧ c ≤ 57

/-- The number a sequence of ASCII digits denotes in base 10. -/
def digitsValue (ds : Bytes) : Nat :=
  Nat.ofDigits 10 (ds.reverse.map (fun c => c - 48))

/-- The text `s` is a valid base-10 signed integer denoting `n`: an optional sign
`+` or `-`, then one or more decimal digits and nothing else, with a value in the
range of a 64-bit signed integer. -/
def ValidInt (s : Bytes) (n : Int) : Prop :=
  ∃ ds : Bytes, ds ≠ [] ∧ (∀ c ∈ ds, IsDigit c) ∧
    ((s = ds ∨ s = 43 :: ds) ∧ n = (digitsValue ds : Int) ∨
      s = 45 :: ds ∧ n = -(digitsValue ds : Int)) ∧
    -(2 : Int) ^ 63 ≤ n ∧ n < (2 : Int) ^ 63

/-- White space of the JSON grammar: space, tab, line feed, carriage return. -/
def IsWS (w : Bytes) : Prop := ∀ c ∈ w, c = 32 ∨ c = 9 ∨ c = 10 ∨ c = 13

/-- A byte is a hexadecimal digit. -/
def IsHex (c : Nat) : Prop := (48 ≤ c ∧ c ≤ 57) ∨ (97 ≤ c ∧ c ≤ 102) ∨ (65 ≤ c ∧ c ≤ 70)

/-- The characters between the quotes of a JSON string, in the bytes of a UTF-8
text: a character from U+0020 on other than the quote and the backslash, a
two-character escape, or `\u` and four hexadecimal digits.  A character above ASCII
is written in bytes from 0x80 on and any such character is allowed, so each of its
bytes is taken by `plain`; that those bytes are well-formed UTF-8 is what `JSONText`
asks of the text as a whole. -/
inductive JChars : Bytes → Prop where
  | nil : JChars []
  | plain (c : Nat) (s : Bytes) : 32 ≤ c → c ≠ 34 → c ≠ 92 → JChars s → JChars (c :: s)
  | escape (e : Nat) (s : Bytes) :
      e = 34 ∨ e = 92 ∨ e = 47 ∨ e = 98 ∨ e = 102 ∨ e = 110 ∨ e = 114 ∨ e = 116 →
      JChars s → JChars (92 :: e :: s)
  | unicode (a b c d : Nat) (s : Bytes) : IsHex a → IsHex b → IsHex c → IsHex d →
      JChars s → JChars (92 :: 117 :: a :: b :: c :: d :: s)

/-- A JSON number: an optional minus sign, an integer part without a leading
zero, an optional fraction and an optional exponent. -/
def JNumber (s : Bytes) : Prop :=
  ∃ sign ip fp ep : Bytes, s = sign ++ ip ++ fp ++ ep ∧
    (sign = [] ∨ sign = [45]) ∧
    (ip = [48] ∨ ∃ d ds, ip = d :: ds ∧ 49 ≤ d ∧ d ≤ 57 ∧ ∀ c ∈ ds, IsDigit c) ∧
    (fp = [] ∨ ∃ ds, fp = 46 :: ds ∧ ds ≠ [] ∧ ∀ c ∈ ds, IsDigit c) ∧
    (ep = [] ∨ ∃ e sg ds, ep = e :: sg ++ ds ∧ (e = 101 ∨ e = 69) ∧
      (sg = [] ∨ sg = [43] ∨ sg = [45]) ∧ ds ≠ [] ∧ ∀ c ∈ ds, IsDigit c)

/-- The bytes a string literal stands for, given the bytes between its quotes, as
the decoder reads them: escapes resolved, a surrogate pair combined, U+FFFD for a
lone surrogate and for malformed UTF-8. -/
def stringValue (s : Bytes) : Bytes := (unquoteBytes s).getD []

mutual
/-- The JSON values and what they denote: the three literal names, numbers,
strings, arrays and objects.  `JValueText d t v` says that the text `t` is a JSON
value, with arrays and objects nested at most `d` deep, and that its value is `v`. -/
inductive JValueText : Nat → Bytes → JValue → Prop where
  | null (d : Nat) : JValueText d [110, 117, 108, 108] .null
  | true (d : Nat) : JValueText d [116, 114, 117, 101] (.bool true)
  | false (d : Nat) : JValueText d [102, 97, 108, 115, 101] (.bool false)
  | number (d : Nat) (s : Bytes) : JNumber s → JValueText d s (.num s)
  | string (d : Nat) (s : Bytes) : JChars s →
      JValueText d (34 :: s ++ [34]) (.str (stringValue s))
  | emptyArray (d : Nat) (w : Bytes) : IsWS w → JValueText (d + 1) (91 :: w ++ [93]) (.arr [])
  | array (d : Nat) (s : Bytes) (vs : List JValue) : JElements d s vs →
      JValueText (d + 1) (91 :: s ++ [93]) (.arr vs)
  | emptyObject (d : Nat) (w : Bytes) : IsWS w →
      JValueText (d + 1) (123 :: w ++ [125]) (.obj [])
  | object (d : Nat) (s : Bytes) (ms : List (Bytes × JValue)) : JMembers d s ms →
      JValueText (d + 1) (123 :: s ++ [125]) (.obj ms)
/-- One or more values separated by commas, each with white space around it, and
the values they denote, in order. -/
inductive JElements : Nat → Bytes → List JValue → Prop where
  | one (d : Nat) (w1 t w2 : Bytes) (v : JValue) : IsWS w1 → JValueText d t v → IsWS w2 →
      JElements d (w1 ++ t ++ w2) [v]
  | cons (d : Nat) (w1 t w2 rest : Bytes) (v : JValue) (vs : List JValue) : IsWS w1 →
      JValueText d t v → IsWS w2 → JElements d rest vs →
      JElements d (w1 ++ t ++ w2 ++ 44 :: rest) (v :: vs)
/-- One or more members separated by commas, and the keys and values they denote, in
order; a member is a string, a colon and a value, with white space around each. -/
inductive JMembers : Nat → Bytes → List (Bytes × JValue) → Prop where
  | one (d : Nat) (w1 k w2 w3 t w4 : Bytes) (v : JValue) : IsWS w1 → JChars k → IsWS w2 →
      IsWS w3 → JValueText d t v → IsWS w4 →
      JMembers d (w1 ++ 34 :: k ++ 34 :: w2 ++ 58 :: w3 ++ t ++ w4) [(stringValue k, v)]
  | cons (d : Nat) (w1 k w2 w3 t w4 rest : Bytes) (v : JValue)
      (ms : List (Bytes × JValue)) : IsWS w1 → JChars k → IsWS w2 → IsWS w3 →
      JValueText d t v → IsWS w4 → JMembers d rest ms →
      JMembers d (w1 ++ 34 :: k ++ 34 :: w2 ++ 58 :: w3 ++ t ++ w4 ++ 44 :: rest)
        ((stringValue k, v) :: ms)
end

/-- The text `s` follows the JSON grammar, nested at most `d` deep, and its value is
`v`: one value with white space around it. -/
def JSONValue (d : Nat) (s : Bytes) (v : JValue) : Prop :=
  ∃ w1 t w2 : Bytes, s = w1 ++ t ++ w2 ∧ IsWS w1 ∧ JValueText d t v ∧ IsWS w2

/-- The text follows the JSON grammar, nested at most `d` deep. -/
def JSONTextWithin (d : Nat) (s : Bytes) : Prop := ∃ v, JSONValue d s v

/-- The text follows the JSON grammar, whatever its nesting depth and whether or not
the bytes from 0x80 on inside its strings are well-formed UTF-8. -/
def JSONSyntax (s : Bytes) : Prop := ∃ d, JSONTextWithin d s

/-- A byte from 0x80 to 0xBF, as the second and later bytes of a UTF-8 sequence. -/
def IsContinuation (b : Nat) : Prop := 0x80 ≤ b ∧ b ≤ 0xBF

/-- The well-formed UTF-8 byte sequences of one character (Unicode Standard, table
3-7): no overlong form, no surrogate, nothing above U+10FFFF. -/
def IsUTF8Char (bs : Bytes) : Prop :=
  (∃ a, bs = [a] ∧ a ≤ 0x7F) ∨
  (∃ a b, bs = [a, b] ∧ 0xC2 ≤ a ∧ a ≤ 0xDF ∧ IsContinuation b) ∨
  (∃ a b c, bs = [a, b, c] ∧
    ((a = 0xE0 ∧ 0xA0 ≤ b ∧ b ≤ 0xBF) ∨ (0xE1 ≤ a ∧ a ≤ 0xEC ∧ IsContinuation b) ∨
      (a = 0xED ∧ 0x80 ≤ b ∧ b ≤ 0x9F) ∨ (0xEE ≤ a ∧ a ≤ 0xEF ∧ IsContinuation b)) ∧
    IsContinuation c) ∨
  (∃ a b c d, bs = [a, b, c, d] ∧
    ((a = 0xF0 ∧ 0x90 ≤ b ∧ b ≤ 0xBF) ∨ (0xF1 ≤ a ∧ a ≤ 0xF3 ∧ IsContinuation b) ∨
      (a = 0xF4 ∧ 0x80 ≤ b ∧ b ≤ 0x8F)) ∧
    IsContinuation c ∧ IsContinuation d)

/-- The bytes are well-formed UTF-8: a sequence of well-formed characters. -/
inductive WellFormedUTF8 : Bytes → Prop where
  | nil : WellFormedUTF8 []
  | cons (bs s : Bytes) : IsUTF8Char bs → WellFormedUTF8 s → WellFormedUTF8 (bs ++ s)

/-- A valid JSON text (RFC 8259): well-formed UTF-8 that follows the JSON grammar.
The structural characters, literals and numbers are ASCII, so in a well-formed text
the characters above ASCII are exactly the ones inside strings. -/
def JSONText (s : Bytes) : Prop := WellFormedUTF8 s ∧ JSONSyntax s

/-- What may come after a value inside a JSON text: the end of the input, white
space, a comma, a closing bracket or a closing brace. -/
def FollowsValue (rest : Bytes) : Prop :=
  rest = [] ∨ ∃ c r, rest = c :: r ∧ (isSpace c = true ∨ c = 44 ∨ c = 93 ∨ c = 125)

/-- The URL `main` requests for identifier `n`, as the specification gives it. -/
def apiURL (n : Int) : Bytes := bytesOf "https://search6.valk.sh/api?id=" ++ decimal n

/-- The summary line of a record, without its newline:
`<username>#<discriminator> (<id>) is level <level>`. -/
def summaryLine (u : User) : Bytes :=
  u.Username ++ bytesOf "#" ++ u.Discriminator ++ bytesOf " (" ++ decimal u.ID ++
    bytesOf ") is level " ++ decimal u.Level

/-- The second line of a record: `https://search6.valk.sh/card?id=<id> <@<id>>`. -/
def cardLine (u : User) : Bytes :=
  bytesOf "https://search6.valk.sh/card?id=" ++ decimal u.ID ++ bytesOf " <@" ++
    decimal u.ID ++ bytesOf ">"

/-- The run of `main` in world `w` gets past argument parsing, the request and the
read, and hands the bytes `data` to the decoder. -/
def Fetches (w : World) (data : Bytes) : Prop :=
  ∃ (arg : Bytes) (id : Int) (req : Response), w.Args[1]? = some arg ∧ ValidInt arg id ∧
    w.Get (apiURL id) = .ok req ∧ req.Body = .ok data

/-- The field `f` of the record holds the zero value of its type. -/
def User.isZero (u : User) (f : Field) : Prop :=
  match f with
  | .AvatarURL => u.AvatarURL = []
  | .Level => u.Level = 0
  | .LevelProgress => u.LevelProgress = none
  | .Xp => u.Xp = 0
  | .ID => u.ID = 0
  | .Username => u.Username = []
  | .Discriminator => u.Discriminator = []
  | .Avatar => u.Avatar = []
  | .MessageCount => u.MessageCount = 0
  | .Rank => u.Rank = 0

/-- The JSON value `v` has a type other than the one field `f` takes; `null` is not
counted, the decoder passes over it. -/
def WrongType (f : Field) : JValue → Prop
  | .null => False
  | .str _ => f.kind ≠ .String
  | .num _ => f.kind = .String
  | .bool _ => True
  | .arr _ => True
  | .obj _ => True

/-- The JSON value `v` does not fit the shape of `User`: it is an array, a string, a
number or a boolean, or an object one of whose members names a field and carries a
value of the wrong type. -/
def Misfit : JValue → Prop
  | .null => False
  | .obj ms => ∃ key val f, (key, val) ∈ ms ∧ findField key = some f ∧ WrongType f val
  | _ => True

/-! ## Sample runs -/

/-- A world in which the program is started with the given argument list and every
request is answered with the given response body.  `Quote` is `strconv.Quote` as it
acts on plain printable text.  The error texts are those of encoding/json for the
body `not json` and for a value that does not fit the record as a whole. -/
def serving (args : List String) (body : Bytes) : World where
  Args := args.map bytesOf
  Get := fun _ => .ok ⟨.ok body⟩
  Quote := fun s => 34 :: s ++ [34]
  JsonErrorText := fun e =>
    match e with
    | .SyntaxError _ => bytesOf "invalid character 'o' in literal null (expecting 'u')"
    | .UnmarshalTypeError v _ =>
      bytesOf "json: cannot unmarshal " ++ v ++ bytesOf " into Go value of type main.User"

/-- The response body of the specification's main example. -/
def aliceBody : Bytes :=
  bytesOf "\x7b\"username\":\"alice\",\"discriminator\":\"0001\",\"id\":42,\"level\":7\x7d"

/-- A response body with a byte that is not UTF-8 inside a string: the object
`\x7b"username":"?"\x7d` with the single byte 0xFF in place of the question mark. -/
def malformedBody : Bytes :=
  bytesOf "\x7b\"username\":\"" ++ [0xFF] ++ bytesOf "\"\x7d"

/-- The same response with level 5. -/
def aliceBody5 : Bytes :=
  bytesOf "\x7b\"username\":\"alice\",\"discriminator\":\"0001\",\"id\":42,\"level\":5\x7d"

/-- The same response with level 4. -/
def aliceBody4 : Bytes :=
  bytesOf "\x7b\"username\":\"alice\",\"discriminator\":\"0001\",\"id\":42,\"level\":4\x7d"


/-- The integer fields of the record all lie in the range of a 64-bit signed
integer, as values of Go type `int` and `int64` do. -/
def User.InRange (u : User) : Prop :=
  (-(2 : Int) ^ 63 ≤ u.Level ∧ u.Level < (2 : Int) ^ 63) ∧
  (-(2 : Int) ^ 63 ≤ u.Xp ∧ u.Xp < (2 : Int) ^ 63) ∧
  (-(2 : Int) ^ 63 ≤ u.ID ∧ u.ID < (2 : Int) ^ 63) ∧
  (-(2 : Int) ^ 63 ≤ u.MessageCount ∧ u.MessageCount < (2 : Int) ^ 63) ∧
  (-(2 : Int) ^ 63 ≤ u.Rank ∧ u.Rank < (2 : Int) ^ 63)

/-! ## Numerals -/

theorem digitsValue_nil : digitsValue [] = 0 := by
  simp [digitsValue]

theorem digitsValue_cons (c : Nat) (ds : Bytes) :
    digitsValue (c :: ds) = (c - 48) * 10 ^ ds.length + digitsValue ds := by
  simp [digitsValue, Nat.ofDigits_append, Nat.ofDigits_singleton]
  ring

theorem digitsValue_lt (ds : Bytes) (h : ∀ c ∈ ds, IsDigit c) :
    digitsValue ds < 10 ^ ds.length := by
  induction ds with
  | nil => simp [digitsValue]
  | cons c ds ih =>
    have hc : IsDigit c := h c (List.mem_cons_self _ _)
    have ih1 := ih (fun x hx => h x (List.mem_cons_of_mem _ hx))
    rw [digitsValue_cons]
    have hc9 : c - 48 ≤ 9 := by unfold IsDigit at hc; omega
    have : (c - 48) * 10 ^ ds.length ≤ 9 * 10 ^ ds.length := Nat.mul_le_mul_right _ hc9
    simp only [List.length_cons, pow_succ]
    omega

theorem atoiFastLoop_digits (ds : Bytes) (n : Int) (h : ∀ c ∈ ds, IsDigit c) :
    atoiFastLoop ds n = some (n * 10 ^ ds.length + (digitsValue ds : Int)) := by
  induction ds generalizing n with
  | nil => simp [atoiFastLoop, digitsValue_nil]
  | cons c ds ih =>
    have hc : IsDigit c := h c (List.mem_cons_self _ _)
    have ih1 := ih (n * 10 + ((c - 48 : Nat) : Int)) (fun x hx => h x (List.mem_cons_of_mem _ hx))
    unfold IsDigit at hc
    simp only [atoiFastLoop, hc, and_self, if_true, ih1, digitsValue_cons, List.length_cons]
    congr 1
    push_cast
    ring

theorem atoiFastLoop_some (ds : Bytes) (n m : Int) (h : atoiFastLoop ds n = some m) :
    ∀ c ∈ ds, IsDigit c := by
  induction ds generalizing n with
  | nil => simp
  | cons c ds ih =>
    simp only [atoiFastLoop] at h
    split at h
    · rename_i hc
      intro x hx
      rcases List.mem_cons.1 hx with rfl | hx
      · exact hc
      · exact ih _ h x hx
    · cases h

theorem parseUintLoop_spec (ds : Bytes) (n : Nat) (hn : n < 2 ^ 64) :
    match parseUintLoop ds n with
    | .ok m => (∀ c ∈ ds, IsDigit c) ∧ m = n * 10 ^ ds.length + digitsValue ds ∧ m < 2 ^ 64
    | .error _ => ¬ ((∀ c ∈ ds, IsDigit c) ∧ n * 10 ^ ds.length + digitsValue ds < 2 ^ 64) := by
  induction ds generalizing n with
  | nil => simpa [parseUintLoop, digitsValue_nil] using hn
  | cons c ds ih =>
    simp only [parseUintLoop]
    have hpos : 0 < 10 ^ ds.length := pow_pos (by norm_num) _
    by_cases hc : 48 ≤ c ∧ c ≤ 57
    · simp only [hc, and_self, if_true]
      by_cases hcut : n ≥ (2 ^ 64 - 1) / 10 + 1
      · simp only [hcut, if_true]
        rintro ⟨-, hlt⟩
        have h1 : 2 ^ 64 ≤ n * 10 := by norm_num at hcut ⊢; omega
        have h2 : n * 10 * 1 ≤ n * 10 * 10 ^ ds.length := Nat.mul_le_mul_left _ hpos
        simp only [List.length_cons, pow_succ] at hlt
        have h3 : n * (10 ^ ds.length * 10) = n * 10 * 10 ^ ds.length := by ring
        omega
      · simp only [hcut, if_false]
        have hn10 : n * 10 < 2 ^ 64 := by norm_num at hcut ⊢; omega
        have hmod : (n * 10) % 2 ^ 64 = n * 10 := Nat.mod_eq_of_lt hn10
        simp only [hmod]
        by_cases hov : n * 10 + (c - 48) < 2 ^ 64
        · have hmod2 : (n * 10 + (c - 48)) % 2 ^ 64 = n * 10 + (c - 48) := Nat.mod_eq_of_lt hov
          have hno : ¬ (n * 10 + (c - 48) < n * 10 ∨ n * 10 + (c - 48) > 2 ^ 64 - 1) := by
            norm_num at hov ⊢; omega
          simp only [hmod2, hno, if_false]
          have ih1 := ih (n * 10 + (c - 48)) hov
          have heq : (n * 10 + (c - 48)) * 10 ^ ds.length + digitsValue ds
              = n * 10 ^ (c :: ds).length + digitsValue (c :: ds) := by
            rw [digitsValue_cons]; simp only [List.length_cons, pow_succ]; ring
          rw [heq] at ih1
          cases hres : parseUintLoop ds (n * 10 + (c - 48)) with
          | ok m =>
            rw [hres] at ih1
            simp only at ih1 ⊢
            refine ⟨?_, ih1.2⟩
            intro x hx
            rcases List.mem_cons.1 hx with rfl | hx
            · exact hc
            · exact ih1.1 x hx
          | error k =>
            rw [hres] at ih1
            simp only at ih1 ⊢
            rintro ⟨hall, hlt⟩
            exact ih1 ⟨fun x hx => hall x (List.mem_cons_of_mem _ hx), hlt⟩
        · have hwrap : (n * 10 + (c - 48)) % 2 ^ 64 < n * 10 := by
            have hlt2 : n * 10 + (c - 48) - 2 ^ 64 < 2 ^ 64 := by norm_num at hn10 ⊢; omega
            have : (n * 10 + (c - 48)) % 2 ^ 64 = n * 10 + (c - 48) - 2 ^ 64 := by
              rw [Nat.mod_eq_sub_mod (by omega), Nat.mod_eq_of_lt hlt2]
            rw [this]; norm_num at hov ⊢; omega
          simp only [hwrap, true_or, if_true]
          rintro ⟨-, hlt⟩
          rw [digitsValue_cons] at hlt
          simp only [List.length_cons, pow_succ] at hlt
          have h2 : (n * 10 + (c - 48)) * 1 ≤ (n * 10 + (c - 48)) * 10 ^ ds.length :=
            Nat.mul_le_mul_left _ hpos
          have h3 : n * (10 ^ ds.length * 10) + (c - 48) * 10 ^ ds.length
              = (n * 10 + (c - 48)) * 10 ^ ds.length := by ring
          omega
    · simp only [hc, if_false]
      rintro ⟨hall, -⟩
      exact hc (hall c (List.mem_cons_self _ _))

theorem validInt_nil (n : Int) : ¬ ValidInt [] n := by
  rintro ⟨ds, hne, hall, h, -⟩
  rcases h with ⟨h | h, -⟩ | ⟨h, -⟩
  · exact hne h.symm
  · cases h
  · cases h

theorem validInt_cons_iff (c : Nat) (rest : Bytes) (n : Int) :
    ValidInt (c :: rest) n ↔
      ((c = 45 ∧ rest ≠ [] ∧ (∀ x ∈ rest, IsDigit x) ∧ n = -(digitsValue rest : Int)) ∨
        (c = 43 ∧ rest ≠ [] ∧ (∀ x ∈ rest, IsDigit x) ∧ n = (digitsValue rest : Int)) ∨
        (IsDigit c ∧ (∀ x ∈ rest, IsDigit x) ∧ n = (digitsValue (c :: rest) : Int))) ∧
      -(2 : Int) ^ 63 ≤ n ∧ n < (2 : Int) ^ 63 := by
  constructor
  · rintro ⟨ds, hne, hall, h, hr⟩
    refine ⟨?_, hr⟩
    rcases h with ⟨h | h, hn⟩ | ⟨h, hn⟩
    · subst h
      right; right
      exact ⟨hall c (List.mem_cons_self _ _), fun x hx => hall x (List.mem_cons_of_mem _ hx), hn⟩
    · injection h with h1 h2
      subst h1; subst h2
      right; left
      exact ⟨rfl, hne, hall, hn⟩
    · injection h with h1 h2
      subst h1; subst h2
      left
      exact ⟨rfl, hne, hall, hn⟩
  · rintro ⟨h, hr⟩
    rcases h with ⟨rfl, hne, hall, hn⟩ | ⟨rfl, hne, hall, hn⟩ | ⟨hc, hall, hn⟩
    · exact ⟨rest, hne, hall, Or.inr ⟨rfl, hn⟩, hr⟩
    · exact ⟨rest, hne, hall, Or.inl ⟨Or.inr rfl, hn⟩, hr⟩
    · refine ⟨c :: rest, by simp, ?_, Or.inl ⟨Or.inl rfl, hn⟩, hr⟩
      intro x hx
      rcases List.mem_cons.1 hx with rfl | hx
      · exact hc
      · exact hall x hx

theorem validInt_unique (s : Bytes) (n m : Int) (hn : ValidInt s n) (hm : ValidInt s m) :
    n = m := by
  cases s with
  | nil => exact absurd hn (validInt_nil n)
  | cons c rest =>
    rw [validInt_cons_iff] at hn hm
    have e45 : ¬ IsDigit 45 := by unfold IsDigit; omega
    have e43 : ¬ IsDigit 43 := by unfold IsDigit; omega
    rcases hn.1 with ⟨rfl, -, -, h1⟩ | ⟨rfl, -, -, h1⟩ | ⟨hc, -, h1⟩ <;>
      rcases hm.1 with ⟨h0, -, -, h2⟩ | ⟨h0, -, -, h2⟩ | ⟨hc2, -, h2⟩ <;>
      first
        | (rw [h1, h2]; done)
        | (exact absurd h0 (by decide))
        | (exact absurd hc2 e45)
        | (exact absurd hc2 e43)
        | (subst h0; exact absurd hc e45)
        | (subst h0; exact absurd hc e43)

theorem ParseUint_spec (ds : Bytes) :
    match ParseUint ds with
    | .ok m => ds ≠ [] ∧ (∀ c ∈ ds, IsDigit c) ∧ m = digitsValue ds ∧ m < 2 ^ 64
    | .error _ => ¬ (ds ≠ [] ∧ (∀ c ∈ ds, IsDigit c) ∧ digitsValue ds < 2 ^ 64) := by
  unfold ParseUint
  by_cases hds : ds = []
  · simp [hds]
  · simp only [hds, if_false]
    have h := parseUintLoop_spec ds 0 (by norm_num)
    cases hres : parseUintLoop ds 0 with
    | ok m =>
      rw [hres] at h
      simp only [zero_mul, zero_add] at h ⊢
      exact ⟨hds, h⟩
    | error k =>
      rw [hres] at h
      simp only [zero_mul, zero_add] at h ⊢
      rintro ⟨-, h2⟩
      exact h h2

theorem ParseInt_spec (s : Bytes) :
    match ParseInt s with
    | .ok n => ValidInt s n
    | .error _ => ∀ n, ¬ ValidInt s n := by
  cases s with
  | nil => simpa [ParseInt] using validInt_nil
  | cons c rest =>
    have e45 : ¬ IsDigit 45 := by unfold IsDigit; omega
    have e43 : ¬ IsDigit 43 := by unfold IsDigit; omega
    simp only [ParseInt]
    by_cases h45 : c = 45
    · subst h45
      simp only [or_true, if_true, not_true_eq_false, false_and, if_false, true_and]
      have h := ParseUint_spec rest
      cases hres : ParseUint rest with
      | error k =>
        rw [hres] at h
        simp only at h ⊢
        intro n hv
        rw [validInt_cons_iff] at hv
        rcases hv with ⟨⟨-, hne, hall, hn⟩ | ⟨h0, -⟩ | ⟨hc, -⟩, hr1, hr2⟩
        · apply h
          refine ⟨hne, hall, ?_⟩
          have : ((digitsValue rest : Nat) : Int) ≤ 2 ^ 63 := by omega
          have h3 : digitsValue rest ≤ 2 ^ 63 := by exact_mod_cast this
          omega
        · exact absurd h0 (by decide)
        · exact e45 hc
      | ok un =>
        rw [hres] at h
        simp only at h ⊢
        obtain ⟨hne, hall, hun, hlt⟩ := h
        by_cases hbig : un > 2 ^ 63
        · simp only [hbig, if_true]
          intro n hv
          rw [validInt_cons_iff] at hv
          rcases hv with ⟨⟨-, -, -, hn⟩ | ⟨h0, -⟩ | ⟨hc, -⟩, hr1, hr2⟩
          · rw [← hun] at hn
            have : ((un : Nat) : Int) > 2 ^ 63 := by exact_mod_cast hbig
            omega
          · exact absurd h0 (by decide)
          · exact e45 hc
        · simp only [hbig, if_false]
          rw [validInt_cons_iff]
          refine ⟨Or.inl ⟨rfl, hne, hall, by rw [hun]⟩, ?_, ?_⟩
          · have : ((un : Nat) : Int) ≤ 2 ^ 63 := by exact_mod_cast (Nat.le_of_not_gt hbig)
            omega
          · have : (0 : Int) ≤ ((un : Nat) : Int) := Int.natCast_nonneg _
            omega
    · by_cases h43 : c = 43
      · subst h43
        simp only [true_or, if_true, show ¬ ((43 : Nat) = 45) by decide, not_false_eq_true, true_and,
          false_and, if_false]
        have h := ParseUint_spec rest
        cases hres : ParseUint rest with
        | error k =>
          rw [hres] at h
          simp only at h ⊢
          intro n hv
          rw [validInt_cons_iff] at hv
          rcases hv with ⟨⟨h0, -⟩ | ⟨-, hne, hall, hn⟩ | ⟨hc, -⟩, hr1, hr2⟩
          · exact absurd h0 (by decide)
          · apply h
            refine ⟨hne, hall, ?_⟩
            have : ((digitsValue rest : Nat) : Int) < 2 ^ 63 := by omega
            have h3 : digitsValue rest < 2 ^ 63 := by exact_mod_cast this
            omega
          · exact e43 hc
        | ok un =>
          rw [hres] at h
          simp only at h ⊢
          obtain ⟨hne, hall, hun, hlt⟩ := h
          by_cases hbig : un ≥ 2 ^ 63
          · simp only [hbig, if_true]
            intro n hv
            rw [validInt_cons_iff] at hv
            rcases hv with ⟨⟨h0, -⟩ | ⟨-, -, -, hn⟩ | ⟨hc, -⟩, hr1, hr2⟩
            · exact absurd h0 (by decide)
            · rw [← hun] at hn
              have : ((un : Nat) : Int) ≥ 2 ^ 63 := by exact_mod_cast hbig
              omega
            · exact e43 hc
          · simp only [hbig, if_false]
            rw [validInt_cons_iff]
            refine ⟨Or.inr (Or.inl ⟨rfl, hne, hall, by rw [hun]⟩), ?_, ?_⟩
            · have : (0 : Int) ≤ ((un : Nat) : Int) := Int.natCast_nonneg _
              omega
            · have : ((un : Nat) : Int) < 2 ^ 63 := by exact_mod_cast (Nat.lt_of_not_ge hbig)
              omega
      · simp only [h43, h45, or_self, if_false, not_false_eq_true, true_and, false_and]
        have h := ParseUint_spec (c :: rest)
        cases hres : ParseUint (c :: rest) with
        | error k =>
          rw [hres] at h
          simp only at h ⊢
          intro n hv
          rw [validInt_cons_iff] at hv
          rcases hv with ⟨⟨h0, -⟩ | ⟨h0, -⟩ | ⟨hc, hall, hn⟩, hr1, hr2⟩
          · exact h45 h0
          · exact h43 h0
          · apply h
            refine ⟨by simp, ?_, ?_⟩
            · intro x hx
              rcases List.mem_cons.1 hx with rfl | hx
              · exact hc
              · exact hall x hx
            · have : ((digitsValue (c :: rest) : Nat) : Int) < 2 ^ 63 := by omega
              have h3 : digitsValue (c :: rest) < 2 ^ 63 := by exact_mod_cast this
              omega
        | ok un =>
          rw [hres] at h
          simp only at h ⊢
          obtain ⟨hne, hall, hun, hlt⟩ := h
          by_cases hbig : un ≥ 2 ^ 63
          · simp only [hbig, if_true]
            intro n hv
            rw [validInt_cons_iff] at hv
            rcases hv with ⟨⟨h0, -⟩ | ⟨h0, -⟩ | ⟨hc, -, hn⟩, hr1, hr2⟩
            · exact h45 h0
            · exact h43 h0
            · rw [← hun] at hn
              have : ((un : Nat) : Int) ≥ 2 ^ 63 := by exact_mod_cast hbig
              omega
          · simp only [hbig, if_false]
            rw [validInt_cons_iff]
            refine ⟨Or.inr (Or.inr ⟨hall c (List.mem_cons_self _ _),
              fun x hx => hall x (List.mem_cons_of_mem _ hx), by rw [hun]⟩), ?_, ?_⟩
            · have : (0 : Int) ≤ ((un : Nat) : Int) := Int.natCast_nonneg _
              omega
            · have : ((un : Nat) : Int) < 2 ^ 63 := by exact_mod_cast (Nat.lt_of_not_ge hbig)
              omega

theorem digitsValue_lt_two_pow (ds : Bytes) (h : ∀ c ∈ ds, IsDigit c) (hl : ds.length ≤ 18) :
    ((digitsValue ds : Nat) : Int) < 2 ^ 63 := by
  have h1 := digitsValue_lt ds h
  have h2 : 10 ^ ds.length ≤ 10 ^ 18 := Nat.pow_le_pow_right (by norm_num) hl
  have h3 : digitsValue ds < 2 ^ 63 := by
    have : (10 : Nat) ^ 18 < 2 ^ 63 := by norm_num
    omega
  exact_mod_cast h3

theorem atoiFastLoop_zero (ds : Bytes) :
    match atoiFastLoop ds 0 with
    | some n => (∀ c ∈ ds, IsDigit c) ∧ n = (digitsValue ds : Int)
    | none => ¬ ∀ c ∈ ds, IsDigit c := by
  cases hres : atoiFastLoop ds 0 with
  | some n =>
    have hall := atoiFastLoop_some ds 0 n hres
    rw [atoiFastLoop_digits ds 0 hall] at hres
    simp only [zero_mul, zero_add, Option.some.injEq] at hres
    exact ⟨hall, hres.symm⟩
  | none =>
    intro hall
    rw [atoiFastLoop_digits ds 0 hall] at hres
    cases hres

theorem Atoi_spec (s : Bytes) :
    match Atoi s with
    | .ok n => ValidInt s n
    | .error e => e.Func = bytesOf "Atoi" ∧ e.Num = s ∧ ∀ n, ¬ ValidInt s n := by
  unfold Atoi
  by_cases hlen : 0 < s.length ∧ s.length < 19
  · simp only [hlen, and_self, if_true]
    cases s with
    | nil => simp at hlen
    | cons c rest =>
      have e45 : ¬ IsDigit 45 := by unfold IsDigit; omega
      have e43 : ¬ IsDigit 43 := by unfold IsDigit; omega
      have hl : rest.length ≤ 17 := by simp only [List.length_cons] at hlen; omega
      simp only
      by_cases hsign : c = 45 ∨ c = 43
      · simp only [hsign, if_true, true_and]
        by_cases hshort : rest.length < 1
        · simp only [hshort, if_true, true_and]
          intro n hv
          rw [validInt_cons_iff] at hv
          have hnil : rest = [] := List.length_eq_zero.1 (by omega)
          rcases hv with ⟨⟨-, hne, -⟩ | ⟨-, hne, -⟩ | ⟨hc, -⟩, -⟩
          · exact hne hnil
          · exact hne hnil
          · rcases hsign with rfl | rfl
            · exact e45 hc
            · exact e43 hc
        · simp only [hshort, if_false]
          have hne : rest ≠ [] := by
            intro h0; rw [h0] at hshort; simp at hshort
          have h := atoiFastLoop_zero rest
          cases hres : atoiFastLoop rest 0 with
          | none =>
            rw [hres] at h
            simp only at h ⊢
            refine ⟨trivial, trivial, ?_⟩
            intro n hv
            rw [validInt_cons_iff] at hv
            rcases hv with ⟨⟨-, -, hall, -⟩ | ⟨-, -, hall, -⟩ | ⟨hc, -⟩, -⟩
            · exact h hall
            · exact h hall
            · rcases hsign with rfl | rfl
              · exact e45 hc
              · exact e43 hc
          | some n =>
            rw [hres] at h
            simp only at h ⊢
            obtain ⟨hall, hn⟩ := h
            have hb := digitsValue_lt_two_pow rest hall (by omega)
            have h0 : (0 : Int) ≤ ((digitsValue rest : Nat) : Int) := Int.natCast_nonneg _
            rw [validInt_cons_iff]
            rcases hsign with rfl | rfl
            · simp only [if_true]
              refine ⟨Or.inl ⟨by trivial, hne, hall, by rw [hn]⟩, ?_, ?_⟩ <;> omega
            · simp only [show ¬ ((43 : Nat) = 45) by decide, if_false]
              refine ⟨Or.inr (Or.inl ⟨by trivial, hne, hall, hn⟩), ?_, ?_⟩ <;> omega
      · simp only [hsign, if_false, false_and]
        have h45 : ¬ c = 45 := fun h => hsign (Or.inl h)
        have h43 : ¬ c = 43 := fun h => hsign (Or.inr h)
        have h := atoiFastLoop_zero (c :: rest)
        cases hres : atoiFastLoop (c :: rest) 0 with
        | none =>
          rw [hres] at h
          simp only at h ⊢
          refine ⟨trivial, trivial, ?_⟩
          intro n hv
          rw [validInt_cons_iff] at hv
          rcases hv with ⟨⟨h0, -⟩ | ⟨h0, -⟩ | ⟨hc, hall, -⟩, -⟩
          · exact h45 h0
          · exact h43 h0
          · apply h
            intro x hx
            rcases List.mem_cons.1 hx with rfl | hx
            · exact hc
            · exact hall x hx
        | some n =>
          rw [hres] at h
          simp only at h ⊢
          obtain ⟨hall, hn⟩ := h
          have hb := digitsValue_lt_two_pow (c :: rest) hall (by simp only [List.length_cons]; omega)
          have h0 : (0 : Int) ≤ ((digitsValue (c :: rest) : Nat) : Int) := Int.natCast_nonneg _
          simp only [h45, if_false]
          rw [validInt_cons_iff]
          refine ⟨Or.inr (Or.inr ⟨hall c (List.mem_cons_self _ _),
            fun x hx => hall x (List.mem_cons_of_mem _ hx), hn⟩), ?_, ?_⟩ <;> omega
  · simp only [hlen, if_false]
    have h := ParseInt_spec s
    cases hres : ParseInt s with
    | error k =>
      rw [hres] at h
      exact ⟨rfl, rfl, h⟩
    | ok n =>
      rw [hres] at h
      exact h

theorem Atoi_ok_iff (s : Bytes) (n : Int) : Atoi s = .ok n ↔ ValidInt s n := by
  have h := Atoi_spec s
  constructor
  · intro hs
    rw [hs] at h
    exact h
  · intro hv
    cases hres : Atoi s with
    | ok m =>
      rw [hres] at h
      rw [validInt_unique s n m hv h]
    | error e =>
      rw [hres] at h
      exact absurd hv (h.2.2 n)

theorem Atoi_error_of_invalid (s : Bytes) (h : ¬ ∃ n, ValidInt s n) :
    ∃ k, Atoi s = .error ⟨bytesOf "Atoi", s, k⟩ := by
  have hs := Atoi_spec s
  cases hres : Atoi s with
  | ok m =>
    rw [hres] at hs
    exact absurd ⟨m, hs⟩ h
  | error e =>
    rw [hres] at hs
    obtain ⟨h1, h2, -⟩ := hs
    refine ⟨e.Err, ?_⟩
    cases e
    simp only at h1 h2
    rw [h1, h2]

/-! ## Rendering integers -/

theorem decimalNat_lt_ten (n : Nat) (h : n < 10) : decimalNat n = [48 + n] := by
  unfold decimalNat
  by_cases h0 : n = 0
  · simp [h0]
  · have hpos : 0 < n := Nat.pos_of_ne_zero h0
    simp [h0, Nat.digits_of_lt 10 n h0 h]

theorem decimalNat_step (n : Nat) (h : 10 ≤ n) :
    decimalNat n = decimalNat (n / 10) ++ [48 + n % 10] := by
  unfold decimalNat
  have h0 : n ≠ 0 := by omega
  have h1 : n / 10 ≠ 0 := by omega
  have hd : Nat.digits 10 n = (n % 10) :: Nat.digits 10 (n / 10) :=
    Nat.digits_def' (by norm_num) (by omega)
  simp [h0, h1, hd]

theorem digitsTable_getD (u : Nat) (h : u < 10) : digitsTable.getD u 0 = 48 + u := by
  interval_cases u <;> rfl

theorem fmtIntegerLoop_spec (fuel u : Nat) (acc : Bytes) (h : u < 10 ^ (fuel + 1)) :
    digitsTable.getD (fmtIntegerLoop fuel u acc).1 0 :: (fmtIntegerLoop fuel u acc).2
      = decimalNat u ++ acc := by
  induction fuel generalizing u acc with
  | zero =>
    simp only [zero_add, pow_one] at h
    simp only [fmtIntegerLoop]
    rw [digitsTable_getD u h, decimalNat_lt_ten u h]
    rfl
  | succ fuel ih =>
    simp only [fmtIntegerLoop]
    by_cases hu : u ≥ 10
    · simp only [hu, if_true]
      have hlt : u / 10 < 10 ^ (fuel + 1) := by
        rw [pow_succ] at h
        omega
      rw [ih (u / 10) _ hlt, decimalNat_step u hu]
      have : 48 + u - u / 10 * 10 = 48 + u % 10 := by omega
      simp [this]
    · simp only [hu, if_false]
      have hu10 : u < 10 := by omega
      rw [digitsTable_getD u hu10, decimalNat_lt_ten u hu10]
      rfl

theorem fmtInteger_eq_decimal (v : Int) (h : v.natAbs < 10 ^ 68) : fmtInteger v = decimal v := by
  unfold fmtInteger decimal
  have hs := fmtIntegerLoop_spec 67 v.natAbs [] h
  simp only [List.append_nil] at hs
  simp only [hs]

set_option maxRecDepth 100000 in
theorem smallsString_getD (k : Nat) (h : k < 100) :
    smallsString.getD (k * 2) 0 = 48 + k / 10 ∧ smallsString.getD (k * 2 + 1) 0 = 48 + k % 10 := by
  have hall : ∀ k, k < 100 →
      smallsString.getD (k * 2) 0 = 48 + k / 10 ∧ smallsString.getD (k * 2 + 1) 0 = 48 + k % 10 := by
    decide
  exact hall k h

theorem decimalNat_two (k : Nat) (h1 : 10 ≤ k) (h2 : k < 100) :
    decimalNat k = [48 + k / 10, 48 + k % 10] := by
  rw [decimalNat_step k h1, decimalNat_lt_ten (k / 10) (by omega)]
  rfl

theorem formatBitsLoop_spec (fuel us : Nat) (acc : Bytes) (h : us < 100 ^ (fuel + 1)) :
    (formatBitsLoop fuel us acc).1 < 100 ∧
    decimalNat (formatBitsLoop fuel us acc).1 ++ (formatBitsLoop fuel us acc).2
      = decimalNat us ++ acc := by
  induction fuel generalizing us acc with
  | zero =>
    simp only [zero_add, pow_one] at h
    simp [formatBitsLoop, h]
  | succ fuel ih =>
    simp only [formatBitsLoop]
    by_cases hu : us ≥ 100
    · simp only [hu, if_true]
      have hlt : us / 100 < 100 ^ (fuel + 1) := by
        rw [pow_succ] at h
        omega
      obtain ⟨h1, h2⟩ := ih (us / 100) (smallsString.getD (us % 100 * 2) 0 ::
        smallsString.getD (us % 100 * 2 + 1) 0 :: acc) hlt
      refine ⟨h1, ?_⟩
      rw [h2]
      obtain ⟨g1, g2⟩ := smallsString_getD (us % 100) (by omega)
      rw [g1, g2, decimalNat_step us (by omega), decimalNat_step (us / 10) (by omega)]
      have e1 : us / 10 / 10 = us / 100 := by omega
      have e2 : us % 100 / 10 = us / 10 % 10 := by omega
      have e3 : us % 100 % 10 = us % 10 := by omega
      simp [e1, e2, e3]
    · simp only [hu, if_false]
      exact ⟨by omega, trivial⟩

theorem formatBits_eq (u : Nat) (neg : Bool) (h : u < 100 ^ 33) :
    formatBits u neg = if neg then 45 :: decimalNat u else decimalNat u := by
  unfold formatBits
  obtain ⟨h1, h2⟩ := formatBitsLoop_spec 32 u [] h
  simp only [List.append_nil] at h2
  generalize formatBitsLoop 32 u [] = r at h1 h2
  obtain ⟨us, acc⟩ := r
  simp only at h1 h2 ⊢
  obtain ⟨g1, g2⟩ := smallsString_getD us h1
  have hrender : (if us ≥ 10 then smallsString.getD (us * 2) 0 :: smallsString.getD (us * 2 + 1) 0 :: acc
      else smallsString.getD (us * 2 + 1) 0 :: acc) = decimalNat u := by
    rw [← h2, g1, g2]
    by_cases hu : us ≥ 10
    · simp [hu, decimalNat_two us hu h1]
    · have hu10 : us < 10 := by omega
      have : us % 10 = us := by omega
      simp [hu, decimalNat_lt_ten us hu10, this]
  rw [hrender]

set_option maxRecDepth 100000 in
theorem small_eq (k : Nat) (h : k < 100) : small k = [48 + k / 10, 48 + k % 10].drop (if k < 10 then 1 else 0) := by
  have hall : ∀ k, k < 100 → small k = [48 + k / 10, 48 + k % 10].drop (if k < 10 then 1 else 0) := by
    decide
  exact hall k h

theorem Itoa_eq_decimal (i : Int) (h1 : -(2 : Int) ^ 63 ≤ i) (h2 : i < (2 : Int) ^ 63) :
    Itoa i = decimal i := by
  unfold Itoa FormatInt decimal
  by_cases hs : 0 ≤ i ∧ i < 100
  · have hneg : ¬ i < 0 := by omega
    have hk : i.toNat < 100 := by omega
    have hab : i.natAbs = i.toNat := by omega
    simp only [hs, and_self, if_true, hneg, if_false, hab, small_eq _ hk]
    by_cases h10 : i.toNat < 10
    · have : i.toNat % 10 = i.toNat := by omega
      simp [h10, decimalNat_lt_ten _ h10, this]
    · simp [h10, decimalNat_two _ (by omega) hk]
  · have hu : i.natAbs < 100 ^ 33 := by
      have : i.natAbs ≤ 2 ^ 63 := by omega
      have : (2 : Nat) ^ 63 < 100 ^ 33 := by norm_num
      omega
    simp only [hs, if_false, formatBits_eq _ _ hu, decide_eq_true_eq]

/-! ## The run of `main` -/

theorem Sprintf_summary (a b : Bytes) (x y : Int) :
    Sprintf (bytesOf "%s#%s (%d) is level %d\n") [.str a, .str b, .int x, .int y]
      = a ++ bytesOf "#" ++ b ++ bytesOf " (" ++ fmtInteger x ++ bytesOf ") is level " ++
          fmtInteger y ++ [10] := by
  simp only [List.append_assoc]
  rfl

theorem Sprintf_card (x : Int) :
    Sprintf (bytesOf "https://search6.valk.sh/card?id=%d <@%d>") [.int x, .int x]
      = bytesOf "https://search6.valk.sh/card?id=" ++ fmtInteger x ++ bytesOf " <@" ++
          fmtInteger x ++ bytesOf ">" := by
  simp only [List.append_assoc]
  rfl

/-- The state of the process when the decoder has been called on `data` for
identifier `id` and argument `arg`. -/
theorem main_eq_of_fetch (w : World) (arg : Bytes) (id : Int) (req : Response) (data : Bytes)
    (harg : w.Args[1]? = some arg) (hid : ValidInt arg id)
    (hget : w.Get (apiURL id) = .ok req) (hbody : req.Body = .ok data) :
    main w =
      match Unmarshal data with
      | (_, some err) =>
        ⟨.code 4, { Stdout := w.JsonErrorText err ++ [10],
                    Calls := [.Atoi arg, .Get (apiURL id), .ReadAll, .Unmarshal data],
                    BodyOpen := true }⟩
      | (user, none) =>
        ⟨.code 0, { Stdout := Sprintf (bytesOf "%s#%s (%d) is level %d\n")
                      [.str user.Username, .str user.Discriminator, .int user.ID, .int user.Level] ++
                      (if user.Level ≥ 5 then
                        Sprintf (bytesOf "https://search6.valk.sh/card?id=%d <@%d>")
                          [.int user.ID, .int user.ID]
                       else []),
                    Calls := [.Atoi arg, .Get (apiURL id), .ReadAll, .Unmarshal data],
                    BodyOpen := true }⟩ := by
  have hatoi : Atoi arg = .ok id := (Atoi_ok_iff arg id).2 hid
  have hurl : bytesOf "https://search6.valk.sh/api?id=" ++ Itoa id = apiURL id := by
    obtain ⟨ds, -, -, -, h1, h2⟩ := hid
    rw [Itoa_eq_decimal id h1 h2]
    rfl
  unfold main
  simp only [harg, hatoi, hurl, hget, hbody]
  rcases hU : Unmarshal data with ⟨user, _ | err⟩
  · by_cases hl : user.Level ≥ 5 <;>
      simp [hl, Process.call, Process.Printf, Process.opened]
  · simp [Process.call, Process.Println, Process.opened]

theorem storeField_inRange (u : User) (f : Field) (v : JValue) (h : u.InRange) :
    (storeField u f v).1.InRange := by
  cases v with
  | null => exact h
  | bool b => exact h
  | arr xs => exact h
  | obj ms => exact h
  | str s =>
    cases f <;> simp only [storeField, Field.kind, User.setString] <;> exact h
  | num lit =>
    have hp := ParseInt_spec lit
    cases hres : ParseInt lit with
    | error k =>
      cases f <;> simp only [storeField, Field.kind, hres, User.setFloat] <;>
        first
          | exact h
          | (split <;> exact h)
    | ok n =>
      rw [hres] at hp
      obtain ⟨ds, -, -, -, h1, h2⟩ := hp
      obtain ⟨a, b, c, d, e⟩ := h
      cases f <;> simp only [storeField, Field.kind, hres, User.setInt, User.setFloat] <;>
        first
          | exact ⟨a, b, c, d, e⟩
          | exact ⟨⟨h1, h2⟩, b, c, d, e⟩
          | exact ⟨a, ⟨h1, h2⟩, c, d, e⟩
          | exact ⟨a, b, ⟨h1, h2⟩, d, e⟩
          | exact ⟨a, b, c, ⟨h1, h2⟩, e⟩
          | exact ⟨a, b, c, d, ⟨h1, h2⟩⟩
          | (split <;> exact ⟨a, b, c, d, e⟩)

theorem decodeMembers_inRange (ms : List (Bytes × JValue)) (u : User) (err : Option JsonError)
    (h : u.InRange) : (decodeMembers ms u err).1.InRange := by
  induction ms generalizing u err with
  | nil => exact h
  | cons m ms ih =>
    obtain ⟨key, v⟩ := m
    simp only [decodeMembers]
    cases hf : findField key with
    | none => exact ih u err h
    | some f => exact ih _ _ (storeField_inRange u f v h)

theorem zero_inRange : ({} : User).InRange := by
  unfold User.InRange
  norm_num

theorem Unmarshal_inRange (data : Bytes) : (Unmarshal data).1.InRange := by
  unfold Unmarshal
  cases parseJSON data with
  | none => exact zero_inRange
  | some v =>
    cases v with
    | obj ms => exact decodeMembers_inRange ms _ _ zero_inRange
    | _ => exact zero_inRange

theorem fmtInteger_of_range (v : Int) (h1 : -(2 : Int) ^ 63 ≤ v) (h2 : v < (2 : Int) ^ 63) :
    fmtInteger v = decimal v := by
  apply fmtInteger_eq_decimal
  have : v.natAbs ≤ 2 ^ 63 := by omega
  have : (2 : Nat) ^ 63 < 10 ^ 68 := by norm_num
  omega

theorem main_presents (w : World) (data : Bytes) (u : User) (hf : Fetches w data)
    (hu : Unmarshal data = (u, none)) :
    (main w).exitCode = 0 ∧
      (main w).stdout = summaryLine u ++ [10] ++ (if u.Level ≥ 5 then cardLine u else []) := by
  obtain ⟨arg, id, req, harg, hid, hget, hbody⟩ := hf
  have hr : u.InRange := by
    have := Unmarshal_inRange data
    rw [hu] at this
    exact this
  obtain ⟨⟨l1, l2⟩, -, ⟨i1, i2⟩, -, -⟩ := hr
  rw [main_eq_of_fetch w arg id req data harg hid hget hbody, hu]
  simp only [Outcome.exitCode, Outcome.stdout, Sprintf_summary, Sprintf_card,
    fmtInteger_of_range _ l1 l2, fmtInteger_of_range _ i1 i2, summaryLine, cardLine, true_and]

theorem main_decode_error (w : World) (data : Bytes) (u : User) (e : JsonError)
    (hf : Fetches w data) (hu : Unmarshal data = (u, some e)) :
    (main w).exitCode = 4 ∧ (main w).stdout = w.JsonErrorText e ++ [10] := by
  obtain ⟨arg, id, req, harg, hid, hget, hbody⟩ := hf
  rw [main_eq_of_fetch w arg id req data harg hid hget hbody, hu]
  simp [Outcome.exitCode, Outcome.stdout]

/-! ## The scanner accepts only JSON texts -/

theorem isSpace_iff (c : Nat) : isSpace c = true ↔ (c = 32 ∨ c = 9 ∨ c = 10 ∨ c = 13) := by
  simp only [isSpace, Bool.or_eq_true, decide_eq_true_eq]
  tauto

theorem isWS_nil : IsWS [] := by
  intro c hc
  cases hc

theorem isWS_cons (c : Nat) (w : Bytes) (hc : isSpace c = true) (hw : IsWS w) : IsWS (c :: w) := by
  intro x hx
  rcases List.mem_cons.1 hx with rfl | hx
  · exact (isSpace_iff _).1 hc
  · exact hw x hx

theorem skipSpace_spec (s : Bytes) : ∃ w, IsWS w ∧ s = w ++ skipSpace s := by
  induction s with
  | nil => exact ⟨[], isWS_nil, rfl⟩
  | cons c rest ih =>
    simp only [skipSpace]
    by_cases hc : isSpace c = true
    · obtain ⟨w, hw, he⟩ := ih
      refine ⟨c :: w, isWS_cons c w hc hw, ?_⟩
      simp only [hc, if_true, List.cons_append]
      rw [← he]
    · exact ⟨[], isWS_nil, by simp [hc]⟩

theorem takeDigits_spec (s ds r : Bytes) (h : takeDigits s = (ds, r)) :
    s = ds ++ r ∧ ∀ c ∈ ds, IsDigit c := by
  induction s generalizing ds r with
  | nil =>
    simp only [takeDigits, Prod.mk.injEq] at h
    obtain ⟨rfl, rfl⟩ := h
    simp
  | cons c rest ih =>
    simp only [takeDigits] at h
    by_cases hc : 48 ≤ c ∧ c ≤ 57
    · simp only [hc, and_self, if_true] at h
      rcases hr : takeDigits rest with ⟨ds1, r1⟩
      rw [hr] at h
      simp only [Prod.mk.injEq] at h
      obtain ⟨rfl, rfl⟩ := h
      obtain ⟨h1, h2⟩ := ih ds1 r1 hr
      refine ⟨by rw [h1]; rfl, ?_⟩
      intro x hx
      rcases List.mem_cons.1 hx with rfl | hx
      · exact hc
      · exact h2 x hx
    · simp only [hc, if_false, Prod.mk.injEq] at h
      obtain ⟨rfl, rfl⟩ := h
      simp

theorem scanInt_spec (s ip r : Bytes) (h : scanInt s = some (ip, r)) :
    s = ip ++ r ∧ (ip = [48] ∨ ∃ d ds, ip = d :: ds ∧ 49 ≤ d ∧ d ≤ 57 ∧ ∀ c ∈ ds, IsDigit c) := by
  cases s with
  | nil => simp [scanInt] at h
  | cons c rest =>
    simp only [scanInt] at h
    by_cases h0 : c = 48
    · simp only [h0, if_true, Option.some.injEq, Prod.mk.injEq] at h
      obtain ⟨rfl, rfl⟩ := h
      exact ⟨by rw [h0]; rfl, Or.inl rfl⟩
    · simp only [h0, if_false] at h
      by_cases h1 : 49 ≤ c ∧ c ≤ 57
      · simp only [h1, and_self, if_true] at h
        rcases hr : takeDigits rest with ⟨ds1, r1⟩
        rw [hr] at h
        simp only [Option.some.injEq, Prod.mk.injEq] at h
        obtain ⟨rfl, rfl⟩ := h
        obtain ⟨e1, e2⟩ := takeDigits_spec rest ds1 r1 hr
        exact ⟨by rw [e1]; rfl, Or.inr ⟨c, ds1, rfl, h1.1, h1.2, e2⟩⟩
      · simp [h1] at h

theorem scanFrac_spec (s fp r : Bytes) (h : scanFrac s = some (fp, r)) :
    s = fp ++ r ∧ (fp = [] ∨ ∃ ds, fp = 46 :: ds ∧ ds ≠ [] ∧ ∀ c ∈ ds, IsDigit c) := by
  unfold scanFrac at h
  split at h
  · rename_i rest
    rcases hr : takeDigits rest with ⟨ds1, r1⟩
    rw [hr] at h
    obtain ⟨e1, e2⟩ := takeDigits_spec rest ds1 r1 hr
    cases ds1 with
    | nil => simp at h
    | cons d ds2 =>
      simp only [Option.some.injEq, Prod.mk.injEq] at h
      obtain ⟨rfl, rfl⟩ := h
      exact ⟨by rw [e1]; rfl, Or.inr ⟨d :: ds2, rfl, by simp, e2⟩⟩
  · simp only [Option.some.injEq, Prod.mk.injEq] at h
    obtain ⟨rfl, rfl⟩ := h
    exact ⟨rfl, Or.inl rfl⟩

theorem scanExp_spec (s ep r : Bytes) (h : scanExp s = some (ep, r)) :
    s = ep ++ r ∧ (ep = [] ∨ ∃ e sg ds, ep = e :: sg ++ ds ∧ (e = 101 ∨ e = 69) ∧
      (sg = [] ∨ sg = [43] ∨ sg = [45]) ∧ ds ≠ [] ∧ ∀ c ∈ ds, IsDigit c) := by
  cases s with
  | nil =>
    simp only [scanExp, Option.some.injEq, Prod.mk.injEq] at h
    obtain ⟨rfl, rfl⟩ := h
    exact ⟨rfl, Or.inl rfl⟩
  | cons e rest =>
    simp only [scanExp] at h
    by_cases he : e = 101 ∨ e = 69
    · simp only [he, if_true] at h
      cases rest with
      | nil => simp at h
      | cons sg rest1 =>
        simp only at h
        by_cases hs : sg = 43 ∨ sg = 45
        · simp only [hs, if_true] at h
          rcases hr : takeDigits rest1 with ⟨ds1, r1⟩
          rw [hr] at h
          obtain ⟨e1, e2⟩ := takeDigits_spec rest1 ds1 r1 hr
          cases ds1 with
          | nil => simp at h
          | cons d ds2 =>
            simp only [Option.some.injEq, Prod.mk.injEq] at h
            obtain ⟨rfl, rfl⟩ := h
            refine ⟨by rw [e1]; rfl, Or.inr ⟨e, [sg], d :: ds2, rfl, he, ?_, by simp, e2⟩⟩
            rcases hs with rfl | rfl
            · exact Or.inr (Or.inl rfl)
            · exact Or.inr (Or.inr rfl)
        · simp only [hs, if_false] at h
          rcases hr : takeDigits (sg :: rest1) with ⟨ds1, r1⟩
          rw [hr] at h
          obtain ⟨e1, e2⟩ := takeDigits_spec (sg :: rest1) ds1 r1 hr
          cases ds1 with
          | nil => simp at h
          | cons d ds2 =>
            simp only [Option.some.injEq, Prod.mk.injEq] at h
            obtain ⟨rfl, rfl⟩ := h
            exact ⟨by rw [e1]; rfl, Or.inr ⟨e, [], d :: ds2, rfl, he, Or.inl rfl, by simp, e2⟩⟩
    · simp only [he, if_false, Option.some.injEq, Prod.mk.injEq] at h
      obtain ⟨rfl, rfl⟩ := h
      exact ⟨rfl, Or.inl rfl⟩

theorem scanNumber_spec (s lit r : Bytes) (h : scanNumber s = some (lit, r)) :
    s = lit ++ r ∧ JNumber lit := by
  unfold scanNumber at h
  have key : ∀ (sign s1 : Bytes), (sign = [] ∨ sign = [45]) → s = sign ++ s1 →
      (match scanInt s1 with
        | none => none
        | some (ip, s2) =>
          match scanFrac s2 with
          | none => none
          | some (fp, s3) =>
            match scanExp s3 with
            | none => none
            | some (ep, s4) => some (sign ++ ip ++ fp ++ ep, s4)) = some (lit, r) →
      s = lit ++ r ∧ JNumber lit := by
    intro sign s1 hsign hs hm
    rcases h1 : scanInt s1 with _ | ⟨ip, s2⟩
    · rw [h1] at hm; cases hm
    rw [h1] at hm
    simp only at hm
    rcases h2 : scanFrac s2 with _ | ⟨fp, s3⟩
    · rw [h2] at hm; cases hm
    rw [h2] at hm
    simp only at hm
    rcases h3 : scanExp s3 with _ | ⟨ep, s4⟩
    · rw [h3] at hm; cases hm
    rw [h3] at hm
    simp only [Option.some.injEq, Prod.mk.injEq] at hm
    obtain ⟨rfl, rfl⟩ := hm
    obtain ⟨a1, a2⟩ := scanInt_spec _ _ _ h1
    obtain ⟨b1, b2⟩ := scanFrac_spec _ _ _ h2
    obtain ⟨c1, c2⟩ := scanExp_spec _ _ _ h3
    refine ⟨?_, sign, ip, fp, ep, rfl, hsign, a2, b2, c2⟩
    rw [hs, a1, b1, c1]
    simp only [List.append_assoc]
  split at h
  rename_i x sign s1 heq
  split at heq
  · rename_i rest
    simp only [Prod.mk.injEq] at heq
    obtain ⟨rfl, rfl⟩ := heq
    exact key [45] rest (Or.inr rfl) rfl h
  · simp only [Prod.mk.injEq] at heq
    obtain ⟨rfl, rfl⟩ := heq
    exact key [] s (Or.inl rfl) rfl h

theorem hexVal_isSome (c : Nat) (h : (hexVal c).isSome = true) : IsHex c := by
  unfold hexVal at h
  unfold IsHex
  by_cases h1 : 48 ≤ c ∧ c ≤ 57
  · exact Or.inl h1
  · by_cases h2 : 97 ≤ c ∧ c ≤ 102
    · exact Or.inr (Or.inl h2)
    · by_cases h3 : 65 ≤ c ∧ c ≤ 70
      · exact Or.inr (Or.inr h3)
      · simp [h1, h2, h3] at h

theorem scanString_spec_aux (n : Nat) : ∀ (s raw r : Bytes), s.length ≤ n →
    scanString s = some (raw, r) → s = raw ++ 34 :: r ∧ JChars raw := by
  induction n with
  | zero =>
    intro s raw r hl h
    have : s = [] := List.length_eq_zero.1 (by omega)
    subst this
    simp [scanString] at h
  | succ n ih =>
    intro s raw r hl h
    unfold scanString at h
    split at h
    · cases h
    · simp only [Option.some.injEq, Prod.mk.injEq] at h
      obtain ⟨rfl, rfl⟩ := h
      exact ⟨rfl, JChars.nil⟩
    · cases h
    · rename_i a b c d rest
      split at h
      · rename_i hhex
        rcases hr : scanString rest with _ | ⟨raw1, r1⟩
        · rw [hr] at h; cases h
        rw [hr] at h
        simp only [Option.some.injEq, Prod.mk.injEq] at h
        obtain ⟨rfl, rfl⟩ := h
        obtain ⟨e1, e2⟩ := ih rest raw1 r1 (by simp only [List.length_cons] at hl; omega) hr
        refine ⟨by rw [e1]; rfl, ?_⟩
        exact JChars.unicode a b c d raw1 (hexVal_isSome a hhex.1) (hexVal_isSome b hhex.2.1)
          (hexVal_isSome c hhex.2.2.1) (hexVal_isSome d hhex.2.2.2) e2
      · cases h
    · rename_i e rest hnot
      split at h
      · rename_i hesc
        rcases hr : scanString rest with _ | ⟨raw1, r1⟩
        · rw [hr] at h; cases h
        rw [hr] at h
        simp only [Option.some.injEq, Prod.mk.injEq] at h
        obtain ⟨rfl, rfl⟩ := h
        obtain ⟨e1, e2⟩ := ih rest raw1 r1 (by simp only [List.length_cons] at hl; omega) hr
        refine ⟨by rw [e1]; rfl, ?_⟩
        exact JChars.escape e raw1 (by omega) e2
      · cases h
    · rename_i c rest h34 h92a h92b h92c
      split at h
      · cases h
      · rename_i hc
        rcases hr : scanString rest with _ | ⟨raw1, r1⟩
        · rw [hr] at h; cases h
        rw [hr] at h
        simp only [Option.some.injEq, Prod.mk.injEq] at h
        obtain ⟨rfl, rfl⟩ := h
        obtain ⟨e1, e2⟩ := ih rest raw1 r1 (by simp only [List.length_cons] at hl; omega) hr
        refine ⟨by rw [e1]; rfl, ?_⟩
        refine JChars.plain c raw1 (by omega) ?_ ?_ e2
        · rintro rfl
          simp at h34
        · rintro rfl
          cases rest with
          | nil => simp at h92a
          | cons e rest2 => simp at h92c

theorem scanString_spec (s raw r : Bytes) (h : scanString s = some (raw, r)) :
    s = raw ++ 34 :: r ∧ JChars raw :=
  scanString_spec_aux s.length s raw r (Nat.le_refl _) h

theorem stringValue_of_unquote (raw u : Bytes) (h : unquoteBytes raw = some u) :
    stringValue raw = u := by
  simp [stringValue, h]

theorem parse_sound (limit fuel : Nat) :
    (∀ depth s v rest, parseValue limit fuel depth s = some (v, rest) →
      ∃ t, s = t ++ rest ∧ JValueText (limit - depth) t v) ∧
    (∀ depth acc s v rest, parseElements limit fuel depth acc s = some (v, rest) →
      ∃ t vs, s = t ++ 93 :: rest ∧ v = .arr (acc.reverse ++ vs) ∧
        ∀ w, IsWS w → JElements (limit - depth) (w ++ t) vs) ∧
    (∀ depth acc s v rest, parseMembers limit fuel depth acc s = some (v, rest) →
      ∃ t ms, s = t ++ 125 :: rest ∧ v = .obj (acc.reverse ++ ms) ∧
        ∀ w, IsWS w → JMembers (limit - depth) (w ++ t) ms) := by
  induction fuel with
  | zero =>
    refine ⟨?_, ?_, ?_⟩
    · intro depth s v rest h
      simp [parseValue] at h
    · intro depth acc s v rest h
      simp [parseElements] at h
    · intro depth acc s v rest h
      simp [parseMembers] at h
  | succ fuel ih =>
    obtain ⟨ihV, ihE, ihM⟩ := ih
    refine ⟨?_, ?_, ?_⟩
    · intro depth s v rest h
      cases s with
      | nil => simp [parseValue] at h
      | cons c s0 =>
        simp only [parseValue] at h
        split at h
        · -- object
          rename_i hc
          subst hc
          split at h
          · cases h
          · rename_i hdepth
            have hidx : limit - depth = limit - (depth + 1) + 1 := by omega
            rw [hidx]
            obtain ⟨w, hw, hs0⟩ := skipSpace_spec s0
            split at h
            · rename_i rest1 heq
              simp only [Option.some.injEq, Prod.mk.injEq] at h
              obtain ⟨rfl, rfl⟩ := h
              refine ⟨123 :: w ++ [125], ?_, JValueText.emptyObject _ w hw⟩
              rw [hs0, heq]
              simp
            · obtain ⟨t, ms, ht, hval, hm⟩ := ihM _ _ _ _ _ h
              subst hval
              refine ⟨123 :: (w ++ t) ++ [125], ?_, JValueText.object _ _ _ (hm w hw)⟩
              rw [hs0, ht]
              simp
        · split at h
          · -- array
            rename_i hc
            subst hc
            split at h
            · cases h
            · rename_i hdepth
              have hidx : limit - depth = limit - (depth + 1) + 1 := by omega
              rw [hidx]
              obtain ⟨w, hw, hs0⟩ := skipSpace_spec s0
              split at h
              · rename_i rest1 heq
                simp only [Option.some.injEq, Prod.mk.injEq] at h
                obtain ⟨rfl, rfl⟩ := h
                refine ⟨91 :: w ++ [93], ?_, JValueText.emptyArray _ w hw⟩
                rw [hs0, heq]
                simp
              · obtain ⟨t, vs, ht, hval, hm⟩ := ihE _ _ _ _ _ h
                subst hval
                refine ⟨91 :: (w ++ t) ++ [93], ?_, JValueText.array _ _ _ (hm w hw)⟩
                rw [hs0, ht]
                simp
          · split at h
            · -- string
              rename_i hc
              subst hc
              rcases hr : scanString s0 with _ | ⟨raw, rest1⟩
              · rw [hr] at h; cases h
              rw [hr] at h
              simp only at h
              rcases hu : unquoteBytes raw with _ | str
              · rw [hu] at h; cases h
              rw [hu] at h
              simp only [Option.some.injEq, Prod.mk.injEq] at h
              obtain ⟨rfl, rfl⟩ := h
              obtain ⟨e1, e2⟩ := scanString_spec _ _ _ hr
              rw [← stringValue_of_unquote raw str hu]
              refine ⟨34 :: raw ++ [34], ?_, JValueText.string _ raw e2⟩
              rw [e1]
              simp
            · split at h
              · -- true
                rename_i hc
                subst hc
                split at h
                · simp only [Option.some.injEq, Prod.mk.injEq] at h
                  obtain ⟨rfl, rfl⟩ := h
                  exact ⟨[116, 114, 117, 101], rfl, JValueText.true _⟩
                · cases h
              · split at h
                · -- false
                  rename_i hc
                  subst hc
                  split at h
                  · simp only [Option.some.injEq, Prod.mk.injEq] at h
                    obtain ⟨rfl, rfl⟩ := h
                    exact ⟨[102, 97, 108, 115, 101], rfl, JValueText.false _⟩
                  · cases h
                · split at h
                  · -- null
                    rename_i hc
                    subst hc
                    split at h
                    · simp only [Option.some.injEq, Prod.mk.injEq] at h
                      obtain ⟨rfl, rfl⟩ := h
                      exact ⟨[110, 117, 108, 108], rfl, JValueText.null _⟩
                    · cases h
                  · -- number
                    rcases hr : scanNumber (c :: s0) with _ | ⟨lit, rest1⟩
                    · rw [hr] at h; cases h
                    rw [hr] at h
                    simp only [Option.some.injEq, Prod.mk.injEq] at h
                    obtain ⟨rfl, rfl⟩ := h
                    obtain ⟨e1, e2⟩ := scanNumber_spec _ _ _ hr
                    exact ⟨lit, e1, JValueText.number _ lit e2⟩
    · intro depth acc s v rest h
      simp only [parseElements] at h
      rcases hr : parseValue limit fuel depth s with _ | ⟨v1, r1⟩
      · rw [hr] at h; cases h
      rw [hr] at h
      simp only at h
      obtain ⟨tv, htv, hv⟩ := ihV _ _ _ _ hr
      obtain ⟨w2, hw2, hr1⟩ := skipSpace_spec r1
      split at h
      · rename_i rest1 heq
        obtain ⟨w3, hw3, hrest1⟩ := skipSpace_spec rest1
        obtain ⟨t, vs, ht, hval, hm⟩ := ihE _ _ _ _ _ h
        refine ⟨tv ++ w2 ++ 44 :: (w3 ++ t), v1 :: vs, ?_, ?_, ?_⟩
        · rw [htv, hr1, heq, hrest1, ht]
          simp
        · rw [hval]
          simp
        · intro w hw
          have hd := JElements.cons _ w tv w2 (w3 ++ t) v1 vs hw hv hw2 (hm w3 hw3)
          have he : w ++ (tv ++ w2 ++ 44 :: (w3 ++ t)) = w ++ tv ++ w2 ++ 44 :: (w3 ++ t) := by
            simp
          rw [he]
          exact hd
      · rename_i rest1 heq
        simp only [Option.some.injEq, Prod.mk.injEq] at h
        obtain ⟨rfl, rfl⟩ := h
        refine ⟨tv ++ w2, [v1], ?_, ?_, ?_⟩
        · rw [htv, hr1, heq]
          simp
        · simp
        · intro w hw
          have hd := JElements.one _ w tv w2 v1 hw hv hw2
          have he : w ++ (tv ++ w2) = w ++ tv ++ w2 := by simp
          rw [he]
          exact hd
      · cases h
    · intro depth acc s v rest h
      simp only [parseMembers] at h
      split at h
      · rename_i s0
        rcases hr : scanString s0 with _ | ⟨raw, rest1⟩
        · rw [hr] at h; cases h
        rw [hr] at h
        simp only at h
        rcases hu : unquoteBytes raw with _ | key
        · rw [hu] at h; cases h
        rw [hu] at h
        simp only at h
        have hkey := stringValue_of_unquote raw key hu
        obtain ⟨e1, e2⟩ := scanString_spec _ _ _ hr
        obtain ⟨w2, hw2, hrest1⟩ := skipSpace_spec rest1
        split at h
        · rename_i rest2 heq2
          obtain ⟨w3, hw3, hrest2⟩ := skipSpace_spec rest2
          rcases hp : parseValue limit fuel depth (skipSpace rest2) with _ | ⟨v1, rest3⟩
          · rw [hp] at h; cases h
          rw [hp] at h
          simp only at h
          obtain ⟨tv, htv, hv⟩ := ihV _ _ _ _ hp
          obtain ⟨w4, hw4, hrest3⟩ := skipSpace_spec rest3
          split at h
          · rename_i rest4 heq4
            obtain ⟨w5, hw5, hrest4⟩ := skipSpace_spec rest4
            obtain ⟨t, ms, ht, hval, hm⟩ := ihM _ _ _ _ _ h
            refine ⟨34 :: raw ++ 34 :: w2 ++ 58 :: w3 ++ tv ++ w4 ++ 44 :: (w5 ++ t),
              (key, v1) :: ms, ?_, ?_, ?_⟩
            · rw [e1, hrest1, heq2, hrest2, htv, hrest3, heq4, hrest4, ht]
              simp
            · rw [hval]
              simp
            · intro w hw
              have hd := JMembers.cons _ w raw w2 w3 tv w4 (w5 ++ t) v1 ms hw e2 hw2 hw3 hv hw4
                (hm w5 hw5)
              have he : w ++ (34 :: raw ++ 34 :: w2 ++ 58 :: w3 ++ tv ++ w4 ++ 44 :: (w5 ++ t))
                  = w ++ 34 :: raw ++ 34 :: w2 ++ 58 :: w3 ++ tv ++ w4 ++ 44 :: (w5 ++ t) := by
                simp
              rw [he, ← hkey]
              exact hd
          · rename_i rest4 heq4
            simp only [Option.some.injEq, Prod.mk.injEq] at h
            obtain ⟨rfl, rfl⟩ := h
            refine ⟨34 :: raw ++ 34 :: w2 ++ 58 :: w3 ++ tv ++ w4, [(key, v1)], ?_, ?_, ?_⟩
            · rw [e1, hrest1, heq2, hrest2, htv, hrest3, heq4]
              simp
            · simp
            · intro w hw
              have hd := JMembers.one _ w raw w2 w3 tv w4 v1 hw e2 hw2 hw3 hv hw4
              have he : w ++ (34 :: raw ++ 34 :: w2 ++ 58 :: w3 ++ tv ++ w4)
                  = w ++ 34 :: raw ++ 34 :: w2 ++ 58 :: w3 ++ tv ++ w4 := by
                simp
              rw [he, ← hkey]
              exact hd
          · cases h
        · cases h
      · cases h

theorem parseJSON_sound (data : Bytes) (v : JValue) (h : parseJSON data = some v) :
    JSONValue maxNestingDepth data v := by
  unfold parseJSON at h
  obtain ⟨w1, hw1, hd⟩ := skipSpace_spec data
  rcases hp : parseValue maxNestingDepth (2 * data.length + 2) 0 (skipSpace data) with
    _ | ⟨v1, rest⟩
  · rw [hp] at h; cases h
  rw [hp] at h
  simp only at h
  obtain ⟨t, ht, hv⟩ := (parse_sound _ _).1 _ _ _ _ hp
  obtain ⟨w2, hw2, hrest⟩ := skipSpace_spec rest
  split at h
  · rename_i hnil
    simp only [Option.some.injEq] at h
    subst h
    refine ⟨w1, t, w2, ?_, hw1, hv, hw2⟩
    rw [hnil, List.append_nil] at hrest
    rw [hd, ht, hrest]
    simp
  · cases h

theorem jnumber_head (s : Bytes) (h : JNumber s) :
    ∃ c rest, s = c :: rest ∧ (c = 45 ∨ IsDigit c) := by
  obtain ⟨sign, ip, fp, ep, rfl, hsign, hip, -, -⟩ := h
  rcases hsign with rfl | rfl
  · rcases hip with rfl | ⟨d, ds, rfl, h1, h2, -⟩
    · exact ⟨48, fp ++ ep, by simp, Or.inr (by unfold IsDigit; omega)⟩
    · exact ⟨d, ds ++ fp ++ ep, by simp, Or.inr ⟨by omega, h2⟩⟩
  · exact ⟨45, ip ++ fp ++ ep, by simp, Or.inl rfl⟩

/-- A JSON value that starts with the letter `n` is the literal `null`. -/
theorem jvalue_head_n (d : Nat) (v rest : Bytes) (x : JValue) (hv : JValueText d v x)
    (h : v = 110 :: rest) :
    rest = [117, 108, 108] := by
  cases hv with
  | null => simpa using h.symm
  | true => simp at h
  | false => simp at h
  | number _ s hn =>
    obtain ⟨c, r, hs, hc⟩ := jnumber_head _ hn
    rw [hs] at h
    injection h with h1 h2
    subst h1
    rcases hc with hc | hc
    · omega
    · unfold IsDigit at hc; omega
  | string _ s hs => simp at h
  | emptyArray _ w hw => simp at h
  | array _ s hs => simp at h
  | emptyObject _ w hw => simp at h
  | object _ s hs => simp at h

theorem jvalue_ne_nil (d : Nat) (v : Bytes) (x : JValue) (hv : JValueText d v x) : v ≠ [] := by
  cases hv with
  | number _ s hn =>
    obtain ⟨c, r, hs, -⟩ := jnumber_head _ hn
    rw [hs]
    simp
  | _ => simp

/-- No text of the JSON grammar starts with the letter `n` followed by anything but
`ull`. -/
theorem jsonSyntax_head_n (c : Nat) (rest : Bytes) (hc : c ≠ 117) :
    ¬ JSONSyntax (110 :: c :: rest) := by
  rintro ⟨d, x, w1, v, w2, hs, hw1, hv, -⟩
  cases w1 with
  | cons x w1' =>
    simp only [List.cons_append, List.append_assoc, List.cons.injEq] at hs
    have := hw1 x (List.mem_cons_self _ _)
    omega
  | nil =>
    simp only [List.nil_append] at hs
    cases v with
    | nil => exact jvalue_ne_nil _ _ _ hv rfl
    | cons y v' =>
      simp only [List.cons_append, List.cons.injEq] at hs
      obtain ⟨hy, hrest⟩ := hs
      subst hy
      have h3 := jvalue_head_n _ _ v' _ hv rfl
      subst h3
      simp only [List.cons_append, List.cons.injEq] at hrest
      exact hc hrest.1

/-! ## Decoding into the record -/

theorem decodeMembers_keeps_error (ms : List (Bytes × JValue)) (u : User) (e : JsonError) :
    (decodeMembers ms u (some e)).2 = some e := by
  induction ms generalizing u with
  | nil => rfl
  | cons m ms ih =>
    obtain ⟨key, v⟩ := m
    simp only [decodeMembers]
    cases findField key with
    | none => exact ih u
    | some f => simpa using ih _

theorem storeField_wrongType (u : User) (f : Field) (v : JValue) (h : WrongType f v) :
    (storeField u f v).2 ≠ none := by
  cases v with
  | null => exact absurd h (by simp [WrongType])
  | bool b => simp [storeField]
  | arr xs => simp [storeField]
  | obj ms => simp [storeField]
  | str s =>
    simp only [WrongType] at h
    cases hk : f.kind <;> simp_all [storeField]
  | num lit =>
    simp only [WrongType] at h
    simp [storeField, h]

theorem decodeMembers_misfit (ms : List (Bytes × JValue)) (u : User) (err : Option JsonError)
    (key : Bytes) (val : JValue) (f : Field) (hmem : (key, val) ∈ ms)
    (hf : findField key = some f) (hw : WrongType f val) :
    (decodeMembers ms u err).2 ≠ none := by
  induction ms generalizing u err with
  | nil => cases hmem
  | cons m ms ih =>
    obtain ⟨k1, v1⟩ := m
    simp only [decodeMembers]
    rcases List.mem_cons.1 hmem with heq | hmem1
    · injection heq with h1 h2
      subst h1; subst h2
      simp only [hf]
      cases err with
      | some e => simp [decodeMembers_keeps_error]
      | none =>
        have hs := storeField_wrongType u f val hw
        rcases hst : storeField u f val with ⟨u1, _ | e1⟩
        · rw [hst] at hs; exact absurd rfl hs
        · simp [decodeMembers_keeps_error]
    · cases findField k1 with
      | none => exact ih u err hmem1
      | some g => exact ih _ _ hmem1

theorem Unmarshal_misfit (data : Bytes) (v : JValue) (hp : parseJSON data = some v)
    (hm : Misfit v) : (Unmarshal data).2 ≠ none := by
  unfold Unmarshal
  rw [hp]
  cases v with
  | null => exact absurd hm (by simp [Misfit])
  | obj ms =>
    obtain ⟨key, val, f, h1, h2, h3⟩ := hm
    exact decodeMembers_misfit ms _ _ key val f h1 h2 h3
  | _ => simp

theorem setString_isZero (u : User) (f g : Field) (s : Bytes) (hne : g ≠ f) (h : u.isZero f) :
    (u.setString g s).isZero f := by
  cases f <;> cases g <;> first | exact absurd rfl hne | exact h

theorem setInt_isZero (u : User) (f g : Field) (n : Int) (hne : g ≠ f) (h : u.isZero f) :
    (u.setInt g n).isZero f := by
  cases f <;> cases g <;> first | exact absurd rfl hne | exact h

theorem setFloat_isZero (u : User) (f g : Field) (lit : Bytes) (hne : g ≠ f) (h : u.isZero f) :
    (u.setFloat g lit).isZero f := by
  cases f <;> cases g <;> first | exact absurd rfl hne | exact h

theorem storeField_isZero (u : User) (f g : Field) (v : JValue) (hne : g ≠ f) (h : u.isZero f) :
    (storeField u g v).1.isZero f := by
  cases v with
  | null => exact h
  | bool b => exact h
  | arr xs => exact h
  | obj ms => exact h
  | str s =>
    simp only [storeField]
    cases g.kind with
    | String => exact setString_isZero u f g s hne h
    | Int => exact h
    | Float64 => exact h
  | num lit =>
    simp only [storeField]
    cases g.kind with
    | String => exact h
    | Int =>
      simp only
      cases ParseInt lit with
      | ok n => exact setInt_isZero u f g n hne h
      | error k => exact h
    | Float64 =>
      simp only
      split
      · exact setFloat_isZero u f g lit hne h
      · exact h

theorem decodeMembers_isZero (ms : List (Bytes × JValue)) (u : User) (err : Option JsonError)
    (f : Field) (habs : ∀ kv ∈ ms, findField kv.1 ≠ some f) (h : u.isZero f) :
    (decodeMembers ms u err).1.isZero f := by
  induction ms generalizing u err with
  | nil => exact h
  | cons m ms ih =>
    obtain ⟨key, v⟩ := m
    have habs1 : ∀ kv ∈ ms, findField kv.1 ≠ some f :=
      fun kv hkv => habs kv (List.mem_cons_of_mem _ hkv)
    have hkey : findField key ≠ some f := habs (key, v) (List.mem_cons_self _ _)
    simp only [decodeMembers]
    cases hfk : findField key with
    | none => exact ih u err habs1 h
    | some g =>
      have hne : g ≠ f := by
        rintro rfl
        exact hkey hfk
      exact ih _ _ habs1 (storeField_isZero u f g v hne h)

theorem zero_isZero (f : Field) : ({} : User).isZero f := by
  cases f <;> rfl

theorem decodeMembers_error_cause (ms : List (Bytes × JValue)) (u : User)
    (h : (decodeMembers ms u none).2 ≠ none) :
    ∃ kv ∈ ms, ∃ f, findField kv.1 = some f ∧ ∀ u1 : User, (storeField u1 f kv.2).2 ≠ none := by
  induction ms generalizing u with
  | nil => exact absurd rfl h
  | cons m ms ih =>
    obtain ⟨key, v⟩ := m
    simp only [decodeMembers] at h
    cases hfk : findField key with
    | none =>
      rw [hfk] at h
      obtain ⟨kv, hkv, f, h1, h2⟩ := ih u h
      exact ⟨kv, List.mem_cons_of_mem _ hkv, f, h1, h2⟩
    | some g =>
      rw [hfk] at h
      simp only [Option.isSome_none, Bool.false_eq_true, if_false] at h
      rcases hst : (storeField u g v).2 with _ | e1
      · rw [hst] at h
        obtain ⟨kv, hkv, f, h1, h2⟩ := ih _ h
        exact ⟨kv, List.mem_cons_of_mem _ hkv, f, h1, h2⟩
      · refine ⟨(key, v), List.mem_cons_self _ _, g, hfk, ?_⟩
        intro u1
        have hind : (storeField u1 g v).2 = (storeField u g v).2 := by
          cases v with
          | null => rfl
          | bool b => rfl
          | arr xs => rfl
          | obj ms1 => rfl
          | str s =>
            simp only [storeField]
            cases g.kind <;> rfl
          | num lit =>
            simp only [storeField]
            cases g.kind with
            | String => rfl
            | Int =>
              simp only
              cases ParseInt lit <;> rfl
            | Float64 =>
              simp only
              split <;> rfl
        rw [hind, hst]
        simp

/-! ## Unquoting a scanned string never fails -/

theorem jchars_tail_of_high (b : Nat) (s : Bytes) (h : JChars (b :: s)) (hb : b ≠ 92) :
    JChars s := by
  cases h with
  | plain _ _ _ _ _ hs => exact hs
  | escape e s1 _ _ => exact absurd rfl hb
  | unicode a1 b1 c1 d1 s1 _ _ _ _ _ => exact absurd rfl hb

theorem decodeRune_drop (c : Nat) (rest : Bytes) (hc : 0x80 ≤ c) (h : JChars rest) :
    JChars (rest.drop ((decodeRune (c :: rest)).2 - 1)) := by
  unfold decodeRune
  have hc1 : ¬ c < 0x80 := by omega
  simp only [hc1, if_false]
  by_cases hA : c < 0xC2 ∨ 0xF4 < c
  · rw [if_pos hA]
    exact h
  · rw [if_neg hA]
    have hlo : 0x80 ≤ (if c = 0xE0 then 0xA0 else if c = 0xF0 then 0x90 else 0x80) := by
      split_ifs <;> omega
    generalize (if c = 0xE0 then 0xA0 else if c = 0xF0 then 0x90 else 0x80) = lo at hlo ⊢
    generalize (if c = 0xED then 0x9F else if c = 0xF4 then 0x8F else 0xBF) = hi
    generalize (if c < 0xE0 then 2 else if c < 0xF0 then 3 else 4) = sz
    cases rest with
    | nil => exact h
    | cons b1 rest1 =>
      simp only
      by_cases h0 : (b1 :: rest1).length + 1 < sz
      · rw [if_pos h0]
        exact h
      rw [if_neg h0]
      by_cases hb1 : b1 < lo ∨ hi < b1
      · rw [if_pos hb1]
        exact h
      rw [if_neg hb1]
      have h1 : JChars rest1 := jchars_tail_of_high b1 rest1 h (by omega)
      by_cases hs2 : sz ≤ 2
      · rw [if_pos hs2]
        exact h1
      rw [if_neg hs2]
      cases rest1 with
      | nil => exact h
      | cons b2 rest2 =>
        simp only
        by_cases hb2 : b2 < 0x80 ∨ 0xBF < b2
        · rw [if_pos hb2]
          exact h
        rw [if_neg hb2]
        have h2 : JChars rest2 := jchars_tail_of_high b2 rest2 h1 (by omega)
        by_cases hs3 : sz ≤ 3
        · rw [if_pos hs3]
          exact h2
        rw [if_neg hs3]
        cases rest2 with
        | nil => exact h
        | cons b3 rest3 =>
          simp only
          by_cases hb3 : b3 < 0x80 ∨ 0xBF < b3
          · rw [if_pos hb3]
            exact h
          rw [if_neg hb3]
          exact jchars_tail_of_high b3 rest3 h2 (by omega)

theorem unquoteRewrite_skip (k : Nat) (s : Bytes) :
    unquoteRewrite k s = unquoteRewrite 0 (s.drop k) := by
  induction k generalizing s with
  | zero => rfl
  | succ k ih =>
    cases s with
    | nil => simp [unquoteRewrite]
    | cons c rest =>
      simp only [unquoteRewrite, List.drop_succ_cons]
      exact ih rest

theorem hexVal_of_isHex (c : Nat) (h : IsHex c) : ∃ x, hexVal c = some x := by
  unfold hexVal
  rcases h with h | h | h
  · exact ⟨c - 48, by simp [h]⟩
  · have h1 : ¬ (48 ≤ c ∧ c ≤ 57) := by omega
    exact ⟨c - 97 + 10, by simp [h1, h]⟩
  · have h1 : ¬ (48 ≤ c ∧ c ≤ 57) := by omega
    have h2 : ¬ (97 ≤ c ∧ c ≤ 102) := by omega
    exact ⟨c - 65 + 10, by simp [h1, h2, h]⟩

theorem getu4_isSome_jchars (s : Bytes) (h : JChars s) (hg : (getu4 s).isSome = true) :
    JChars (s.drop 6) := by
  cases h with
  | nil => simp [getu4] at hg
  | plain c s1 _ _ h92 _ =>
    cases s1 with
    | nil => simp [getu4] at hg
    | cons x s2 =>
      unfold getu4 at hg
      split at hg
      · rename_i heq
        injection heq with h1
        exact absurd h1 h92
      · simp at hg
  | escape e s1 he _ =>
    unfold getu4 at hg
    split at hg
    · rename_i heq
      injection heq with _ h2
      injection h2 with h3
      omega
    · simp at hg
  | unicode a b c d s1 _ _ _ _ hs => exact hs

theorem unquoteRewrite_total (n : Nat) : ∀ s : Bytes, s.length ≤ n → JChars s →
    (unquoteRewrite 0 s).isSome = true := by
  induction n with
  | zero =>
    intro s hl _
    have : s = [] := List.length_eq_zero.1 (by omega)
    subst this
    rfl
  | succ n ih =>
    intro s hl h
    have hmap : ∀ (f : Bytes → Bytes) (k : Nat) (r : Bytes), r.length ≤ n → JChars (r.drop k) →
        ((unquoteRewrite k r).map f).isSome = true := by
      intro f k r hr hj
      rw [unquoteRewrite_skip, Option.isSome_map']
      exact ih _ (by simp only [List.length_drop]; omega) hj
    cases h with
    | nil => rfl
    | plain c s1 hc h34 h92 hs =>
      simp only [List.length_cons] at hl
      unfold unquoteRewrite
      have h1 : ¬ (c = 34 ∨ c < 32) := by omega
      simp only [h92, if_false, h1]
      split
      · exact hmap _ 0 s1 (by omega) hs
      · rename_i hhigh
        exact hmap _ _ s1 (by omega) (decodeRune_drop c s1 (by omega) hs)
    | escape e s1 he hs =>
      simp only [List.length_cons] at hl
      unfold unquoteRewrite
      simp only [if_true]
      have hd : JChars ((e :: s1).drop 1) := hs
      have hlen : (e :: s1).length ≤ n := by simp only [List.length_cons]; omega
      split
      · exact hmap _ 1 _ hlen hd
      · split
        · exact hmap _ 1 _ hlen hd
        · split
          · exact hmap _ 1 _ hlen hd
          · split
            · exact hmap _ 1 _ hlen hd
            · split
              · exact hmap _ 1 _ hlen hd
              · split
                · exact hmap _ 1 _ hlen hd
                · omega
    | unicode a b c d s1 ha hb hc hd hs =>
      simp only [List.length_cons] at hl
      obtain ⟨x, hx⟩ := hexVal_of_isHex a ha
      obtain ⟨y, hy⟩ := hexVal_of_isHex b hb
      obtain ⟨z, hz⟩ := hexVal_of_isHex c hc
      obtain ⟨u, hu⟩ := hexVal_of_isHex d hd
      unfold unquoteRewrite
      have hlen : (117 :: a :: b :: c :: d :: s1).length ≤ n := by
        simp only [List.length_cons]; omega
      have hd5 : JChars ((117 :: a :: b :: c :: d :: s1).drop 5) := hs
      simp only [if_true, show ¬ ((117 : Nat) = 34 ∨ (117 : Nat) = 92 ∨ (117 : Nat) = 47 ∨
        (117 : Nat) = 39) by omega, if_false, show ¬ ((117 : Nat) = 98) by omega,
        show ¬ ((117 : Nat) = 102) by omega, show ¬ ((117 : Nat) = 110) by omega,
        show ¬ ((117 : Nat) = 114) by omega, show ¬ ((117 : Nat) = 116) by omega,
        getu4, hx, hy, hz, hu]
      split
      · split
        · rename_i hpair
          refine hmap _ 11 _ hlen ?_
          have := getu4_isSome_jchars s1 hs (by simpa using hpair.1)
          simpa using this
        · exact hmap _ 5 _ hlen hd5
      · exact hmap _ 5 _ hlen hd5

theorem unquoteClean_drop (s : Bytes) : ∀ k : Nat, JChars (s.drop k) →
    JChars (s.drop (unquoteClean k s)) := by
  induction s with
  | nil =>
    intro k _
    simp only [List.drop_nil]
    exact JChars.nil
  | cons c rest ih =>
    intro k h
    cases k with
    | succ k =>
      simp only [unquoteClean, List.drop_succ_cons] at h ⊢
      rw [Nat.add_comm, List.drop_succ_cons]
      exact ih k h
    | zero =>
      simp only [List.drop_zero] at h
      simp only [unquoteClean]
      split
      · exact h
      · rename_i hc
        have hr : JChars rest := jchars_tail_of_high c rest h (by omega)
        split
        · rw [Nat.add_comm, List.drop_succ_cons]
          exact ih 0 hr
        · split
          · exact h
          · rw [Nat.add_comm, List.drop_succ_cons]
            exact ih _ (decodeRune_drop c rest (by omega) hr)

/-- A string literal the scanner accepts is always unquoted: the failure branch of
`unquoteBytes` is never taken by the parser. -/
theorem unquoteBytes_total (raw : Bytes) (h : JChars raw) : (unquoteBytes raw).isSome = true := by
  unfold unquoteBytes
  simp only
  split
  · rfl
  · rw [Option.isSome_map']
    exact unquoteRewrite_total _ _ (Nat.le_refl _) (unquoteClean_drop raw 0 h)

/-! ## The scanner accepts every JSON text within the nesting limit -/

theorem skipSpace_ws_append (w s : Bytes) (hw : IsWS w) : skipSpace (w ++ s) = skipSpace s := by
  induction w with
  | nil => rfl
  | cons c w ih =>
    have hc : isSpace c = true := (isSpace_iff c).2 (hw c (List.mem_cons_self _ _))
    simp only [List.cons_append, skipSpace, hc, if_true]
    exact ih (fun x hx => hw x (List.mem_cons_of_mem _ hx))

theorem skipSpace_cons (c : Nat) (r : Bytes) (hc : isSpace c = false) :
    skipSpace (c :: r) = c :: r := by
  simp [skipSpace, hc]

theorem follow_cases (rest : Bytes) (h : FollowsValue rest) :
    rest = [] ∨ ∃ c r, rest = c :: r ∧ ¬ IsDigit c ∧ c ≠ 46 ∧ c ≠ 101 ∧ c ≠ 69 := by
  rcases h with h | ⟨c, r, h, hc⟩
  · exact Or.inl h
  · refine Or.inr ⟨c, r, h, ?_⟩
    rw [isSpace_iff] at hc
    unfold IsDigit
    omega

theorem takeDigits_append (ds rest : Bytes) (hds : ∀ c ∈ ds, IsDigit c)
    (hrest : rest = [] ∨ ∃ c r, rest = c :: r ∧ ¬ IsDigit c) :
    takeDigits (ds ++ rest) = (ds, rest) := by
  induction ds with
  | nil =>
    rcases hrest with rfl | ⟨c, r, rfl, hc⟩
    · rfl
    · unfold IsDigit at hc
      simp [takeDigits, hc]
  | cons d ds ih =>
    have hd : IsDigit d := hds d (List.mem_cons_self _ _)
    unfold IsDigit at hd
    have ih1 := ih (fun x hx => hds x (List.mem_cons_of_mem _ hx))
    simp only [List.cons_append, takeDigits, hd, and_self, if_true]
    change (d :: (takeDigits (ds ++ rest)).1, (takeDigits (ds ++ rest)).2) = _
    rw [ih1]

theorem scanExp_complete (ep rest : Bytes)
    (hep : ep = [] ∨ ∃ e sg ds, ep = e :: sg ++ ds ∧ (e = 101 ∨ e = 69) ∧
      (sg = [] ∨ sg = [43] ∨ sg = [45]) ∧ ds ≠ [] ∧ ∀ c ∈ ds, IsDigit c)
    (hrest : rest = [] ∨ ∃ c r, rest = c :: r ∧ ¬ IsDigit c ∧ c ≠ 46 ∧ c ≠ 101 ∧ c ≠ 69) :
    scanExp (ep ++ rest) = some (ep, rest) := by
  have hr : rest = [] ∨ ∃ c r, rest = c :: r ∧ ¬ IsDigit c := by
    rcases hrest with h | ⟨c, r, h, hc, -⟩
    · exact Or.inl h
    · exact Or.inr ⟨c, r, h, hc⟩
  rcases hep with rfl | ⟨e, sg, ds, rfl, he, hsg, hne, hds⟩
  · rcases hrest with rfl | ⟨c, r, rfl, -, -, h1, h2⟩
    · rfl
    · have : ¬ (c = 101 ∨ c = 69) := by omega
      simp [scanExp, this]
  · obtain ⟨d0, ds1, rfl⟩ := List.exists_cons_of_ne_nil hne
    have htd := takeDigits_append (d0 :: ds1) rest hds hr
    have hd0 : IsDigit d0 := hds d0 (List.mem_cons_self _ _)
    rcases hsg with rfl | rfl | rfl
    · have hns : ¬ (d0 = 43 ∨ d0 = 45) := by unfold IsDigit at hd0; omega
      simp only [List.nil_append, List.cons_append, scanExp, he, if_true, hns, if_false]
      rw [show d0 :: (ds1 ++ rest) = (d0 :: ds1) ++ rest from rfl, htd]
    · simp only [List.cons_append, List.nil_append, scanExp, he, if_true, true_or]
      rw [show d0 :: (ds1 ++ rest) = (d0 :: ds1) ++ rest from rfl, htd]
    · simp only [List.cons_append, List.nil_append, scanExp, he, if_true, or_true]
      rw [show d0 :: (ds1 ++ rest) = (d0 :: ds1) ++ rest from rfl, htd]

theorem scanFrac_complete (fp rest : Bytes)
    (hfp : fp = [] ∨ ∃ ds, fp = 46 :: ds ∧ ds ≠ [] ∧ ∀ c ∈ ds, IsDigit c)
    (hrest : rest = [] ∨ ∃ c r, rest = c :: r ∧ ¬ IsDigit c ∧ c ≠ 46) :
    scanFrac (fp ++ rest) = some (fp, rest) := by
  rcases hfp with rfl | ⟨ds, rfl, hne, hds⟩
  · rcases hrest with rfl | ⟨c, r, rfl, -, h1⟩
    · rfl
    · unfold scanFrac
      split
      · rename_i heq
        simp only [List.nil_append, List.cons.injEq] at heq
        exact absurd heq.1 h1
      · rfl
  · obtain ⟨d0, ds1, rfl⟩ := List.exists_cons_of_ne_nil hne
    have hr : rest = [] ∨ ∃ c r, rest = c :: r ∧ ¬ IsDigit c := by
      rcases hrest with h | ⟨c, r, h, hc, -⟩
      · exact Or.inl h
      · exact Or.inr ⟨c, r, h, hc⟩
    have htd := takeDigits_append (d0 :: ds1) rest hds hr
    simp only [List.cons_append, scanFrac]
    rw [show d0 :: (ds1 ++ rest) = (d0 :: ds1) ++ rest from rfl, htd]

theorem scanInt_complete (ip rest : Bytes)
    (hip : ip = [48] ∨ ∃ d ds, ip = d :: ds ∧ 49 ≤ d ∧ d ≤ 57 ∧ ∀ c ∈ ds, IsDigit c)
    (hrest : rest = [] ∨ ∃ c r, rest = c :: r ∧ ¬ IsDigit c) :
    scanInt (ip ++ rest) = some (ip, rest) := by
  rcases hip with rfl | ⟨d, ds, rfl, h1, h2, hds⟩
  · rfl
  · have h0 : ¬ d = 48 := by omega
    simp only [List.cons_append, scanInt, h0, if_false, h1, h2, and_self, if_true,
      takeDigits_append ds rest hds hrest]

theorem head_append_cases (a b : Bytes) (P : Nat → Prop)
    (ha : a = [] ∨ ∃ c r, a = c :: r ∧ P c) (hb : b = [] ∨ ∃ c r, b = c :: r ∧ P c) :
    a ++ b = [] ∨ ∃ c r, a ++ b = c :: r ∧ P c := by
  rcases ha with rfl | ⟨c, r, rfl, hc⟩
  · simpa using hb
  · exact Or.inr ⟨c, r ++ b, rfl, hc⟩

theorem scanNumber_complete (lit rest : Bytes) (hlit : JNumber lit)
    (hrest : rest = [] ∨ ∃ c r, rest = c :: r ∧ ¬ IsDigit c ∧ c ≠ 46 ∧ c ≠ 101 ∧ c ≠ 69) :
    scanNumber (lit ++ rest) = some (lit, rest) := by
  obtain ⟨sign, ip, fp, ep, rfl, hsign, hip, hfp, hep⟩ := hlit
  -- what follows the exponent, the fraction and the integer part
  have hE : ep ++ rest = [] ∨ ∃ c r, ep ++ rest = c :: r ∧ ¬ IsDigit c ∧ c ≠ 46 := by
    apply head_append_cases ep rest (fun c => ¬ IsDigit c ∧ c ≠ 46)
    · rcases hep with h | ⟨e, sg, ds, h, he, -⟩
      · exact Or.inl h
      · exact Or.inr ⟨e, sg ++ ds, h, by unfold IsDigit; omega, by omega⟩
    · rcases hrest with h | ⟨c, r, h, h1, h2, -⟩
      · exact Or.inl h
      · exact Or.inr ⟨c, r, h, h1, h2⟩
  have hF : fp ++ (ep ++ rest) = [] ∨ ∃ c r, fp ++ (ep ++ rest) = c :: r ∧ ¬ IsDigit c := by
    apply head_append_cases fp (ep ++ rest) (fun c => ¬ IsDigit c)
    · rcases hfp with h | ⟨ds, h, -⟩
      · exact Or.inl h
      · exact Or.inr ⟨46, ds, h, by unfold IsDigit; omega⟩
    · rcases hE with h | ⟨c, r, h, h1, -⟩
      · exact Or.inl h
      · exact Or.inr ⟨c, r, h, h1⟩
  have h1 := scanInt_complete ip (fp ++ (ep ++ rest)) hip hF
  have h2 := scanFrac_complete fp (ep ++ rest) hfp hE
  have h3 := scanExp_complete ep rest hep hrest
  -- the head of the integer part is a digit
  have hhead : ∃ d r, ip = d :: r ∧ IsDigit d := by
    rcases hip with rfl | ⟨d, ds, rfl, a, b, -⟩
    · exact ⟨48, [], rfl, by unfold IsDigit; omega⟩
    · exact ⟨d, ds, rfl, by unfold IsDigit; omega⟩
  obtain ⟨d, r, hd, hdig⟩ := hhead
  unfold scanNumber
  rcases hsign with rfl | rfl
  · have hs : [] ++ ip ++ fp ++ ep ++ rest = ip ++ (fp ++ (ep ++ rest)) := by simp
    rw [hs]
    have hne : ∀ x, ip ++ (fp ++ (ep ++ rest)) ≠ 45 :: x := by
      intro x hx
      rw [hd] at hx
      simp only [List.cons_append, List.cons.injEq] at hx
      unfold IsDigit at hdig
      omega
    split
    rename_i x sign s1 heq
    split at heq
    · rename_i rest1 hx
      exact absurd hx (hne rest1)
    · simp only [Prod.mk.injEq] at heq
      obtain ⟨rfl, rfl⟩ := heq
      rw [h1]
      simp only [h2, h3]
  · have hs : [45] ++ ip ++ fp ++ ep ++ rest = 45 :: (ip ++ (fp ++ (ep ++ rest))) := by simp
    rw [hs]
    simp only [h1, h2, h3]

theorem scanString_complete (raw rest : Bytes) (h : JChars raw) :
    scanString (raw ++ 34 :: rest) = some (raw, rest) := by
  induction h with
  | nil => simp [scanString]
  | plain c s hc h34 h92 hs ih =>
    have hlt : ¬ c < 32 := by omega
    rw [List.cons_append]
    unfold scanString
    split
    · rename_i heq; cases heq
    · rename_i heq
      injection heq with h1 _
      exact absurd h1 h34
    · rename_i heq
      injection heq with h1 _
      exact absurd h1 h92
    · rename_i heq
      injection heq with h1 _
      exact absurd h1 h92
    · rename_i heq
      injection heq with h1 _
      exact absurd h1 h92
    · rename_i c1 rest1 _ _ _ _ heq
      injection heq with h1 h2
      subst h1; subst h2
      simp only [hlt, if_false, ih]
  | escape e s he hs ih =>
    have h117 : e ≠ 117 := by omega
    have he2 : e = 98 ∨ e = 102 ∨ e = 110 ∨ e = 114 ∨ e = 116 ∨ e = 92 ∨ e = 47 ∨ e = 34 := by
      omega
    rw [List.cons_append, List.cons_append]
    unfold scanString
    split
    · rename_i heq; cases heq
    · rename_i heq
      injection heq with h1 _
      omega
    · rename_i heq
      injection heq with _ h2
      cases h2
    · rename_i heq
      injection heq with _ h2
      injection h2 with h3 _
      exact absurd h3 h117
    · rename_i e1 rest1 _ heq
      injection heq with _ h2
      injection h2 with h3 h4
      subst h3; subst h4
      simp only [he2, if_true, ih]
    · rename_i c1 rest1 _ h92a _ _ heq
      injection heq with h1 h2
      subst h1
      cases rest1 with
      | nil => cases h2
      | cons x y => simp at *
  | unicode a b c d s ha hb hc hd hs ih =>
    obtain ⟨x, hx⟩ := hexVal_of_isHex a ha
    obtain ⟨y, hy⟩ := hexVal_of_isHex b hb
    obtain ⟨z, hz⟩ := hexVal_of_isHex c hc
    obtain ⟨u, hu⟩ := hexVal_of_isHex d hd
    simp only [List.cons_append, scanString, hx, hy, hz, hu, Option.isSome_some, and_self,
      if_true]
    change (match scanString (s ++ 34 :: rest) with
      | some (raw, r) => some (92 :: 117 :: a :: b :: c :: d :: raw, r)
      | none => none) = _
    rw [ih]

theorem jvalue_head (d : Nat) (v : Bytes) (x : JValue) (hv : JValueText d v x) :
    ∃ c r, v = c :: r ∧ isSpace c = false ∧ c ≠ 93 ∧ c ≠ 125 := by
  cases hv with
  | null => exact ⟨110, _, rfl, rfl, by omega, by omega⟩
  | true => exact ⟨116, _, rfl, rfl, by omega, by omega⟩
  | false => exact ⟨102, _, rfl, rfl, by omega, by omega⟩
  | number _ s hn =>
    obtain ⟨c, r, hs, hc⟩ := jnumber_head _ hn
    refine ⟨c, r, hs, ?_, ?_, ?_⟩
    · cases hsp : isSpace c with
      | false => rfl
      | true =>
        rw [isSpace_iff] at hsp
        unfold IsDigit at hc
        omega
    · unfold IsDigit at hc; omega
    · unfold IsDigit at hc; omega
  | string _ s hs => exact ⟨34, _, rfl, rfl, by omega, by omega⟩
  | emptyArray _ w hw => exact ⟨91, _, rfl, rfl, by omega, by omega⟩
  | array _ s hs => exact ⟨91, _, rfl, rfl, by omega, by omega⟩
  | emptyObject _ w hw => exact ⟨123, _, rfl, rfl, by omega, by omega⟩
  | object _ s hs => exact ⟨123, _, rfl, rfl, by omega, by omega⟩

theorem skipSpace_value (d : Nat) (w v x : Bytes) (val : JValue) (hw : IsWS w)
    (hv : JValueText d v val) :
    skipSpace (w ++ (v ++ x)) = v ++ x ∧ ∃ c r, v ++ x = c :: r ∧ c ≠ 93 := by
  obtain ⟨c, r, hvc, hsp, h93, -⟩ := jvalue_head d v val hv
  rw [skipSpace_ws_append w _ hw, hvc, List.cons_append, skipSpace_cons c _ hsp]
  exact ⟨rfl, c, r ++ x, rfl, h93⟩

theorem skipSpace_ws_then (w : Bytes) (c : Nat) (x : Bytes) (hw : IsWS w)
    (hc : isSpace c = false) : skipSpace (w ++ c :: x) = c :: x := by
  rw [skipSpace_ws_append w _ hw, skipSpace_cons c x hc]

theorem followsValue_ws_then (w : Bytes) (c : Nat) (x : Bytes) (hw : IsWS w)
    (hc : c = 44 ∨ c = 93 ∨ c = 125) : FollowsValue (w ++ c :: x) := by
  cases w with
  | nil => exact Or.inr ⟨c, x, rfl, Or.inr hc⟩
  | cons a w1 =>
    exact Or.inr ⟨a, w1 ++ c :: x, rfl, Or.inl ((isSpace_iff a).2 (hw a (List.mem_cons_self _ _)))⟩

theorem parse_complete (limit fuel : Nat) :
    (∀ d depth t v rest, JValueText d t v → FollowsValue rest → depth + d ≤ limit →
      2 * (t ++ rest).length + 1 ≤ fuel →
      parseValue limit fuel depth (t ++ rest) = some (v, rest)) ∧
    (∀ d depth acc t vs rest, JElements d t vs → depth + d ≤ limit →
      2 * (t ++ 93 :: rest).length + 2 ≤ fuel →
      parseElements limit fuel depth acc (skipSpace (t ++ 93 :: rest))
        = some (.arr (acc.reverse ++ vs), rest)) ∧
    (∀ d depth acc t ms rest, JMembers d t ms → depth + d ≤ limit →
      2 * (t ++ 125 :: rest).length + 2 ≤ fuel →
      parseMembers limit fuel depth acc (skipSpace (t ++ 125 :: rest))
        = some (.obj (acc.reverse ++ ms), rest)) := by
  induction fuel with
  | zero =>
    refine ⟨?_, ?_, ?_⟩ <;> intros <;> omega
  | succ fuel ih =>
    obtain ⟨ihV, ihE, ihM⟩ := ih
    refine ⟨?_, ?_, ?_⟩
    · intro d depth t v rest ht hrest hdepth hfuel
      cases ht with
      | null => simp [parseValue]
      | true => simp [parseValue]
      | false => simp [parseValue]
      | number _ s hn =>
        obtain ⟨c, r, hs, hc⟩ := jnumber_head t hn
        have hscan := scanNumber_complete t rest hn (follow_cases rest hrest)
        have hc' : c ≠ 123 ∧ c ≠ 91 ∧ c ≠ 34 ∧ c ≠ 116 ∧ c ≠ 102 ∧ c ≠ 110 := by
          unfold IsDigit at hc; omega
        obtain ⟨a1, a2, a3, a4, a5, a6⟩ := hc'
        rw [hs, List.cons_append] at hscan ⊢
        simp only [parseValue, a1, a2, a3, a4, a5, a6, if_false, hscan]
      | string _ s hs =>
        have hscan := scanString_complete s rest hs
        have hu := unquoteBytes_total s hs
        obtain ⟨str, hstr⟩ := Option.isSome_iff_exists.1 hu
        have e : (34 :: s ++ [34]) ++ rest = 34 :: (s ++ 34 :: rest) := by simp
        rw [e, stringValue_of_unquote s str hstr]
        simp [parseValue, hscan, hstr]
      | emptyArray d1 w hw =>
        have hd : ¬ depth ≥ limit := by omega
        have e : (91 :: w ++ [93]) ++ rest = 91 :: (w ++ 93 :: rest) := by simp
        rw [e]
        simp [parseValue, hd, skipSpace_ws_then w 93 rest hw rfl]
      | array d1 s vs hs =>
        have hd : ¬ depth ≥ limit := by omega
        have e : (91 :: s ++ [93]) ++ rest = 91 :: (s ++ 93 :: rest) := by simp
        rw [e] at hfuel ⊢
        simp only [List.length_cons] at hfuel
        have hv := ihE d1 (depth + 1) [] s vs rest hs (by omega) (by omega)
        simp only [List.reverse_nil, List.nil_append] at hv
        have hhead : ∃ c r, skipSpace (s ++ 93 :: rest) = c :: r ∧ c ≠ 93 := by
          cases hs with
          | one _ w1 t1 w2 v1 hw1 hv1 hw2 =>
            have := skipSpace_value d1 w1 t1 (w2 ++ 93 :: rest) v1 hw1 hv1
            simp only [List.append_assoc]
            rw [this.1]
            exact this.2
          | cons _ w1 t1 w2 r1 v1 vs1 hw1 hv1 hw2 hr1 =>
            have := skipSpace_value d1 w1 t1 (w2 ++ 44 :: r1 ++ 93 :: rest) v1 hw1 hv1
            simp only [List.append_assoc, List.cons_append] at this ⊢
            rw [this.1]
            exact this.2
        obtain ⟨c, r, hcr, hc93⟩ := hhead
        simp only [parseValue, show ¬ ((91 : Nat) = 123) by omega, if_false, if_true, hd]
        rw [hcr] at hv ⊢
        split
        · rename_i heq
          injection heq with h1 _
          exact absurd h1 hc93
        · exact hv
      | emptyObject d1 w hw =>
        have hd : ¬ depth ≥ limit := by omega
        have e : (123 :: w ++ [125]) ++ rest = 123 :: (w ++ 125 :: rest) := by simp
        rw [e]
        simp [parseValue, hd, skipSpace_ws_then w 125 rest hw rfl]
      | object d1 s ms hs =>
        have hd : ¬ depth ≥ limit := by omega
        have e : (123 :: s ++ [125]) ++ rest = 123 :: (s ++ 125 :: rest) := by simp
        rw [e] at hfuel ⊢
        simp only [List.length_cons] at hfuel
        have hv := ihM d1 (depth + 1) [] s ms rest hs (by omega) (by omega)
        simp only [List.reverse_nil, List.nil_append] at hv
        have hhead : ∃ r, skipSpace (s ++ 125 :: rest) = 34 :: r := by
          cases hs with
          | one _ w1 k w2 w3 t1 w4 v1 hw1 hk hw2 hw3 hv1 hw4 =>
            refine ⟨k ++ 34 :: w2 ++ 58 :: w3 ++ t1 ++ w4 ++ 125 :: rest, ?_⟩
            have := skipSpace_ws_then w1 34 (k ++ 34 :: w2 ++ 58 :: w3 ++ t1 ++ w4 ++ 125 :: rest)
              hw1 rfl
            simpa using this
          | cons _ w1 k w2 w3 t1 w4 r1 v1 ms1 hw1 hk hw2 hw3 hv1 hw4 hr1 =>
            refine ⟨k ++ 34 :: w2 ++ 58 :: w3 ++ t1 ++ w4 ++ 44 :: r1 ++ 125 :: rest, ?_⟩
            have := skipSpace_ws_then w1 34
              (k ++ 34 :: w2 ++ 58 :: w3 ++ t1 ++ w4 ++ 44 :: r1 ++ 125 :: rest) hw1 rfl
            simpa using this
        obtain ⟨r, hcr⟩ := hhead
        simp only [parseValue, if_true, hd, if_false]
        rw [hcr] at hv ⊢
        exact hv
    · intro d depth acc t vs rest ht hdepth hfuel
      cases ht with
      | one _ w1 t1 w2 v1 hw1 hv1 hw2 =>
        have hsk := (skipSpace_value d w1 t1 (w2 ++ 93 :: rest) v1 hw1 hv1).1
        have e : w1 ++ t1 ++ w2 ++ 93 :: rest = w1 ++ (t1 ++ (w2 ++ 93 :: rest)) := by simp
        rw [e] at hfuel ⊢
        rw [hsk]
        simp only [List.length_append] at hfuel
        have hv := ihV d depth t1 v1 (w2 ++ 93 :: rest) hv1
          (followsValue_ws_then w2 93 rest hw2 (by omega)) hdepth
          (by simp only [List.length_append]; omega)
        simp only [parseElements, hv, skipSpace_ws_then w2 93 rest hw2 rfl]
        simp
      | cons _ w1 t1 w2 r1 v1 vs1 hw1 hv1 hw2 hr1 =>
        have hsk := (skipSpace_value d w1 t1 (w2 ++ 44 :: (r1 ++ 93 :: rest)) v1 hw1 hv1).1
        have e : w1 ++ t1 ++ w2 ++ 44 :: r1 ++ 93 :: rest
            = w1 ++ (t1 ++ (w2 ++ 44 :: (r1 ++ 93 :: rest))) := by simp
        rw [e] at hfuel ⊢
        rw [hsk]
        simp only [List.length_append, List.length_cons] at hfuel
        have hv := ihV d depth t1 v1 (w2 ++ 44 :: (r1 ++ 93 :: rest)) hv1
          (followsValue_ws_then w2 44 _ hw2 (by omega)) hdepth
          (by simp only [List.length_append, List.length_cons]; omega)
        have hv2 := ihE d depth (v1 :: acc) r1 vs1 rest hr1 hdepth
          (by simp only [List.length_append, List.length_cons]; omega)
        simp only [parseElements, hv, skipSpace_ws_then w2 44 _ hw2 rfl, hv2]
        simp
    · intro d depth acc t ms rest ht hdepth hfuel
      have hmember : ∀ (w1 k w2 w3 t1 x : Bytes) (v1 : JValue), IsWS w1 → JChars k → IsWS w2 →
          IsWS w3 → JValueText d t1 v1 → FollowsValue x →
          2 * (w1 ++ 34 :: (k ++ 34 :: (w2 ++ 58 :: (w3 ++ (t1 ++ x))))).length + 2 ≤ fuel + 1 →
          unquoteBytes k = some (stringValue k) ∧
            skipSpace (w1 ++ 34 :: (k ++ 34 :: (w2 ++ 58 :: (w3 ++ (t1 ++ x)))))
              = 34 :: (k ++ 34 :: (w2 ++ 58 :: (w3 ++ (t1 ++ x)))) ∧
            scanString (k ++ 34 :: (w2 ++ 58 :: (w3 ++ (t1 ++ x))))
              = some (k, w2 ++ 58 :: (w3 ++ (t1 ++ x))) ∧
            skipSpace (w2 ++ 58 :: (w3 ++ (t1 ++ x))) = 58 :: (w3 ++ (t1 ++ x)) ∧
            parseValue limit fuel depth (skipSpace (w3 ++ (t1 ++ x))) = some (v1, x) := by
        intro w1 k w2 w3 t1 x v1 hw1 hk hw2 hw3 hv1 hx hf
        obtain ⟨key, hkey⟩ := Option.isSome_iff_exists.1 (unquoteBytes_total k hk)
        have hsk := (skipSpace_value d w3 t1 x v1 hw3 hv1).1
        simp only [List.length_append, List.length_cons] at hf
        have hv := ihV d depth t1 v1 x hv1 hx hdepth
          (by simp only [List.length_append]; omega)
        refine ⟨by rw [stringValue_of_unquote k key hkey, hkey],
          skipSpace_ws_then w1 34 _ hw1 rfl, scanString_complete k _ hk,
          skipSpace_ws_then w2 58 _ hw2 rfl, ?_⟩
        rw [hsk]
        exact hv
      cases ht with
      | one _ w1 k w2 w3 t1 w4 v1 hw1 hk hw2 hw3 hv1 hw4 =>
        have e : w1 ++ 34 :: k ++ 34 :: w2 ++ 58 :: w3 ++ t1 ++ w4 ++ 125 :: rest
            = w1 ++ 34 :: (k ++ 34 :: (w2 ++ 58 :: (w3 ++ (t1 ++ (w4 ++ 125 :: rest))))) := by
          simp
        rw [e] at hfuel ⊢
        obtain ⟨h1, h2, h3, h4, h5⟩ := hmember w1 k w2 w3 t1 (w4 ++ 125 :: rest) v1
          hw1 hk hw2 hw3 hv1 (followsValue_ws_then w4 125 rest hw4 (by omega)) hfuel
        rw [h2]
        simp only [parseMembers, h3, h1, h4, h5, skipSpace_ws_then w4 125 rest hw4 rfl]
        simp
      | cons _ w1 k w2 w3 t1 w4 r1 v1 ms1 hw1 hk hw2 hw3 hv1 hw4 hr1 =>
        have e : w1 ++ 34 :: k ++ 34 :: w2 ++ 58 :: w3 ++ t1 ++ w4 ++ 44 :: r1 ++ 125 :: rest
            = w1 ++ 34 :: (k ++ 34 :: (w2 ++ 58 :: (w3 ++ (t1 ++
                (w4 ++ 44 :: (r1 ++ 125 :: rest)))))) := by
          simp
        rw [e] at hfuel ⊢
        obtain ⟨h1, h2, h3, h4, h5⟩ := hmember w1 k w2 w3 t1
          (w4 ++ 44 :: (r1 ++ 125 :: rest)) v1 hw1 hk hw2 hw3 hv1
          (followsValue_ws_then w4 44 _ hw4 (by omega)) hfuel
        simp only [List.length_append, List.length_cons] at hfuel
        have hv2 := ihM d depth ((stringValue k, v1) :: acc) r1 ms1 rest hr1 hdepth
          (by simp only [List.length_append, List.length_cons]; omega)
        rw [h2]
        simp only [parseMembers, h3, h1, h4, h5, skipSpace_ws_then w4 44 _ hw4 rfl, hv2]
        simp

/-- The grammar gives a text at most one value: two readings of the same text, at
whatever nesting bounds, denote the same value. -/
theorem jsonValue_unique (d1 d2 : Nat) (s : Bytes) (v1 v2 : JValue)
    (h1 : JSONValue d1 s v1) (h2 : JSONValue d2 s v2) : v1 = v2 := by
  have key : ∀ (d : Nat) (v : JValue), JSONValue d s v → d ≤ max d1 d2 →
      ∃ rest, parseValue (max d1 d2) (2 * s.length + 2) 0 (skipSpace s) = some (v, rest) := by
    intro d v ⟨w1, t, w2, hs, hw1, ht, hw2⟩ hd
    have hsk := (skipSpace_value _ w1 t w2 v hw1 ht).1
    have hf : FollowsValue w2 := by
      cases w2 with
      | nil => exact Or.inl rfl
      | cons a r =>
        exact Or.inr ⟨a, r, rfl, Or.inl ((isSpace_iff a).2 (hw2 a (List.mem_cons_self _ _)))⟩
    have hlen : (t ++ w2).length ≤ s.length := by
      rw [hs]
      simp only [List.length_append]
      omega
    have hv := (parse_complete (max d1 d2) (2 * s.length + 2)).1 d 0 t v w2 ht hf
      (by omega) (by omega)
    refine ⟨w2, ?_⟩
    rw [hs, List.append_assoc, hsk]
    rw [hs, List.append_assoc] at hv
    exact hv
  obtain ⟨r1, e1⟩ := key d1 v1 h1 (Nat.le_max_left _ _)
  obtain ⟨r2, e2⟩ := key d2 v2 h2 (Nat.le_max_right _ _)
  rw [e1] at e2
  injection e2 with e3
  injection e3

theorem parseJSON_complete (d : Nat) (data : Bytes) (v : JValue) (hdepth : d ≤ maxNestingDepth)
    (h : JSONValue d data v) : parseJSON data = some v := by
  obtain ⟨w1, t, w2, hd, hw1, ht, hw2⟩ := h
  have hsk := (skipSpace_value _ w1 t w2 v hw1 ht).1
  have hf : FollowsValue w2 := by
    cases w2 with
    | nil => exact Or.inl rfl
    | cons a r =>
      exact Or.inr ⟨a, r, rfl, Or.inl ((isSpace_iff a).2 (hw2 a (List.mem_cons_self _ _)))⟩
  have hlen : (t ++ w2).length ≤ data.length := by
    rw [hd]
    simp only [List.length_append]
    omega
  have hv := (parse_complete maxNestingDepth (2 * data.length + 2)).1 d 0 t v w2
    ht hf (by omega) (by omega)
  have hend : skipSpace w2 = [] := by
    have := skipSpace_ws_append w2 [] hw2
    simpa using this
  unfold parseJSON
  rw [hd, List.append_assoc, hsk]
  rw [hd, List.append_assoc] at hv
  rw [hv]
  simp [hend]

/-- The parser reads exactly the texts of the JSON grammar whose arrays and objects
are nested at most `maxNestingDepth` deep, and gives the value the grammar gives. -/
theorem parseJSON_eq_some_iff (data : Bytes) (v : JValue) :
    parseJSON data = some v ↔ JSONValue maxNestingDepth data v :=
  ⟨parseJSON_sound data v, parseJSON_complete _ data v (Nat.le_refl _)⟩

/-! ## The fuel of the parser is never used up -/

theorem skipSpace_length (s : Bytes) : (skipSpace s).length ≤ s.length := by
  obtain ⟨w, -, h⟩ := skipSpace_spec s
  have := congrArg List.length h
  simp only [List.length_append] at this
  omega

theorem parseValue_progress (limit fuel depth : Nat) (s : Bytes) (v : JValue) (rest : Bytes)
    (h : parseValue limit fuel depth s = some (v, rest)) : rest.length < s.length := by
  obtain ⟨t, ht, hv⟩ := (parse_sound limit fuel).1 depth s v rest h
  have hne := jvalue_ne_nil _ t _ hv
  have hl : 0 < t.length := List.length_pos.2 hne
  have := congrArg List.length ht
  simp only [List.length_append] at this
  omega

theorem scanString_progress (s raw r : Bytes) (h : scanString s = some (raw, r)) :
    r.length < s.length := by
  obtain ⟨h1, -⟩ := scanString_spec s raw r h
  have := congrArg List.length h1
  simp only [List.length_append, List.length_cons] at this
  omega

theorem parse_fuel (limit f : Nat) : ∀ f' : Nat,
    (∀ depth s, 2 * s.length + 1 ≤ f → 2 * s.length + 1 ≤ f' →
      parseValue limit f depth s = parseValue limit f' depth s) ∧
    (∀ depth acc s, 2 * s.length + 2 ≤ f → 2 * s.length + 2 ≤ f' →
      parseElements limit f depth acc s = parseElements limit f' depth acc s) ∧
    (∀ depth acc s, 2 * s.length + 2 ≤ f → 2 * s.length + 2 ≤ f' →
      parseMembers limit f depth acc s = parseMembers limit f' depth acc s) := by
  induction f with
  | zero =>
    intro f'
    refine ⟨?_, ?_, ?_⟩ <;> intros <;> omega
  | succ f ih =>
    intro f'
    cases f' with
    | zero => refine ⟨?_, ?_, ?_⟩ <;> intros <;> omega
    | succ f' =>
      obtain ⟨ihV, ihE, ihM⟩ := ih f'
      refine ⟨?_, ?_, ?_⟩
      · intro depth s h1 h2
        cases s with
        | nil => simp [parseValue]
        | cons c s0 =>
          have hl := skipSpace_length s0
          simp only [List.length_cons] at h1 h2
          simp only [parseValue]
          split
          · split
            · rfl
            · split
              · rfl
              · exact ihM _ _ _ (by omega) (by omega)
          · split
            · split
              · rfl
              · split
                · rfl
                · exact ihE _ _ _ (by omega) (by omega)
            · rfl
      · intro depth acc s h1 h2
        simp only [parseElements]
        rw [ihV depth s (by omega) (by omega)]
        rcases hp : parseValue limit f' depth s with _ | ⟨v, rest⟩
        · rfl
        · have hprog := parseValue_progress _ _ _ _ _ _ hp
          have hl := skipSpace_length rest
          simp only
          split
          · rename_i rest1 heq
            have hl1 := skipSpace_length rest1
            have : (skipSpace rest).length = rest1.length + 1 := by rw [heq]; rfl
            exact ihE _ _ _ (by omega) (by omega)
          · rfl
          · rfl
      · intro depth acc s h1 h2
        simp only [parseMembers]
        split
        · rename_i s0
          simp only [List.length_cons] at h1 h2
          rcases hs : scanString s0 with _ | ⟨raw, rest1⟩
          · rfl
          · have hp1 := scanString_progress _ _ _ hs
            simp only
            rcases unquoteBytes raw with _ | key
            · rfl
            · simp only
              have hl1 := skipSpace_length rest1
              split
              · rename_i rest2 heq2
                have e2 : (skipSpace rest1).length = rest2.length + 1 := by rw [heq2]; rfl
                have hl2 := skipSpace_length rest2
                rw [ihV depth (skipSpace rest2) (by omega) (by omega)]
                rcases hp : parseValue limit f' depth (skipSpace rest2) with _ | ⟨v, rest3⟩
                · rfl
                · have hprog := parseValue_progress _ _ _ _ _ _ hp
                  have hl3 := skipSpace_length rest3
                  simp only
                  split
                  · rename_i rest4 heq4
                    have e4 : (skipSpace rest3).length = rest4.length + 1 := by rw [heq4]; rfl
                    have hl4 := skipSpace_length rest4
                    exact ihM _ _ _ (by omega) (by omega)
                  · rfl
                  · rfl
              · rfl
        · rfl

/-- The fuel `parseJSON` passes to the parser is enough: with any larger amount the
parser gives the same result, so it never fails for lack of fuel. -/
theorem parseJSON_fuel (data : Bytes) (fuel : Nat) (h : 2 * data.length + 2 ≤ fuel) :
    parseValue maxNestingDepth fuel 0 (skipSpace data)
      = parseValue maxNestingDepth (2 * data.length + 2) 0 (skipSpace data) := by
  have hl := skipSpace_length data
  exact ((parse_fuel maxNestingDepth fuel (2 * data.length + 2)).1 0 (skipSpace data)
    (by omega) (by omega))

/-! ## The stages of `main` -/

theorem main_parse_error (w : World) (arg : Bytes) (harg : w.Args[1]? = some arg)
    (hbad : ¬ ∃ n, ValidInt arg n) :
    ∃ k, main w = ⟨.code 1, { Stdout := NumError.Error w.Quote ⟨bytesOf "Atoi", arg, k⟩ ++ [10],
                              Calls := [.Atoi arg], BodyOpen := false }⟩ := by
  obtain ⟨k, hk⟩ := Atoi_error_of_invalid arg hbad
  refine ⟨k, ?_⟩
  unfold main
  simp [harg, hk, Process.call, Process.Println]

theorem main_url (id : Int) (h1 : -(2 : Int) ^ 63 ≤ id) (h2 : id < (2 : Int) ^ 63) :
    bytesOf "https://search6.valk.sh/api?id=" ++ Itoa id = apiURL id := by
  rw [Itoa_eq_decimal id h1 h2]
  rfl

theorem main_get_error (w : World) (arg : Bytes) (id : Int) (msg : Bytes)
    (harg : w.Args[1]? = some arg) (hid : ValidInt arg id)
    (hget : w.Get (apiURL id) = .error msg) :
    main w = ⟨.code 2, { Stdout := msg ++ [10], Calls := [.Atoi arg, .Get (apiURL id)],
                         BodyOpen := false }⟩ := by
  have hatoi : Atoi arg = .ok id := (Atoi_ok_iff arg id).2 hid
  have hurl := main_url id hid.choose_spec.2.2.2.1 hid.choose_spec.2.2.2.2
  unfold main
  simp [harg, hatoi, hurl, hget, Process.call, Process.Println]

theorem main_read_error (w : World) (arg : Bytes) (id : Int) (req : Response) (msg : Bytes)
    (harg : w.Args[1]? = some arg) (hid : ValidInt arg id)
    (hget : w.Get (apiURL id) = .ok req) (hbody : req.Body = .error msg) :
    main w = ⟨.code 3, { Stdout := msg ++ [10],
                         Calls := [.Atoi arg, .Get (apiURL id), .ReadAll],
                         BodyOpen := true }⟩ := by
  have hatoi : Atoi arg = .ok id := (Atoi_ok_iff arg id).2 hid
  have hurl := main_url id hid.choose_spec.2.2.2.1 hid.choose_spec.2.2.2.2
  unfold main
  simp [harg, hatoi, hurl, hget, hbody, Process.call, Process.Println, Process.opened]

theorem main_calls (w : World) (arg : Bytes) (id : Int)
    (harg : w.Args[1]? = some arg) (hid : ValidInt arg id) :
    ∃ tail, (main w).proc.Calls = .Atoi arg :: .Get (apiURL id) :: tail ∧
      (∀ c ∈ tail, c = .ReadAll ∨ ∃ data, c = .Unmarshal data) ∧
      ((∃ req, w.Get (apiURL id) = .ok req) → (main w).proc.BodyOpen = true) := by
  rcases hget : w.Get (apiURL id) with msg | req
  · rw [main_get_error w arg id msg harg hid hget]
    exact ⟨[], rfl, by simp, by simp⟩
  · rcases hbody : req.Body with msg | data
    · rw [main_read_error w arg id req msg harg hid hget hbody]
      exact ⟨[.ReadAll], rfl, by simp, by simp⟩
    · rw [main_eq_of_fetch w arg id req data harg hid hget hbody]
      rcases Unmarshal data with ⟨user, _ | err⟩
      · exact ⟨[.ReadAll, .Unmarshal data], rfl, by simp, by simp⟩
      · exact ⟨[.ReadAll, .Unmarshal data], rfl, by simp, by simp⟩

theorem fetches_serving (prog arg : String) (body : Bytes) (id : Int)
    (h : Atoi (bytesOf arg) = .ok id) : Fetches (serving [prog, arg] body) body :=
  ⟨bytesOf arg, id, ⟨.ok body⟩, rfl, (Atoi_ok_iff _ _).1 h, rfl, rfl⟩

theorem decimalNat_bytes (n : Nat) : ∀ c ∈ decimalNat n, IsDigit c := by
  intro c hc
  unfold decimalNat at hc
  unfold IsDigit
  split at hc
  · simp at hc; omega
  · simp only [List.mem_map, List.mem_reverse] at hc
    obtain ⟨d, hd, rfl⟩ := hc
    have := Nat.digits_lt_base (by norm_num : 1 < 10) hd
    omega

theorem decimal_no_newline (i : Int) : 10 ∉ decimal i := by
  intro h
  unfold decimal at h
  split at h
  · rcases List.mem_cons.1 h with h1 | h1
    · omega
    · have := decimalNat_bytes _ 10 h1
      unfold IsDigit at this; omega
  · have := decimalNat_bytes _ 10 h
    unfold IsDigit at this; omega

theorem cardLine_no_newline (u : User) : 10 ∉ cardLine u := by
  unfold cardLine
  simp only [List.mem_append, not_or]
  refine ⟨⟨⟨⟨by decide, decimal_no_newline _⟩, by decide⟩, decimal_no_newline _⟩, by decide⟩

theorem cardLine_ne_nil (u : User) : cardLine u ≠ [] := by
  intro h
  have : (cardLine u).length = 0 := by rw [h]; rfl
  unfold cardLine at this
  simp only [List.length_append] at this
  have h1 : (bytesOf ">").length = 1 := rfl
  omega


/-! ## Well-formed UTF-8 -/

theorem wellFormed_cons_inv (x : Bytes) (h : WellFormedUTF8 x) : ∀ (a : Nat) (s : Bytes),
    x = a :: s → (a ≤ 0x7F ∧ WellFormedUTF8 s) ∨ (0xC2 ≤ a ∧ a ≤ 0xF4) := by
  cases h with
  | nil =>
    intro a s e
    cases e
  | cons bs s1 hb hs =>
    intro a s e
    rcases hb with ⟨a0, rfl, h0⟩ | ⟨a0, b, rfl, h1, h2, -⟩ | ⟨a0, b, c, rfl, hh, -⟩ |
      ⟨a0, b, c, d, rfl, hh, -⟩
    · simp only [List.cons_append, List.nil_append, List.cons.injEq] at e
      obtain ⟨rfl, rfl⟩ := e
      exact Or.inl ⟨h0, hs⟩
    · simp only [List.cons_append, List.cons.injEq] at e
      obtain ⟨rfl, -⟩ := e
      exact Or.inr ⟨h1, by omega⟩
    · simp only [List.cons_append, List.cons.injEq] at e
      obtain ⟨rfl, -⟩ := e
      right
      omega
    · simp only [List.cons_append, List.cons.injEq] at e
      obtain ⟨rfl, -⟩ := e
      right
      omega

theorem wellFormed_drop_ascii (p s : Bytes) (hp : ∀ c ∈ p, c ≤ 0x7F)
    (h : WellFormedUTF8 (p ++ s)) : WellFormedUTF8 s := by
  induction p with
  | nil => exact h
  | cons a p ih =>
    have ha : a ≤ 0x7F := hp a (List.mem_cons_self _ _)
    rcases wellFormed_cons_inv _ h a (p ++ s) rfl with ⟨-, h1⟩ | ⟨h1, -⟩
    · exact ih (fun c hc => hp c (List.mem_cons_of_mem _ hc)) h1
    · omega

theorem wellFormed_ascii (s : Bytes) (hs : ∀ c ∈ s, c ≤ 0x7F) : WellFormedUTF8 s := by
  induction s with
  | nil => exact WellFormedUTF8.nil
  | cons a s ih =>
    have h1 : IsUTF8Char [a] := Or.inl ⟨a, rfl, hs a (List.mem_cons_self _ _)⟩
    exact WellFormedUTF8.cons [a] s h1 (ih (fun c hc => hs c (List.mem_cons_of_mem _ hc)))

/-- A text in which the byte 0xFF comes after ASCII characters is not well-formed
UTF-8. -/
theorem not_wellFormed_of_ff (p s : Bytes) (hp : ∀ c ∈ p, c ≤ 0x7F) :
    ¬ WellFormedUTF8 (p ++ 0xFF :: s) := by
  intro h
  have h1 := wellFormed_drop_ascii p _ hp h
  rcases wellFormed_cons_inv _ h1 0xFF s rfl with ⟨h2, -⟩ | ⟨-, h2⟩ <;> omega

theorem decodeMembers_null_member (ms1 ms2 : List (Bytes × JValue)) (key : Bytes) (u : User)
    (err : Option JsonError) :
    decodeMembers (ms1 ++ (key, .null) :: ms2) u err = decodeMembers (ms1 ++ ms2) u err := by
  induction ms1 generalizing u err with
  | nil =>
    simp only [List.nil_append, decodeMembers]
    cases findField key with
    | none => rfl
    | some f =>
      simp only [storeField]
      cases err <;> rfl
  | cons m ms1 ih =>
    obtain ⟨k, v⟩ := m
    simp only [List.cons_append, decodeMembers]
    cases findField k with
    | none => exact ih u err
    | some f => exact ih _ _

/-- A run that decodes the zero record prints the summary line of the zero record and
nothing after it. -/
theorem main_presents_zero (w : World) (data : Bytes) (hf : Fetches w data)
    (hU : Unmarshal data = ({}, none)) :
    (main w).exitCode = 0 ∧ (main w).stdout = bytesOf "# (0) is level 0\n" := by
  obtain ⟨h1, h2⟩ := main_presents w data {} hf hU
  refine ⟨h1, ?_⟩
  rw [h2]
  have hd : decimal 0 = [48] := by
    unfold decimal
    rw [if_neg (by norm_num)]
    exact decimalNat_lt_ten 0 (by norm_num)
  simp only [summaryLine, hd]
  rfl

/-! ## The claims -/

/-- C1. For every run with an argument at position 1 the exit code is fixed by the
first failing stage, in the order parse, fetch, read, decode: 1 when the argument is
not a valid base-10 signed integer (sign, digits, 64-bit range), else 2 when the GET
fails, else 3 when reading the body fails, else 4 when decoding fails, else 0.  On
each failure standard output is the error's message and a newline, and the library
calls made end with the failing stage. -/
theorem main_exit_code_first_failing_stage (w : World) (arg : Bytes)
    (harg : w.Args[1]? = some arg) :
    ((¬ ∃ n, ValidInt arg n) →
      ∃ k, (main w).exitCode = 1 ∧
        (main w).stdout = NumError.Error w.Quote ⟨bytesOf "Atoi", arg, k⟩ ++ [10] ∧
        (main w).proc.Calls = [.Atoi arg]) ∧
    (∀ n, ValidInt arg n →
      (∀ msg, w.Get (apiURL n) = .error msg →
        (main w).exitCode = 2 ∧ (main w).stdout = msg ++ [10] ∧
        (main w).proc.Calls = [.Atoi arg, .Get (apiURL n)]) ∧
      (∀ req, w.Get (apiURL n) = .ok req →
        (∀ msg, req.Body = .error msg →
          (main w).exitCode = 3 ∧ (main w).stdout = msg ++ [10] ∧
          (main w).proc.Calls = [.Atoi arg, .Get (apiURL n), .ReadAll]) ∧
        (∀ data, req.Body = .ok data →
          (∀ e, (Unmarshal data).2 = some e →
            (main w).exitCode = 4 ∧ (main w).stdout = w.JsonErrorText e ++ [10] ∧
            (main w).proc.Calls = [.Atoi arg, .Get (apiURL n), .ReadAll, .Unmarshal data]) ∧
          ((Unmarshal data).2 = none →
            (main w).exitCode = 0 ∧
            (main w).proc.Calls = [.Atoi arg, .Get (apiURL n), .ReadAll, .Unmarshal data])))) := by
  refine ⟨?_, ?_⟩
  · intro hbad
    obtain ⟨k, hk⟩ := main_parse_error w arg harg hbad
    exact ⟨k, by rw [hk]; exact ⟨rfl, rfl, rfl⟩⟩
  · intro n hn
    refine ⟨?_, ?_⟩
    · intro msg hget
      rw [main_get_error w arg n msg harg hn hget]
      exact ⟨rfl, rfl, rfl⟩
    · intro req hget
      refine ⟨?_, ?_⟩
      · intro msg hbody
        rw [main_read_error w arg n req msg harg hn hget hbody]
        exact ⟨rfl, rfl, rfl⟩
      · intro data hbody
        have hm := main_eq_of_fetch w arg n req data harg hn hget hbody
        refine ⟨?_, ?_⟩
        · intro e he
          rcases hU : Unmarshal data with ⟨user, err⟩
          rw [hU] at he hm
          simp only at he
          subst he
          rw [hm]
          exact ⟨rfl, rfl, rfl⟩
        · intro he
          rcases hU : Unmarshal data with ⟨user, err⟩
          rw [hU] at he hm
          simp only at he
          subst he
          rw [hm]
          exact ⟨rfl, rfl⟩

/-- C1, witness: started as `search6 abc`, the program exits with code 1. -/
theorem main_exit_code_first_failing_stage_witness :
    (main (serving ["search6", "abc"] [])).exitCode = 1 :=
  ((main_exit_code_first_failing_stage (serving ["search6", "abc"] []) (bytesOf "abc") rfl).1
    (fun ⟨n, hn⟩ => by
      have h := (Atoi_ok_iff _ _).2 hn
      rw [show Atoi (bytesOf "abc") = .error ⟨bytesOf "Atoi", bytesOf "abc", .ErrSyntax⟩ from rfl] at h
      cases h)).elim (fun _ h => h.1)

/-- C2. Started without an argument (the argument list holds only the program
name), `main` evaluates `os.Args[1]` out of range: the run ends in a run-time panic,
the exit status is 2 and nothing is written to standard output. -/
theorem main_no_argument_panics (prog : Bytes) (get : Bytes → Except Bytes Response)
    (quote : Bytes → Bytes) (text : JsonError → Bytes) :
    (main ⟨[prog], get, quote, text⟩).exit = .indexOutOfRange 1 1 ∧
    (main ⟨[prog], get, quote, text⟩).exitCode = 2 ∧
    (main ⟨[prog], get, quote, text⟩).stdout = [] :=
  ⟨rfl, rfl, rfl⟩

/-- C3. For every argument that is a valid integer `n`, the one URL `main` requests
is `https://search6.valk.sh/api?id=` followed by the base-10 rendering of `n`. -/
theorem main_requests_api_url (w : World) (arg : Bytes) (n : Int)
    (harg : w.Args[1]? = some arg) (hn : ValidInt arg n) (url : Bytes) :
    Call.Get url ∈ (main w).proc.Calls ↔
      url = bytesOf "https://search6.valk.sh/api?id=" ++ decimal n := by
  obtain ⟨tail, hc, ht, -⟩ := main_calls w arg n harg hn
  rw [hc]
  constructor
  · intro h
    rcases List.mem_cons.1 h with h1 | h1
    · cases h1
    · rcases List.mem_cons.1 h1 with h2 | h2
      · injection h2
      · rcases ht _ h2 with h3 | ⟨d, h3⟩ <;> cases h3
  · intro h
    rw [h]
    exact List.mem_cons_of_mem _ (List.mem_cons_self _ _)

/-- C3, witness: for the argument `42` the URL requested is
`https://search6.valk.sh/api?id=42`. -/
theorem main_requests_api_url_witness :
    Call.Get (bytesOf "https://search6.valk.sh/api?id=42") ∈
      (main (serving ["search6", "42"] aliceBody)).proc.Calls :=
  (main_requests_api_url (serving ["search6", "42"] aliceBody) (bytesOf "42") 42 rfl
    ((Atoi_ok_iff _ _).1 rfl) (bytesOf "https://search6.valk.sh/api?id=42")).2
    (by rw [show decimal 42 = [52, 50] from by
          unfold decimal; rw [if_neg (by norm_num)]; exact decimalNat_two 42 (by norm_num) (by norm_num)]
        rfl)

/-- C4. For every decoded record, whatever its level, standard output begins with
the line `<username>#<discriminator> (<id>) is level <level>` and a newline, id and
level in base 10, username and discriminator copied byte for byte; no further newline
follows. -/
theorem summary_line_printed_first (w : World) (data : Bytes) (u : User)
    (hf : Fetches w data) (hu : Unmarshal data = (u, none)) :
    ∃ tail, (main w).stdout =
        u.Username ++ bytesOf "#" ++ u.Discriminator ++ bytesOf " (" ++ decimal u.ID ++
          bytesOf ") is level " ++ decimal u.Level ++ [10] ++ tail ∧
      10 ∉ tail := by
  obtain ⟨-, hs⟩ := main_presents w data u hf hu
  refine ⟨if u.Level ≥ 5 then cardLine u else [], ?_, ?_⟩
  · rw [hs]; rfl
  · split
    · exact cardLine_no_newline u
    · simp

/-- C4, witness: for the sample response the output begins with
`alice#0001 (42) is level 7` and a newline. -/
theorem summary_line_printed_first_witness :
    ∃ tail, (main (serving ["search6", "42"] aliceBody)).stdout =
        bytesOf "alice" ++ bytesOf "#" ++ bytesOf "0001" ++ bytesOf " (" ++ decimal 42 ++
          bytesOf ") is level " ++ decimal 7 ++ [10] ++ tail ∧
      10 ∉ tail :=
  summary_line_printed_first (serving ["search6", "42"] aliceBody) aliceBody
    { Username := bytesOf "alice", Discriminator := bytesOf "0001", ID := 42, Level := 7 }
    (fetches_serving "search6" "42" aliceBody 42 rfl) rfl

/-- C5. For every decoded record the second line
`https://search6.valk.sh/card?id=<id> <@<id>>` (same id twice, no trailing newline) is
printed exactly when `level >= 5`; below 5 the output is the summary line alone. -/
theorem card_line_iff_level_ge_5 (w : World) (data : Bytes) (u : User)
    (hf : Fetches w data) (hu : Unmarshal data = (u, none)) :
    (5 ≤ u.Level ↔
      (main w).stdout = summaryLine u ++ [10] ++
        (bytesOf "https://search6.valk.sh/card?id=" ++ decimal u.ID ++ bytesOf " <@" ++
          decimal u.ID ++ bytesOf ">")) ∧
    (u.Level < 5 ↔ (main w).stdout = summaryLine u ++ [10]) := by
  obtain ⟨-, hs⟩ := main_presents w data u hf hu
  have hne := cardLine_ne_nil u
  rw [hs]
  by_cases hl : u.Level ≥ 5
  · rw [if_pos hl]
    refine ⟨⟨fun _ => rfl, fun _ => hl⟩, ⟨fun h => by omega, fun h => ?_⟩⟩
    have h2 : cardLine u = [] := by
      have := congrArg List.length h
      simp only [List.length_append] at this
      exact List.length_eq_zero.1 (by omega)
    exact absurd h2 hne
  · rw [if_neg hl, List.append_nil]
    refine ⟨⟨fun h => absurd h hl, fun h => ?_⟩, ⟨fun _ => rfl, fun _ => by omega⟩⟩
    have h2 : cardLine u = [] := by
      have := congrArg List.length h
      simp only [List.length_append] at this
      have h3 : (cardLine u).length = 0 := by
        unfold cardLine
        simp only [List.length_append]
        omega
      exact List.length_eq_zero.1 h3
    exact absurd h2 hne

/-- C5, witness: at level exactly 5 the second line is printed. -/
theorem card_line_iff_level_ge_5_witness :
    (main (serving ["search6", "42"] aliceBody5)).stdout =
      summaryLine { Username := bytesOf "alice", Discriminator := bytesOf "0001", ID := 42,
                    Level := 5 } ++ [10] ++
        (bytesOf "https://search6.valk.sh/card?id=" ++ decimal 42 ++ bytesOf " <@" ++
          decimal 42 ++ bytesOf ">") :=
  (card_line_iff_level_ge_5 (serving ["search6", "42"] aliceBody5) aliceBody5
    { Username := bytesOf "alice", Discriminator := bytesOf "0001", ID := 42, Level := 5 }
    (fetches_serving "search6" "42" aliceBody5 42 rfl) rfl).1.1 (by norm_num)

set_option maxRecDepth 100000

/-- C6, as stated, fails: for the sample response the summary text and the card URL
are separated by a newline, so the output is not the one followed immediately by the
other. -/
theorem alice_output_not_adjacent :
    (main (serving ["search6", "42"] aliceBody)).stdout =
        bytesOf "alice#0001 (42) is level 7" ++ [10] ++
          bytesOf "https://search6.valk.sh/card?id=42 <@42>" ∧
    (main (serving ["search6", "42"] aliceBody)).stdout ≠
        bytesOf "alice#0001 (42) is level 7" ++
          bytesOf "https://search6.valk.sh/card?id=42 <@42>" := by
  constructor
  · rfl
  · intro h
    have h1 := congrArg List.length h
    rw [show (main (serving ["search6", "42"] aliceBody)).stdout =
        bytesOf "alice#0001 (42) is level 7" ++ [10] ++
          bytesOf "https://search6.valk.sh/card?id=42 <@42>" from rfl] at h1
    simp only [List.length_append, List.length_singleton] at h1
    omega

/-- C6, amended. Given the sample response body, the program prints
`alice#0001 (42) is level 7`, one newline, then
`https://search6.valk.sh/card?id=42 <@42>` without a trailing newline, and exits 0. -/
theorem alice_output (w : World) (hf : Fetches w aliceBody) :
    (main w).stdout =
        bytesOf "alice#0001 (42) is level 7\nhttps://search6.valk.sh/card?id=42 <@42>" ∧
    (main w).exitCode = 0 := by
  obtain ⟨arg, id, req, harg, hid, hget, hbody⟩ := hf
  rw [main_eq_of_fetch w arg id req aliceBody harg hid hget hbody]
  exact ⟨rfl, rfl⟩

/-- C6, witness: the run `search6 42` against a server that answers with the sample
body. -/
theorem alice_output_witness :
    (main (serving ["search6", "42"] aliceBody)).stdout =
        bytesOf "alice#0001 (42) is level 7\nhttps://search6.valk.sh/card?id=42 <@42>" ∧
    (main (serving ["search6", "42"] aliceBody)).exitCode = 0 :=
  alice_output (serving ["search6", "42"] aliceBody)
    (fetches_serving "search6" "42" aliceBody 42 rfl)

/-- C7, as stated, fails: the body `\x7b"username":"?"\x7d` with the byte 0xFF in place
of the question mark is not a valid JSON text, since a JSON text is well-formed UTF-8,
yet decoding succeeds: the decoder puts U+FFFD in place of the byte, the summary line
is printed and the exit code is 0. -/
theorem malformed_utf8_body_exits_0 :
    ¬ JSONText malformedBody ∧
    (main (serving ["search6", "42"] malformedBody)).exitCode = 0 ∧
    (main (serving ["search6", "42"] malformedBody)).stdout =
      [0xEF, 0xBF, 0xBD] ++ bytesOf "# (0) is level 0\n" :=
  ⟨fun h => not_wellFormed_of_ff (bytesOf "\x7b\"username\":\"") (bytesOf "\"\x7d")
    (by decide) h.1, rfl, rfl⟩

/-- C7, amended. For every response body that is not a JSON text even when bytes
that are not UTF-8 are let pass inside its strings (the body follows the grammar of
JSON at no nesting depth), decoding fails: the program exits with code 4 and standard
output holds only the line of the decoder's syntax error, no summary line. -/
theorem invalid_json_exits_4 (w : World) (data : Bytes) (hf : Fetches w data)
    (hbad : ¬ JSONSyntax data) :
    (main w).exitCode = 4 ∧ (main w).stdout = w.JsonErrorText (.SyntaxError data) ++ [10] := by
  have hU : Unmarshal data = ({}, some (.SyntaxError data)) := by
    unfold Unmarshal
    cases hp : parseJSON data with
    | none => rfl
    | some v => exact absurd ⟨_, v, parseJSON_sound data v hp⟩ hbad
  exact main_decode_error w data _ _ hf hU

/-- C7, witness: the body `not json`. -/
theorem invalid_json_exits_4_witness :
    (main (serving ["search6", "42"] (bytesOf "not json"))).exitCode = 4 ∧
    (main (serving ["search6", "42"] (bytesOf "not json"))).stdout =
      bytesOf "invalid character 'o' in literal null (expecting 'u')\n" :=
  invalid_json_exits_4 (serving ["search6", "42"] (bytesOf "not json")) (bytesOf "not json")
    (fetches_serving "search6" "42" _ 42 rfl)
    (jsonSyntax_head_n 111 (bytesOf "t json") (by decide))

/-- C8, as stated, fails: the body `null` is valid JSON whose top-level value is not
an object, yet decoding succeeds, the zero record is printed and the exit code is 0. -/
theorem null_body_exits_0 :
    JSONText (bytesOf "null") ∧
    (main (serving ["search6", "42"] (bytesOf "null"))).exitCode = 0 ∧
    (main (serving ["search6", "42"] (bytesOf "null"))).stdout = bytesOf "# (0) is level 0\n" :=
  ⟨⟨wellFormed_ascii _ (by decide),
    0, .null, [], [110, 117, 108, 108], [], rfl, isWS_nil, JValueText.null 0, isWS_nil⟩,
    rfl, rfl⟩

/-- C8, amended. For every response body that follows the grammar of JSON, at whatever
nesting depth, and whose value is an array, a string, a number or a boolean, or an
object in which a key naming a field of the record carries a value other than `null`
of the wrong JSON type, decoding fails: the program exits with code 4 and prints the
line of the error.  `null` is no decode failure.  For a body whose value is `null`
the program prints `# (0) is level 0` and a newline and exits 0.  An object, nested
no deeper than the decoder's limit, with a member whose value is `null` is decoded
as the same object without that member is: the same record and error, hence the
same exit code and the same output. -/
theorem misfit_json_exits_4 (w : World) (data : Bytes) (hf : Fetches w data) :
    (∀ (d : Nat) (v : JValue), JSONValue d data v → Misfit v →
      (main w).exitCode = 4 ∧ ∃ e, (main w).stdout = w.JsonErrorText e ++ [10]) ∧
    (∀ d : Nat, JSONValue d data .null →
      (main w).exitCode = 0 ∧ (main w).stdout = bytesOf "# (0) is level 0\n") ∧
    (∀ (d d1 : Nat) (ms1 : List (Bytes × JValue)) (key : Bytes) (ms2 : List (Bytes × JValue))
        (w1 : World) (data1 : Bytes),
      d ≤ maxNestingDepth → d1 ≤ maxNestingDepth →
      JSONValue d data (.obj (ms1 ++ (key, .null) :: ms2)) →
      JSONValue d1 data1 (.obj (ms1 ++ ms2)) →
      Fetches w1 data1 → w1.JsonErrorText = w.JsonErrorText →
      Unmarshal data = Unmarshal data1 ∧ (main w).exitCode = (main w1).exitCode ∧
        (main w).stdout = (main w1).stdout) := by
  refine ⟨?_, ?_, ?_⟩
  · intro d v hv hm
    have hne : (Unmarshal data).2 ≠ none := by
      cases hp : parseJSON data with
      | none =>
        unfold Unmarshal
        rw [hp]
        exact fun h => nomatch h
      | some v1 =>
        have h1 := jsonValue_unique _ _ data v1 v (parseJSON_sound data v1 hp) hv
        subst h1
        exact Unmarshal_misfit data v1 hp hm
    rcases hU : Unmarshal data with ⟨u, _ | e⟩
    · rw [hU] at hne
      exact absurd rfl hne
    · obtain ⟨h1, h2⟩ := main_decode_error w data u e hf hU
      exact ⟨h1, e, h2⟩
  · rintro d ⟨s1, t, s2, hs, hs1, ht, hs2⟩
    have h0 : JSONValue 0 data .null := by
      cases ht
      exact ⟨s1, _, s2, hs, hs1, JValueText.null 0, hs2⟩
    have hp := parseJSON_complete 0 data .null (Nat.zero_le _) h0
    have hU : Unmarshal data = ({}, none) := by
      unfold Unmarshal
      rw [hp]
    exact main_presents_zero w data hf hU
  · intro d d1 ms1 key ms2 w1 data1 hd hd1 hv hv1 hf1 hw
    have hp := parseJSON_complete d data _ hd hv
    have hp1 := parseJSON_complete d1 data1 _ hd1 hv1
    have hU : Unmarshal data = Unmarshal data1 := by
      unfold Unmarshal
      rw [hp, hp1]
      exact decodeMembers_null_member ms1 ms2 key _ _
    refine ⟨hU, ?_⟩
    rcases hU1 : Unmarshal data1 with ⟨u, _ | e⟩
    · rw [hU1] at hU
      obtain ⟨h1, h2⟩ := main_presents w data u hf hU
      obtain ⟨h3, h4⟩ := main_presents w1 data1 u hf1 hU1
      exact ⟨by rw [h1, h3], by rw [h2, h4]⟩
    · rw [hU1] at hU
      obtain ⟨h1, h2⟩ := main_decode_error w data u e hf hU
      obtain ⟨h3, h4⟩ := main_decode_error w1 data1 u e hf1 hU1
      exact ⟨by rw [h1, h3], by rw [h2, h4, hw]⟩

/-- C8, witness: a string where the number `level` is expected gives exit code 4; the
body `null` gives the zero record and exit code 0; the body `\x7b"level":null,"id":42\x7d`
is decoded as `\x7b"id":42\x7d` is. -/
theorem misfit_json_exits_4_witness :
    (main (serving ["search6", "42"] (bytesOf "\x7b\"level\":\"7\"\x7d"))).exitCode = 4 ∧
    ((main (serving ["search6", "42"] (bytesOf " null "))).exitCode = 0 ∧
      (main (serving ["search6", "42"] (bytesOf " null "))).stdout =
        bytesOf "# (0) is level 0\n") ∧
    Unmarshal (bytesOf "\x7b\"level\":null,\"id\":42\x7d") = Unmarshal (bytesOf "\x7b\"id\":42\x7d") :=
  ⟨((misfit_json_exits_4 (serving ["search6", "42"] (bytesOf "\x7b\"level\":\"7\"\x7d"))
      (bytesOf "\x7b\"level\":\"7\"\x7d") (fetches_serving "search6" "42" _ 42 rfl)).1
      maxNestingDepth (.obj [(bytesOf "level", .str (bytesOf "7"))])
      (parseJSON_sound _ _ rfl)
      ⟨bytesOf "level", .str (bytesOf "7"), .Level, List.mem_cons_self _ _, rfl,
        by simp [WrongType, Field.kind]⟩).1,
    (misfit_json_exits_4 (serving ["search6", "42"] (bytesOf " null "))
      (bytesOf " null ") (fetches_serving "search6" "42" _ 42 rfl)).2.1
      maxNestingDepth (parseJSON_sound _ _ rfl),
    ((misfit_json_exits_4 (serving ["search6", "42"] (bytesOf "\x7b\"level\":null,\"id\":42\x7d"))
      (bytesOf "\x7b\"level\":null,\"id\":42\x7d") (fetches_serving "search6" "42" _ 42 rfl)).2.2
      maxNestingDepth maxNestingDepth [] (bytesOf "level") [(bytesOf "id", .num (bytesOf "42"))]
      (serving ["search6", "42"] (bytesOf "\x7b\"id\":42\x7d")) (bytesOf "\x7b\"id\":42\x7d")
      (Nat.le_refl _) (Nat.le_refl _) (parseJSON_sound _ _ rfl) (parseJSON_sound _ _ rfl)
      (fetches_serving "search6" "42" _ 42 rfl) rfl).1⟩

/-- C9, as stated, fails: in the body `\x7b"LEVEL":7\x7d` the key `level` is absent, yet
the field `Level` is decoded to 7 and the card line is printed: the decoder matches
keys without regard to letter case. -/
theorem uppercase_key_sets_level :
    parseJSON (bytesOf "\x7b\"LEVEL\":7\x7d") = some (.obj [(bytesOf "LEVEL", .num (bytesOf "7"))]) ∧
    bytesOf "LEVEL" ≠ bytesOf "level" ∧
    (Unmarshal (bytesOf "\x7b\"LEVEL\":7\x7d")).1.Level = 7 ∧
    (main (serving ["search6", "42"] (bytesOf "\x7b\"LEVEL\":7\x7d"))).stdout =
      bytesOf "# (0) is level 7\nhttps://search6.valk.sh/card?id=0 <@0>" :=
  ⟨rfl, by decide, rfl, rfl⟩

/-- C9, amended. For every response body that is a JSON object, a field of the record
that no key of the object names, exactly or up to letter case, keeps its zero value,
and an absent key is never a decode failure: whenever decoding fails, some member
that is present names a field and carries a value that field cannot take.  For an
object without members, such as the body `\x7b\x7d`, the program prints
`# (0) is level 0` and a newline, no second line, and exits 0. -/
theorem absent_fields_stay_zero (w : World) (data : Bytes) (ms : List (Bytes × JValue))
    (hf : Fetches w data) (hp : parseJSON data = some (.obj ms)) :
    (∀ f, (∀ kv ∈ ms, findField kv.1 ≠ some f) → (Unmarshal data).1.isZero f) ∧
    ((Unmarshal data).2 ≠ none →
      ∃ kv ∈ ms, ∃ f, findField kv.1 = some f ∧ ∀ u : User, (storeField u f kv.2).2 ≠ none) ∧
    (ms = [] →
      (main w).exitCode = 0 ∧ (main w).stdout = bytesOf "# (0) is level 0\n") := by
  have hU : Unmarshal data = decodeMembers ms {} none := by
    unfold Unmarshal
    rw [hp]
  refine ⟨?_, ?_, ?_⟩
  · intro f habs
    rw [hU]
    exact decodeMembers_isZero ms {} none f habs (zero_isZero f)
  · intro herr
    rw [hU] at herr
    exact decodeMembers_error_cause ms {} herr
  · intro hnil
    subst hnil
    obtain ⟨h1, h2⟩ := main_presents w data {} hf hU
    refine ⟨h1, ?_⟩
    rw [h2]
    have hd : decimal 0 = [48] := by
      unfold decimal
      rw [if_neg (by norm_num)]
      exact decimalNat_lt_ten 0 (by norm_num)
    simp only [summaryLine, hd]
    rfl

/-- C9, witness: the body `\x7b\x7d`. -/
theorem absent_fields_stay_zero_witness :
    (main (serving ["search6", "42"] (bytesOf "\x7b\x7d"))).exitCode = 0 ∧
    (main (serving ["search6", "42"] (bytesOf "\x7b\x7d"))).stdout = bytesOf "# (0) is level 0\n" :=
  (absent_fields_stay_zero (serving ["search6", "42"] (bytesOf "\x7b\x7d")) (bytesOf "\x7b\x7d") []
    (fetches_serving "search6" "42" _ 42 rfl) rfl).2.2 rfl

/-- C10, as stated, fails: in the successful run on the sample response the GET
succeeds, the process exits with code 0, and the response body has not been closed. -/
theorem body_left_open :
    (main (serving ["search6", "42"] aliceBody)).exitCode = 0 ∧
    (main (serving ["search6", "42"] aliceBody)).proc.BodyOpen = true ∧
    Call.BodyClose ∉ (main (serving ["search6", "42"] aliceBody)).proc.Calls := by
  refine ⟨rfl, rfl, ?_⟩
  rw [show (main (serving ["search6", "42"] aliceBody)).proc.Calls =
    [.Atoi (bytesOf "42"), .Get (bytesOf "https://search6.valk.sh/api?id=42"), .ReadAll,
      .Unmarshal aliceBody] from rfl]
  simp

/-- C10, amended. On every execution path of `main` on which the GET succeeded, the
program makes no call that closes the response body, whether reading failed, decoding
failed or the run succeeded: the body is still open when the process exits and is
released only by the exit itself. -/
theorem main_never_closes_body (w : World) (arg : Bytes) (id : Int) (req : Response)
    (harg : w.Args[1]? = some arg) (hid : ValidInt arg id)
    (hget : w.Get (apiURL id) = .ok req) :
    (main w).proc.BodyOpen = true ∧ Call.BodyClose ∉ (main w).proc.Calls := by
  obtain ⟨tail, hc, ht, ho⟩ := main_calls w arg id harg hid
  refine ⟨ho ⟨req, hget⟩, ?_⟩
  rw [hc]
  intro h
  rcases List.mem_cons.1 h with h1 | h1
  · cases h1
  · rcases List.mem_cons.1 h1 with h2 | h2
    · cases h2
    · rcases ht _ h2 with h3 | ⟨d, h3⟩ <;> cases h3

/-- C10, witness: the run on a body that fails to decode exits with the body open. -/
theorem main_never_closes_body_witness :
    (main (serving ["search6", "42"] (bytesOf "not json"))).proc.BodyOpen = true ∧
    Call.BodyClose ∉ (main (serving ["search6", "42"] (bytesOf "not json"))).proc.Calls :=
  main_never_closes_body (serving ["search6", "42"] (bytesOf "not json")) (bytesOf "42") 42
    ⟨.ok (bytesOf "not json")⟩ rfl ((Atoi_ok_iff _ _).1 rfl) rfl

end Search6
